import Mathlib

/-!
# Filestash configuration store (`server/common/config.go`)

A shallow embedding of the configuration store: the schema tree of containers (`Form`) and leaf
settings (`FormElement`), the path resolver inside `Configuration.Get`, the order preserving JSON
emitter `Form.toJSON`, the hydration pass of `Configuration.Load`, the cursor operations
`Set`, `Default`, `Interface`, `String`, `Int`, `Bool`, the iterator `Form.Iterator`, the
projection `Configuration.Export` and the registry of change listeners.

Modelling conventions.

* A Go `string` is a Lean `String`; the program only ever cuts strings at the ASCII characters
  `.` and space, so working on characters instead of bytes makes no difference on UTF-8 text.
* A Go `interface{}` is a `GoValue`: one constructor per dynamic type the program tells apart.
* A `*FormElement` is a `Ptr`: the position of a container in the tree, the backing array of its
  `Elmnts` slice that the pointer was taken into, and an index.  `append` moves a full slice to a
  new backing array, after which older pointers still see the abandoned array; the abandoned arrays
  are kept in `Configuration.retired`.
* A run-time panic is an explicit `Outcome.panicked`.
* The mutex, the channels of the change listeners and the file system are outside the model; the
  documents handed to the file by `Save` are recorded in `Configuration.writes`, and the registry
  of change listeners is a list of its own.
-/

set_option linter.dupNamespace false

namespace Filestash

/-! ## Values of type `interface{}` -/

/-- The dynamic values an `interface{}` of the configuration can hold. A `float64` is given by
a rational number: the number itself where that is a float64, as every integer below 2^53 is,
and otherwise the decimal number that the float64 is written as (JSON carries neither NaN nor
infinities). A `[]byte` is given by the text it spells. -/
inductive GoValue where
  | nil
  | string (s : String)
  | bytes (b : String)
  | float64 (f : Rat)
  | int64 (n : Int)
  | int (n : Int)
  | bool (b : Bool)
  deriving DecidableEq, Repr

/-- The comparison `a != b` of two interface values. Go panics at run time when both hold the
same uncomparable dynamic type, here a byte slice: the result is then `none`. Values of different
dynamic types are different. -/
def GoValue.ne : GoValue → GoValue → Option Bool
  | .bytes _, .bytes _ => none
  | a, b => some (decide (a ≠ b))

/-! ## The schema tree -/

/-- Leaf setting, `type FormElement struct`. The field `Type` of the source is `Typ` here, `Type`
being reserved. -/
structure FormElement where
  Id : String := ""
  Name : String := ""
  Typ : String := ""
  Description : String := ""
  Placeholder : String := ""
  Opts : List String := []
  Target : List String := []
  ReadOnly : Bool := false
  Default : GoValue := GoValue.nil
  Value : GoValue := GoValue.nil
  MultiValue : Bool := false
  Datalist : List String := []
  Order : Int := 0
  Required : Bool := false
  deriving DecidableEq, Repr

/-- Container, `type Form struct`. Besides the three fields of the source, the header of the
`Elmnts` slice is made explicit: `cap` is the capacity of its backing array and `gen` counts how
often `append` has moved the slice to a fresh backing array. -/
structure Form where
  Title : String := ""
  Form : List Form
  Elmnts : List FormElement := []
  cap : Nat := Elmnts.length
  gen : Nat := 0
  deriving Repr

/-- The `Form` literal of the source with only a title: `Form{ Title: title }`. Its two slices
are nil. -/
def Form.titled (title : String) : Filestash.Form := { Title := title, Form := [] }

/-- Pointer to a leaf, `*FormElement`: the indices of the containers on the way down from the top
level, the backing array of the last container's `Elmnts` (its generation), and the index in that
array. -/
structure Ptr where
  path : List Nat
  gen : Nat
  idx : Nat
  deriving DecidableEq, Repr

/-- A backing array that `append` has abandoned: the position and generation it had, and its
contents. -/
structure Retired where
  path : List Nat
  gen : Nat
  elmnts : List FormElement
  deriving Repr

/-! ## Library functions -/

/-- The call `strings.Split(s, ".")`: the pieces of `s` between the dots, one more than there are
dots. -/
def splitDot (s : String) : List String :=
  (s.toList.splitOn '.').map String.mk

/-- The call `strings.Replace(str, " ", "_", -1)` of `formatKey`. -/
def formatKey (str : String) : String :=
  String.mk (str.toList.map (fun c => if c = ' ' then '_' else c))

/-- Capacity of the array `append` allocates for a slice that is full: the Go runtime doubles a
small slice. The language itself promises only that the new array is large enough. -/
def growCap (cap : Nat) : Nat := if cap = 0 then 1 else 2 * cap

/-! ## Path resolution -/

/-- First index `i` with `forms[i].Title == title`: the loop `for i := range *forms` of `traverse`
up to its first hit. -/
def findForm (title : String) : List Form → Option Nat
  | [] => none
  | f :: fs => if f.Title = title then some 0 else (findForm title fs).map (· + 1)

/-- First index `j` with `Elmnts[j].Name == name`: the loop over `currentForm.Elmnts`. -/
def findElmnt (name : String) : List FormElement → Option Nat
  | [] => none
  | e :: es => if e.Name = name then some 0 else (findElmnt name es).map (· + 1)

/-- What a call of `traverse` leaves behind: the pointer it returns (`none` is `nil`), the slice
`*forms` after the call, and the backing array abandoned by `append`, if one was. -/
structure Traversal where
  elem : Option Ptr
  forms : List Form
  retired : Option Retired
  deriving Repr

/-- The leaf step of `traverse`, taken when two path segments are left: return the first element
of `currentForm` named `name`, or append `FormElement{ Name: name, Type: "text" }` and return it.
The result is the index of the element and the container as it is stored back in `(*forms)[i]`;
the third component is the old backing array when `append` had to move the slice. -/
def Form.leaf (currentForm : Filestash.Form) (name : String) :
    Nat × Filestash.Form × Option (List FormElement) :=
  match findElmnt name currentForm.Elmnts with
  | some j => (j, currentForm, none)
  | none =>
    let elmnts := currentForm.Elmnts ++ [{ Name := name, Typ := "text" }]
    if currentForm.Elmnts.length < currentForm.cap then
      (currentForm.Elmnts.length, { currentForm with Elmnts := elmnts }, none)
    else
      (currentForm.Elmnts.length,
        { currentForm with Elmnts := elmnts, cap := growCap currentForm.cap,
                           gen := currentForm.gen + 1 },
        some currentForm.Elmnts)

/-- The body of `traverse` once the loop has stopped at `(*forms)[i]`, the first container titled
`path[0]`; `rest` is `path[1:]` and `sub` is the recursive call on the children. The index is in
range where `traverse` uses this function. -/
def traverseAt (sub : List Form → Traversal) (forms : List Form) (i : Nat) (rest : List String) :
    Traversal :=
  match forms[i]? with
  | none => ⟨none, forms, none⟩
  | some currentForm =>
    match rest with
    | [name] =>
      let r := currentForm.leaf name
      ⟨some ⟨[i], r.2.1.gen, r.1⟩, forms.set i r.2.1,
        r.2.2.map (fun old => ⟨[i], currentForm.gen, old⟩)⟩
    | _ =>
      let r := sub currentForm.Form
      ⟨r.elem.map (fun p => { p with path := i :: p.path }),
        forms.set i { currentForm with Form := r.forms },
        r.retired.map (fun o => { o with path := i :: o.path })⟩

/-- The closure `traverse` of `Configuration.Get`. An empty path gives `nil`. Otherwise the first
container titled `path[0]` is entered; when there is none, `Form{ Title: path[0] }` is appended and
the search repeated, which then stops at the container just appended. -/
def traverse (forms : List Form) : List String → Traversal
  | [] => ⟨none, forms, none⟩
  | p0 :: rest =>
    match findForm p0 forms with
    | some i => traverseAt (fun sub => traverse sub rest) forms i rest
    | none =>
      traverseAt (fun sub => traverse sub rest) (forms ++ [Form.titled p0]) forms.length rest

/-! ## The configuration -/

/-- Modelled from the spec: the type `KeyValueStore` of the field `cache`, which `config.go` uses
but does not declare. It maps a full path string to a previously resolved leaf reference. An entry
may hold the nil pointer, which `Get` stores for a key with fewer than two usable segments. -/
abbrev KeyValueStore := List (String × Option Ptr)

/-- Modelled from the spec: `NewKeyValueStore()`, the empty cache. -/
def NewKeyValueStore : KeyValueStore := []

/-- Modelled from the spec: `cache.Get(key)` returns the cached reference or none. -/
def KeyValueStore.Get (cache : KeyValueStore) (key : String) : Option (Option Ptr) :=
  (cache.find? (fun e => e.1 = key)).map (·.2)

/-- Modelled from the spec: `cache.Set(key, ref)` stores one reference, replacing an older one. -/
def KeyValueStore.Set (cache : KeyValueStore) (key : String) (ref : Option Ptr) : KeyValueStore :=
  (key, ref) :: cache.filter (fun e => e.1 ≠ key)

/-- Modelled from the spec: `cache.Clear()` invalidates everything. -/
def KeyValueStore.Clear (_cache : KeyValueStore) : KeyValueStore := []

/-- The state `type Configuration struct`, without the mutex, the listeners and the opaque
connection list. `retired` holds the backing arrays abandoned by `append` and `writes` the
documents that `Save` has handed to the configuration file, oldest first. -/
structure Configuration where
  currentElement : Option Ptr := none
  cache : KeyValueStore := NewKeyValueStore
  form : List Form
  retired : List Retired := []
  writes : List String := []
  deriving Repr

/-- The schema `NewConfiguration()` declares. Each slice literal has a backing array exactly as
long as the literal. -/
def NewConfiguration : Configuration :=
  { form := [
      { Title := "general", Form := [], Elmnts := [
          { Name := "name", Typ := "text", Default := .string "Filestash",
            Description := "Name has shown in the UI", Placeholder := "Default: \"Filestash\"" },
          { Name := "port", Typ := "number", Default := .int 8334,
            Description := "Port on which the application is available.",
            Placeholder := "Default: 8334" },
          { Name := "host", Typ := "text",
            Description := "The host people need to use to access this server",
            Placeholder := "Eg: \"demo.filestash.app\"" },
          { Name := "secret_key", Typ := "password",
            Description := "The key that's used to encrypt and decrypt content. Update this settings will invalidate existing user sessions and shared links, use with caution!" },
          { Name := "force_ssl", Typ := "boolean",
            Description := "Enable the web security mechanism called 'Strict Transport Security'" },
          { Name := "editor", Typ := "select", Default := .string "emacs",
            Opts := ["base", "emacs", "vim"],
            Description := "Keybinding to be use in the editor. Default: \"emacs\"" },
          { Name := "fork_button", Typ := "boolean", Default := .bool true,
            Description := "Display the fork button in the login screen" },
          { Name := "display_hidden", Typ := "boolean", Default := .bool false,
            Description := "Should files starting with a dot be visible by default?" },
          { Name := "auto_connect", Typ := "boolean", Default := .bool false,
            Description := "User don't have to click on the login button if an admin is prefilling a unique backend" },
          { Name := "remember_me", Typ := "boolean", Default := .bool true,
            Description := "Visiblity of the remember me button on the login screen" },
          { Name := "upload_button", Typ := "boolean", Default := .bool false,
            Description := "Display the upload button on any device" }] },
      { Title := "features", Form := [
          { Title := "share", Form := [], Elmnts := [
              { Name := "enable", Typ := "boolean", Default := .bool true,
                Description := "Enable/Disable the share feature" }] }] },
      { Title := "log", Form := [], Elmnts := [
          { Name := "enable", Typ := "enable", Target := ["log_level"], Default := .bool true },
          { Name := "level", Typ := "select", Default := .string "INFO",
            Opts := ["DEBUG", "INFO", "WARNING", "ERROR"], Id := "log_level",
            Description := "Default: \"INFO\". This setting determines the level of detail at which log events are written to the log file" },
          { Name := "telemetry", Typ := "boolean", Default := .bool false,
            Description := "We won't share anything with any third party. This will only to be used to improve Filestash" }] },
      { Title := "email", Form := [], Elmnts := [
          { Name := "server", Typ := "text", Default := .string "smtp.gmail.com",
            Description := "Address of the SMTP email server.",
            Placeholder := "Default: smtp.gmail.com" },
          { Name := "port", Typ := "number", Default := .int 587,
            Description := "Port of the SMTP email server. Eg: 587",
            Placeholder := "Default: 587" },
          { Name := "username", Typ := "text",
            Description := "The username for authenticating to the SMTP server.",
            Placeholder := "Eg: username@gmail.com" },
          { Name := "password", Typ := "password",
            Description := "The password associated with the SMTP username.",
            Placeholder := "Eg: Your google password" },
          { Name := "from", Typ := "text",
            Description := "Email address visible on sent messages.",
            Placeholder := "Eg: username@gmail.com" }] },
      { Title := "auth", Form := [], Elmnts := [
          { Name := "admin", Typ := "bcrypt", Default := .string "",
            Description := "Password of the admin section." }] }] }

/-- The method `Configuration.Get`: serve the key from the cache, or resolve it with `traverse`
on `strings.Split(key, ".")` and remember the result. A cached nil pointer is a hit as well: the
cache hands back an interface that holds a typed nil, which is not the nil interface. -/
def Configuration.Get (key : String) (this : Configuration) : Configuration :=
  match this.cache.Get key with
  | none =>
    let r := traverse this.form (splitDot key)
    { this with
      currentElement := r.elem
      form := r.forms
      retired := this.retired ++ r.retired.toList
      cache := this.cache.Set key r.elem }
  | some tmp => { this with currentElement := tmp }

/-! ## Reading and writing through a pointer -/

/-- The container at a position of the tree. -/
def formAt : List Form → List Nat → Option Form
  | _, [] => none
  | forms, [i] => forms[i]?
  | forms, i :: j :: rest =>
    match forms[i]? with
    | none => none
    | some f => formAt f.Form (j :: rest)

/-- Replace the container at a position of the tree by its image under `g`. -/
def modifyFormAt (g : Form → Form) : List Form → List Nat → List Form
  | forms, [] => forms
  | forms, [i] =>
    match forms[i]? with
    | none => forms
    | some f => forms.set i (g f)
  | forms, i :: j :: rest =>
    match forms[i]? with
    | none => forms
    | some f => forms.set i { f with Form := modifyFormAt g f.Form (j :: rest) }

/-- Replace the element at index `i` by its image under `g`. -/
def modifyElmnt (g : FormElement → FormElement) (elmnts : List FormElement) (i : Nat) :
    List FormElement :=
  match elmnts[i]? with
  | none => elmnts
  | some el => elmnts.set i (g el)

/-- Replace the element at index `i` of a container by its image under `g`. -/
def Form.write (g : FormElement → FormElement) (i : Nat) (f : Filestash.Form) : Filestash.Form :=
  { f with Elmnts := modifyElmnt g f.Elmnts i }

/-- The element a pointer refers to, `*p`: the element of the tree when the pointer was taken into
the backing array the container still uses, the element of the abandoned array otherwise. -/
def Configuration.load (this : Configuration) (p : Ptr) : Option FormElement :=
  match formAt this.form p.path with
  | none => none
  | some f =>
    if f.gen = p.gen then f.Elmnts[p.idx]?
    else (this.retired.find? (fun r => r.path = p.path ∧ r.gen = p.gen)).bind
      (fun r => r.elmnts[p.idx]?)

/-- Assignment through a pointer, `*p = g(*p)`. -/
def Configuration.store (this : Configuration) (p : Ptr) (g : FormElement → FormElement) :
    Configuration :=
  match formAt this.form p.path with
  | none => this
  | some f =>
    if f.gen = p.gen then
      { this with form := modifyFormAt (Form.write g p.idx) this.form p.path }
    else
      let write := fun (r : Retired) =>
        if r.path = p.path ∧ r.gen = p.gen then
          { r with elmnts := modifyElmnt g r.elmnts p.idx }
        else r
      { this with retired := this.retired.map write }

/-! ## The serializer -/

mutual

/-- The method `Form.toJSON`. -/
def Form.toJSON (fn : FormElement → String) : Filestash.Form → String
  | ⟨title, form, elmnts, _, _⟩ =>
    let ret := ""
    let ret := if title ≠ "" then ret ++ "\"" ++ formatKey title ++ "\":" else ret
    let ret := toJSON.elmntsLoop fn elmnts.length form.length elmnts 0 ret
    let ret := toJSON.formLoop fn form.length elmnts.length form 0 ret
    if form.length = 0 ∧ elmnts.length = 0 then ret ++ "\x7b\x7d" else ret

/-- The loop `for i := 0; i < len(this.Form); i++` of `toJSON`, from index `i` on, over the
children still to be visited. -/
def toJSON.formLoop (fn : FormElement → String) (lenForm lenElmnts : Nat) :
    List Filestash.Form → Nat → String → String
  | [], _, ret => ret
  | f :: fs, i, ret =>
    let ret := if i = 0 ∧ lenElmnts = 0 then ret ++ "\x7b" else ret
    let ret := ret ++ f.toJSON fn
    let ret := if i = lenForm - 1 then ret ++ "\x7d" else ret
    let ret := if i ≠ lenForm - 1 then ret ++ "," else ret
    toJSON.formLoop fn lenForm lenElmnts fs (i + 1) ret

/-- The loop `for i := 0; i < len(this.Elmnts); i++` of `toJSON`, from index `i` on, over the
elements still to be visited. -/
def toJSON.elmntsLoop (fn : FormElement → String) (lenElmnts lenForm : Nat) :
    List FormElement → Nat → String → String
  | [], _, ret => ret
  | el :: els, i, ret =>
    let ret := if i = 0 then ret ++ "\x7b" else ret
    let ret := ret ++ "\"" ++ formatKey el.Name ++ "\":" ++ fn el
    let ret := if i = lenElmnts - 1 ∧ lenForm = 0 then ret ++ "\x7d" else ret
    let ret := if i ≠ lenElmnts - 1 ∨ lenForm ≠ 0 then ret ++ "," else ret
    toJSON.elmntsLoop fn lenElmnts lenForm els (i + 1) ret

end

/-! ## The JSON encoder `json.Marshal`, on the values of the configuration -/

/-- Lower case hexadecimal digit. -/
def hexDigit (n : Nat) : Char :=
  if n < 10 then Char.ofNat (48 + n) else Char.ofNat (87 + n)

/-- How `encoding/json` writes one character of a string: the quote, the backslash and the
control characters are escaped, and so are the characters `<`, `>`, `&`, U+2028 and U+2029. -/
def jsonEscape (c : Char) : List Char :=
  if c = '"' then ['\\', '"']
  else if c = '\\' then ['\\', '\\']
  else if c = '\n' then ['\\', 'n']
  else if c = '\r' then ['\\', 'r']
  else if c = '\t' then ['\\', 't']
  else if c.toNat < 32 ∨ c = '<' ∨ c = '>' ∨ c = '&' ∨ c.toNat = 0x2028 ∨ c.toNat = 0x2029 then
    ['\\', 'u', hexDigit (c.toNat / 4096), hexDigit (c.toNat / 256 % 16),
      hexDigit (c.toNat / 16 % 16), hexDigit (c.toNat % 16)]
  else [c]

/-- A string as a JSON string. -/
def jsonQuote (s : String) : String :=
  "\"" ++ String.mk (s.toList.flatMap jsonEscape) ++ "\""

/-- Character of the standard base64 alphabet. -/
def base64Char (n : Nat) : Char :=
  "ABCDEFGHIJKLMNOPQRSTUVWXYZabcdefghijklmnopqrstuvwxyz0123456789+/".toList.getD n '='

/-- Standard base64 with padding, which is how `encoding/json` writes a byte slice. -/
def base64 : List Nat → List Char
  | a :: b :: c :: rest =>
    base64Char (a / 4) :: base64Char (a % 4 * 16 + b / 16) :: base64Char (b % 16 * 4 + c / 64) ::
      base64Char (c % 64) :: base64 rest
  | [a, b] => [base64Char (a / 4), base64Char (a % 4 * 16 + b / 16), base64Char (b % 16 * 4), '=']
  | [a] => [base64Char (a / 4), base64Char (a % 4 * 16), '=', '=']
  | [] => []

/-- The bytes of a text. -/
def utf8Bytes (s : String) : List Nat :=
  s.toList.flatMap (fun c => (String.utf8EncodeChar c).map UInt8.toNat)

/-- The digits after the decimal point of `r / den`, at most `fuel` of them. -/
def fracDigits : Nat → Nat → Nat → List Char
  | 0, _, _ => []
  | fuel + 1, r, den =>
    if r = 0 then [] else Char.ofNat (48 + r * 10 / den) :: fracDigits fuel (r * 10 % den) den

/-- A `float64` as a JSON number, in the plain decimal form that `encoding/json` uses between
1e-6 and 1e21: an integral value has no decimal point. -/
def formatFloat (q : Rat) : String :=
  (if q.num < 0 then "-" else "") ++ toString (q.num.natAbs / q.den) ++
    (if q.num.natAbs % q.den = 0 then ""
     else "." ++ String.mk (fracDigits 20 (q.num.natAbs % q.den) q.den))

/-- The call `json.Marshal(v)` on a value of the configuration. It cannot fail on these values. -/
def jsonMarshal : GoValue → String
  | .nil => "null"
  | .string s => jsonQuote s
  | .bytes b => "\"" ++ String.mk (base64 (utf8Bytes b)) ++ "\""
  | .float64 f => formatFloat f
  | .int64 n => toString n
  | .int n => toString n
  | .bool b => if b then "true" else "false"

/-! ## The JSON reader `gjson`, on a well formed document -/

/-- A parsed document, `gjson.Result`. An object keeps its members in document order. -/
inductive Json where
  | null
  | bool (b : Bool)
  | num (f : Rat)
  | str (s : String)
  | arr (elems : List Json)
  | obj (members : List (String × Json))
  deriving Repr

/-- The method `Result.Value()` on a scalar: nil, a bool, a float64 or a string. (On an array or
an object it builds a slice or a map; `JsonIterator` does not call it there.) -/
def Json.Value : Json → GoValue
  | .null => .nil
  | .bool b => .bool b
  | .num f => .float64 f
  | .str s => .string s
  | .arr _ => .nil
  | .obj _ => .nil

/-- Skip JSON white space. -/
def skipWs : List Char → List Char
  | [] => []
  | c :: cs => if c = ' ' ∨ c = '\n' ∨ c = '\t' ∨ c = '\r' then skipWs cs else c :: cs

/-- Value of a hexadecimal digit. -/
def hexVal (c : Char) : Option Nat :=
  if '0' ≤ c ∧ c ≤ '9' then some (c.toNat - 48)
  else if 'a' ≤ c ∧ c ≤ 'f' then some (c.toNat - 87)
  else if 'A' ≤ c ∧ c ≤ 'F' then some (c.toNat - 55)
  else none

/-- The character a one letter escape stands for. -/
def unescape (c : Char) : Option Char :=
  if c = '"' then some '"'
  else if c = '\\' then some '\\'
  else if c = '/' then some '/'
  else if c = 'b' then some (Char.ofNat 8)
  else if c = 'f' then some (Char.ofNat 12)
  else if c = 'n' then some '\n'
  else if c = 'r' then some '\r'
  else if c = 't' then some '\t'
  else none

/-- Read a string up to its closing quote; `acc` holds the characters read so far, last first.
An escape `\uXXXX` is read as the code point XXXX. -/
def parseStr : List Char → List Char → Option (String × List Char)
  | [], _ => none
  | '"' :: rest, acc => some (String.mk acc.reverse, rest)
  | '\\' :: 'u' :: a :: b :: c :: d :: rest, acc =>
    match hexVal a, hexVal b, hexVal c, hexVal d with
    | some a, some b, some c, some d =>
      parseStr rest (Char.ofNat (a * 4096 + b * 256 + c * 16 + d) :: acc)
    | _, _, _, _ => none
  | '\\' :: e :: rest, acc =>
    match unescape e with
    | some c => parseStr rest (c :: acc)
    | none => none
  | c :: rest, acc => parseStr rest (c :: acc)

/-- Value of a run of decimal digits. -/
def digitsVal (ds : List Char) : Nat :=
  ds.foldl (fun n c => 10 * n + (c.toNat - 48)) 0

/-- Read a JSON number as the rational its decimal form denotes. -/
def parseNum (cs : List Char) : Option (Rat × List Char) :=
  let neg := cs.head? = some '-'
  let cs := if neg then cs.tail else cs
  let ip := cs.span Char.isDigit
  if ip.1 = [] then none else
  let fp := match ip.2 with
    | '.' :: r => r.span Char.isDigit
    | r => ([], r)
  let ex : Int × List Char := match fp.2 with
    | 'e' :: '-' :: r | 'E' :: '-' :: r => (- (digitsVal (r.span Char.isDigit).1 : Int), (r.span Char.isDigit).2)
    | 'e' :: '+' :: r | 'E' :: '+' :: r => ((digitsVal (r.span Char.isDigit).1 : Int), (r.span Char.isDigit).2)
    | 'e' :: r | 'E' :: r => ((digitsVal (r.span Char.isDigit).1 : Int), (r.span Char.isDigit).2)
    | r => (0, r)
  let mant : Int := if neg then - (digitsVal (ip.1 ++ fp.1) : Int) else digitsVal (ip.1 ++ fp.1)
  let scale : Int := ex.1 - fp.1.length
  let f : Rat := if 0 ≤ scale then Rat.ofInt (mant * 10 ^ scale.toNat)
    else mkRat mant (10 ^ (- scale).toNat)
  some (f, ex.2)

mutual

/-- Read one JSON value; `fuel` bounds the number of values still to be read. -/
def parseValue : Nat → List Char → Option (Json × List Char)
  | 0, _ => none
  | fuel + 1, cs =>
    match skipWs cs with
    | '\x7b' :: rest =>
      match skipWs rest with
      | '\x7d' :: rest => some (.obj [], rest)
      | rest => parseMembers fuel rest []
    | '[' :: rest =>
      match skipWs rest with
      | ']' :: rest => some (.arr [], rest)
      | rest => parseElems fuel rest []
    | '"' :: rest => (parseStr rest []).map (fun r => (.str r.1, r.2))
    | 't' :: 'r' :: 'u' :: 'e' :: rest => some (.bool true, rest)
    | 'f' :: 'a' :: 'l' :: 's' :: 'e' :: rest => some (.bool false, rest)
    | 'n' :: 'u' :: 'l' :: 'l' :: rest => some (.null, rest)
    | rest => (parseNum rest).map (fun r => (.num r.1, r.2))

/-- Read the members of an object after its opening brace; `acc` holds the members read so far,
last first. -/
def parseMembers : Nat → List Char → List (String × Json) → Option (Json × List Char)
  | 0, _, _ => none
  | fuel + 1, cs, acc =>
    match skipWs cs with
    | '"' :: rest =>
      match parseStr rest [] with
      | none => none
      | some (key, rest) =>
        match skipWs rest with
        | ':' :: rest =>
          match parseValue fuel rest with
          | none => none
          | some (value, rest) =>
            match skipWs rest with
            | ',' :: rest => parseMembers fuel rest ((key, value) :: acc)
            | '\x7d' :: rest => some (.obj ((key, value) :: acc).reverse, rest)
            | _ => none
        | _ => none
    | _ => none

/-- Read the elements of an array after its opening bracket. -/
def parseElems : Nat → List Char → List Json → Option (Json × List Char)
  | 0, _, _ => none
  | fuel + 1, cs, acc =>
    match parseValue fuel cs with
    | none => none
    | some (value, rest) =>
      match skipWs rest with
      | ',' :: rest => parseElems fuel rest (value :: acc)
      | ']' :: rest => some (.arr (value :: acc).reverse, rest)
      | _ => none

end

/-- The call `gjson.Parse(json)` on a well formed document; `none` stands for a result that does
not exist, which is what this model gives for any other text. -/
def gjsonParse (json : String) : Option Json :=
  match parseValue (json.length + 1) json.toList with
  | some (doc, rest) => if skipWs rest = [] then some doc else none
  | none => none

/-! ## Flattening a document -/

/-- One flattened pair, `type JSONIterator struct`. -/
structure JSONIterator where
  Path : String
  Value : GoValue
  deriving DecidableEq, Repr

mutual

/-- The closure `recurJSON` of `JsonIterator`. `ForEach` visits the members of an object in
document order; on an array it visits the elements with an empty key, and on a scalar it calls
the iterator once, with an empty key and the scalar itself. -/
def recurJSON : Json → String → List JSONIterator
  | .obj members, pkey => recurJSON.forEach members (if pkey ≠ "" then pkey ++ "." else pkey)
  | .arr elems, pkey => recurJSON.forEachElem elems (if pkey ≠ "" then pkey ++ "." else pkey)
  | .null, pkey => [⟨(if pkey ≠ "" then pkey ++ "." else pkey) ++ "", Json.null.Value⟩]
  | .bool b, pkey => [⟨(if pkey ≠ "" then pkey ++ "." else pkey) ++ "", (Json.bool b).Value⟩]
  | .num f, pkey => [⟨(if pkey ≠ "" then pkey ++ "." else pkey) ++ "", (Json.num f).Value⟩]
  | .str s, pkey => [⟨(if pkey ≠ "" then pkey ++ "." else pkey) ++ "", (Json.str s).Value⟩]

/-- The iterator of `recurJSON` run over the members of an object; `pkey` already ends in its
dot. An object is flattened in place, an array is passed over, a scalar gives one pair. -/
def recurJSON.forEach : List (String × Json) → String → List JSONIterator
  | [], _ => []
  | (key, value) :: rest, pkey =>
    (match value with
      | .obj _ => recurJSON value (pkey ++ key)
      | .arr _ => []
      | _ => [⟨pkey ++ key, value.Value⟩]) ++ recurJSON.forEach rest pkey

/-- The iterator of `recurJSON` run over the elements of an array, whose key is empty. -/
def recurJSON.forEachElem : List Json → String → List JSONIterator
  | [], _ => []
  | value :: rest, pkey =>
    (match value with
      | .obj _ => recurJSON value (pkey ++ "")
      | .arr _ => []
      | _ => [⟨pkey ++ "", value.Value⟩]) ++ recurJSON.forEachElem rest pkey

end

/-- The function `JsonIterator`: the flattened pairs of a document, in document order. -/
def JsonIterator (json : String) : List JSONIterator :=
  match gjsonParse json with
  | none => []
  | some doc => recurJSON doc ""

/-! ## The cursor operations -/

/-- How a call ends: it returns, or it panics; either way it leaves a state behind. -/
inductive Outcome where
  | returned (this : Configuration)
  | panicked (this : Configuration)
  deriving Repr

/-- The state a call leaves behind. -/
def Outcome.state : Outcome → Configuration
  | .returned this => this
  | .panicked this => this

/-- Whether the call returned. -/
def Outcome.returns : Outcome → Bool
  | .returned _ => true
  | .panicked _ => false

/-- The method `Configuration.Interface`: the effective value of the current element. -/
def Configuration.Interface (this : Configuration) : GoValue :=
  match this.currentElement with
  | none => .nil
  | some p =>
    match this.load p with
    | none => .nil
    | some el =>
      let val := el.Value
      if val = .nil then el.Default else val

/-- The text `v` that `Save` renders from the tree: `Form{Form: form}.toJSON` with the values
of the leaves, where `form` is the tree followed by an empty container titled `connections`. -/
def Configuration.document (this : Configuration) : String :=
  Form.toJSON (fun el => jsonMarshal el.Value)
    { Title := "", Form := this.form ++ [Form.titled "connections"], Elmnts := [] }

/-- The method `Configuration.Save`, as far as the tree is concerned: the rendered text is handed
to the configuration file. Splicing the connection list into the text under the key
`connections` and indenting it are left to the collaborators `sjson` and `PrettyPrint`. -/
def Configuration.Save (this : Configuration) : Configuration :=
  { this with writes := this.writes ++ [this.document] }

/-- The method `Configuration.Default`. -/
def Configuration.Default (value : GoValue) (this : Configuration) : Outcome :=
  match this.currentElement with
  | none => .returned this
  | some p =>
    match this.load p with
    | none => .panicked this
    | some el =>
      if el.Default = .nil then
        .returned (this.store p (fun el => { el with Default := value })).Save
      else
        match el.Default.ne value with
        | none => .panicked this
        | some _ => .returned this

/-- The method `Configuration.Set`. -/
def Configuration.Set (value : GoValue) (this : Configuration) : Outcome :=
  match this.currentElement with
  | none => .returned this
  | some p =>
    let this := { this with cache := this.cache.Clear }
    match this.load p with
    | none => .panicked this
    | some el =>
      match el.Value.ne value with
      | none => .panicked this
      | some true => .returned (this.store p (fun el => { el with Value := value })).Save
      | some false => .returned this

/-- The method `Configuration.Schema`. -/
def Configuration.Schema (fn : FormElement → FormElement) (this : Configuration) :
    Configuration :=
  let this := match this.currentElement with
    | none => this
    | some p => this.store p fn
  { this with cache := this.cache.Clear }

/-! ## Hydration -/

/-- One round of the hydration loop of `Load`: resolve the path, and assign the value to the
`Value` field of the leaf unless it is the effective value already. The assignment goes through
the current element, and panics when that is nil. -/
def hydrateStep (this : Configuration) (d : JSONIterator) : Outcome :=
  let this := this.Get d.Path
  match this.Interface.ne d.Value with
  | none => .panicked this
  | some false => .returned this
  | some true =>
    match this.currentElement with
    | none => .panicked this
    | some p =>
      match this.load p with
      | none => .panicked this
      | some _ => .returned (this.store p (fun el => { el with Value := d.Value }))

/-- The loop `for i := range d` of `Load`. -/
def hydrateLoop : Configuration → List JSONIterator → Outcome
  | this, [] => .returned this
  | this, d :: ds =>
    match hydrateStep this d with
    | .returned this => hydrateLoop this ds
    | .panicked this => .panicked this

/-- The hydration pass of `Load` on the text of the configuration file: flatten it, replay the
pairs, clear the cache. -/
def Configuration.hydrate (cFile : String) (this : Configuration) : Outcome :=
  match hydrateLoop this (JsonIterator cFile) with
  | .returned this => .returned { this with cache := this.cache.Clear }
  | .panicked this => .panicked this

/-- The method `Configuration.Load`, without the connection list and the listeners; `none` is a
configuration file that cannot be read. After the hydration pass the log level is looked up. -/
def Configuration.Load (file : Option String) (this : Configuration) : Outcome :=
  match file with
  | none => .returned this
  | some cFile =>
    match this.hydrate cFile with
    | .returned this => .returned (this.Get "log.level")
    | .panicked this => .panicked this

/-! ## The typed projections -/

/-- The method `Configuration.String`. -/
def Configuration.String (this : Configuration) : String :=
  match this.Interface with
  | .string s => s
  | .bytes b => b
  | _ => ""

/-- The conversion `int(f)` of a `float64`: the fraction is discarded. Outside the range of a
64 bit `int` the language leaves the result to the implementation; amd64 gives the least `int`. -/
def truncFloat (f : Rat) : Int :=
  let n := Int.tdiv f.num f.den
  if -(2 : Int) ^ 63 ≤ n ∧ n < (2 : Int) ^ 63 then n else -(2 : Int) ^ 63

/-- The method `Configuration.Int`, for a 64 bit `int`. -/
def Configuration.Int (this : Configuration) : Int :=
  match this.Interface with
  | .float64 f => truncFloat f
  | .int64 n => n
  | .int n => n
  | _ => 0

/-- The method `Configuration.Bool`. -/
def Configuration.Bool (this : Configuration) : Bool :=
  match this.Interface with
  | .bool b => b
  | _ => false

/-! ## The change listeners -/

/-- One registration, `type ChangeListener struct`. The channel `Listener` is given by a number
that tells channels apart. -/
structure ChangeListener where
  Id : String
  Listener : Nat
  deriving DecidableEq, Repr

/-- The method `Configuration.ListenForChange`, on the field `onChange`, the only one it touches:
a registration is made from the identifier that `QuickString(20)` draws and from a new channel,
appended to the registry and returned. -/
def ListenForChange (onChange : List ChangeListener) (id : String) (listener : Nat) :
    ChangeListener × List ChangeListener :=
  let change : ChangeListener := { Id := id, Listener := listener }
  (change, onChange ++ [change])

/-- First index `i` with `onChange[i].Id == id`: the loop of `UnlistenForChange` up to its
`break`. -/
def findListener (id : String) : List ChangeListener → Option Nat
  | [] => none
  | l :: ls => if l.Id = id then some 0 else (findListener id ls).map (· + 1)

/-- The method `Configuration.UnlistenForChange`, on the field `onChange`: at the first
registration with the identifier of `c` the last registration is copied over it and the slice is
cut by one; then the loop is left. Closing the channel is outside the model. -/
def UnlistenForChange (onChange : List ChangeListener) (c : ChangeListener) :
    List ChangeListener :=
  match findListener c.Id onChange with
  | none => onChange
  | some i =>
    if 0 ≤ (onChange.length : Int) - 1 then
      match onChange[onChange.length - 1]? with
      | some last => (onChange.set i last).take (onChange.length - 1)
      | none => onChange
    else onChange

/-! ## The iterator over the leaves of a container -/

/-- One entry of `Form.Iterator`, `type FormIterator struct`: a path and the embedded pointer to
a leaf. The pointer is given relative to the container the iterator was called on: `path` holds
the indices of the child containers on the way down to the container of the leaf, and is empty for
a leaf of the container itself. -/
structure FormIterator where
  Path : String
  FormElement : Ptr
  deriving DecidableEq, Repr

/-- The loop `for i, _ := range this.Elmnts` of `Iterator`, from index `i` on: one entry for each
leaf, with the path `lower`, which is `strings.ToLower(this.Title)`. -/
def Iterator.elmntsLoop (lower : String) (gen : Nat) :
    List FormElement → Nat → List FormIterator → List FormIterator
  | [], _, slice => slice
  | _ :: els, i, slice =>
    Iterator.elmntsLoop lower gen els (i + 1) (slice ++ [⟨lower, ⟨[], gen, i⟩⟩])

mutual

/-- The method `Form.Iterator`. The library function `strings.ToLower` is the parameter
`toLower`. -/
def Form.Iterator (toLower : String → String) : Filestash.Form → List FormIterator
  | ⟨title, form, elmnts, _, gen⟩ =>
    let slice := Iterator.elmntsLoop (toLower title) gen elmnts 0 []
    Iterator.nodesLoop toLower title form 0 slice

/-- The loop `for _, node := range this.Form` of `Iterator`, from child `k` on: the entries of
the child, their paths prefixed with the lower case title and a dot unless the title is empty,
are put in front of the entries collected so far. A pointer of the child is a pointer of this
container through child `k`. -/
def Iterator.nodesLoop (toLower : String → String) (title : String) :
    List Filestash.Form → Nat → List FormIterator → List FormIterator
  | [], _, slice => slice
  | node :: rest, k, slice =>
    let r := (node.Iterator toLower).map
      (fun e => { e with FormElement := { e.FormElement with path := k :: e.FormElement.path } })
    let r := if title ≠ "" then r.map (fun e => { e with Path := toLower title ++ "." ++ e.Path })
      else r
    Iterator.nodesLoop toLower title rest (k + 1) (r ++ slice)

end

/-- The function `strings.ToLower` on text whose letters are ASCII letters. -/
def toLowerASCII (s : String) : String := String.mk (s.toList.map Char.toLower)

/-! ## The export -/

/-- The settings in the value that `Export` returns. The connection list and the table of mime
types are passed through from collaborators. -/
structure Exported where
  Editor : String
  ForkButton : Bool
  DisplayHidden : Bool
  AutoConnect : Bool
  Name : String
  RememberMe : Bool
  UploadButton : Bool
  EnableSearch : Bool
  EnableShare : Bool
  deriving DecidableEq, Repr

/-- The receiver of a method with a value receiver, next to the configuration of the caller. The
receiver `copy` is a copy of the struct: its slice `form` starts out on the backing array of the
caller, so what the method does to a container of that array, or below it, shows in the tree of
the caller, whose slice keeps its length `len`. When `append` moves the slice of the copy to a
new array, which it does when the capacity `cap` is used up, receiver and caller go on sharing
the containers below the top level only: `moved` records that this has happened. -/
structure Receiver where
  copy : Configuration
  cap : Nat
  len : Nat
  moved : Bool := false
  deriving Repr

/-- The call `this.Get(key)` on the receiver. A container is appended to the top level slice
exactly when that slice gets longer. -/
def Receiver.Get (key : String) (r : Receiver) : Receiver :=
  let next := r.copy.Get key
  if r.copy.form.length < next.form.length ∧ r.cap ≤ r.copy.form.length then
    { r with copy := next, cap := growCap r.cap, moved := true }
  else { r with copy := next }

/-- The tree of the caller, as the method leaves it: the containers of the receiver that the
slice of the caller covers. The result is `none` when the slice of the receiver has moved, after
which this model does not follow what the two share. -/
def Receiver.tree (r : Receiver) : Option (List Form) :=
  if r.moved then none else some (r.copy.form.take r.len)

/-- The method `Configuration.Export`: the value it returns and the tree of the caller after the
call. The fields of the literal are evaluated in the order they are written in. The capacity of
the slice `this.form`, which the state does not record, is the parameter `formCap`. -/
def Configuration.Export (formCap : Nat) (this : Configuration) :
    Exported × Option (List Form) :=
  let r0 : Receiver := { copy := this, cap := formCap, len := this.form.length }
  let r1 := r0.Get "general.editor"
  let r2 := r1.Get "general.fork_button"
  let r3 := r2.Get "general.display_hidden"
  let r4 := r3.Get "general.auto_connect"
  let r5 := r4.Get "general.name"
  let r6 := r5.Get "general.remember_me"
  let r7 := r6.Get "general.upload_button"
  let r8 := r7.Get "features.search.enable"
  let r9 := r8.Get "features.share.enable"
  ({ Editor := r1.copy.String
     ForkButton := r2.copy.Bool
     DisplayHidden := r3.copy.Bool
     AutoConnect := r4.copy.Bool
     Name := r5.copy.String
     RememberMe := r6.copy.Bool
     UploadButton := r7.copy.Bool
     EnableSearch := r8.copy.Bool
     EnableShare := r9.copy.Bool }, r9.tree)

/-! ## Notions used to state the properties -/

/-- Container `f` sits at index `i` of `forms` and is the first one there titled `t`. -/
def IsFirstTitled (forms : List Form) (t : String) (i : Nat) (f : Form) : Prop :=
  forms[i]? = some f ∧ f.Title = t ∧
    ∀ (j : Nat) (g : Form), j < i → forms[j]? = some g → g.Title ≠ t

/-- Descending from `forms` through nested containers, at each level into the first container
with the next title, one reaches container `f` at position `path`. -/
inductive Descends : List Form → List String → List Nat → Form → Prop
  | last {forms : List Form} {t : String} {i : Nat} {f : Form} :
      IsFirstTitled forms t i f → Descends forms [t] [i] f
  | step {forms : List Form} {t : String} {ts : List String} {i : Nat} {is : List Nat}
      {g f : Form} :
      IsFirstTitled forms t i g → Descends g.Form ts is f → Descends forms (t :: ts) (i :: is) f

mutual

/-- Container `g` extends container `f`: same title, the elements of `f` are the first elements
of `g`, unchanged, and the children of `g` extend the children of `f`. -/
def Form.Extends : Filestash.Form → Filestash.Form → Prop
  | ⟨title, form, elmnts, _, _⟩, g =>
    title = g.Title ∧ elmnts <+: g.Elmnts ∧ FormsExtend form g.Form

/-- The sequence `gs` extends the sequence `fs`: it starts with one container for each container
of `fs`, in the same order, each extending its counterpart. -/
def FormsExtend : List Filestash.Form → List Filestash.Form → Prop
  | [], _ => True
  | _ :: _, [] => False
  | f :: fs, g :: gs => f.Extends g ∧ FormsExtend fs gs

end

/-- The effective value of a leaf: its `Value` when that is not nil, its `Default` otherwise. -/
def FormElement.effective (el : FormElement) : GoValue :=
  if el.Value ≠ GoValue.nil then el.Value else el.Default

/-- The member of an object under a key, the first one when the key occurs twice. -/
def Json.member (key : String) : Json → Option Json
  | .obj members => (members.find? (fun m => m.1 = key)).map (·.2)
  | _ => none

/-- The value a JSON reader gives back for a value written by `json.Marshal`: a number comes
back as a float64 and a byte slice as a string, its base64 text. -/
def GoValue.reread : GoValue → GoValue
  | .int n => .float64 n
  | .int64 n => .float64 n
  | .bytes b => .string (String.mk (base64 (utf8Bytes b)))
  | v => v

/-- Values that a JSON document carries exactly: nil, a bool, a string, a byte slice (as its
base64 text), a float64, and an integer of magnitude below 2^53. -/
def GoValue.exact : GoValue → Bool
  | .nil => true
  | .string _ => true
  | .bytes _ => true
  | .float64 _ => true
  | .int64 n => decide (n.natAbs < 2 ^ 53)
  | .int n => decide (n.natAbs < 2 ^ 53)
  | .bool _ => true

/-- A title or name that can be a segment of a path: it has no dot. -/
def noDot (s : String) : Bool := decide ('.' ∉ s.toList)

/-- A title or name that is its own key in the rendered text: it has no space. -/
def noSpace (s : String) : Bool := decide (' ' ∉ s.toList)

mutual

/-- The leaves of a container as the pairs a reader would flatten its rendering to: the path
segments from the container down, and the value as read back. Own leaves come first, then the
leaves of the children, in order. -/
def Form.pairs : Filestash.Form → List (List String × GoValue)
  | ⟨title, form, elmnts, _, _⟩ =>
    elmnts.map (fun el => ([title, el.Name], el.Value.reread)) ++
      (pairsOf form).map (fun p => (title :: p.1, p.2))

/-- The leaves of a sequence of containers, in order. -/
def pairsOf : List Filestash.Form → List (List String × GoValue)
  | [] => []
  | f :: fs => f.pairs ++ pairsOf fs

end

mutual

/-- A container that a round trip can reproduce: its title is not empty and has neither dot nor
space; its leaves have distinct names without dot and space and values that JSON carries
exactly; its children have distinct titles; it is not empty; and its children are tidy as
well. -/
def Form.tidy : Filestash.Form → Bool
  | ⟨title, form, elmnts, _, _⟩ =>
    noDot title && elmnts.all (fun el => noDot el.Name && el.Value.exact) &&
      decide (elmnts.map (·.Name)).Nodup && decide (form.map (·.Title)).Nodup &&
      (!elmnts.isEmpty || !form.isEmpty) && tidyForms form &&
      (decide (title ≠ "") && noSpace title && elmnts.all (fun el => noSpace el.Name))

/-- Every container of the sequence is tidy. -/
def tidyForms : List Filestash.Form → Bool
  | [] => true
  | f :: fs => f.tidy && tidyForms fs

end

/-- The leaves `fresh` of a container of the schema are the first leaves of the leaves
`elmnts`, by name; they hold no `Value`; and no leaf of `elmnts` holds, as a `Value` that is
not nil, what reads back as the `Default` of its schema leaf. -/
def leavesGrown : List FormElement → List FormElement → Bool
  | [], _ => true
  | _ :: _, [] => false
  | a :: as, e :: es =>
    decide (a.Name = e.Name) && decide (a.Value = GoValue.nil) &&
      (decide (a.Default ≠ e.Value.reread) || decide (e.Value = GoValue.nil)) && leavesGrown as es

mutual

/-- Container `f` has grown out of the schema container `fresh`: same title, the leaves of
`fresh` are its first leaves, and the children of `fresh` are its first children, grown. -/
def Form.grown : Filestash.Form → Filestash.Form → Bool
  | ⟨title, form, elmnts, _, _⟩, f =>
    decide (title = f.Title) && leavesGrown elmnts f.Elmnts && formsGrown form f.Form

/-- The sequence `fs` has grown out of the schema sequence `fresh`. -/
def formsGrown : List Filestash.Form → List Filestash.Form → Bool
  | [], _ => true
  | _ :: _, [] => false
  | g :: gs, f :: fs => g.grown f && formsGrown gs fs

end

/-- The JSON scalar that `json.Marshal` writes for a value that JSON carries exactly. -/
def Json.ofValue : GoValue → Json
  | .nil => .null
  | .string s => .str s
  | .bytes b => .str (String.mk (base64 (utf8Bytes b)))
  | .float64 f => .num f
  | .int64 n => .num n
  | .int n => .num n
  | .bool b => .bool b

mutual

/-- The JSON object that the rendering of a container denotes: one member per leaf, then one
member per child. -/
def Form.json : Filestash.Form → Json
  | ⟨_, form, elmnts, _, _⟩ =>
    .obj (elmnts.map (fun el => (formatKey el.Name, Json.ofValue el.Value)) ++ membersOf form)

/-- The members that the renderings of a sequence of containers denote. -/
def membersOf : List Filestash.Form → List (String × Json)
  | [] => []
  | f :: fs => (formatKey f.Title, f.json) :: membersOf fs

end

/-- The JSON document that the text rendered by `Save` denotes: the members of the tree, then
the empty object under the key `connections`. -/
def Configuration.json (this : Configuration) : Json :=
  .obj (membersOf this.form ++ [("connections", .obj [])])

/-- A configuration grown out of the declared schema: after `Get("general.port").Set(9999)`,
`Get("newsection.sub.newkey").Set("x<y")`, `Get("general.extra")` and `Get("newsection.k2")`. -/
def grownConfiguration : Configuration :=
  (((((NewConfiguration.Get "general.port").Set (GoValue.int 9999)).state.Get
    "newsection.sub.newkey").Set (GoValue.string "x<y")).state.Get "general.extra").Get
    "newsection.k2"

mutual

/-- The compact text of a parsed document: members and elements separated by commas, keys
written between quotes as they are, scalars as `json.Marshal` writes them. -/
def Json.text : Json → String
  | .null => "null"
  | .bool b => if b then "true" else "false"
  | .num f => formatFloat f
  | .str s => jsonQuote s
  | .arr elems => "[" ++ ",".intercalate (Json.textElems elems) ++ "]"
  | .obj members => "\x7b" ++ ",".intercalate (Json.textMembers members) ++ "\x7d"

/-- The texts of the elements of an array. -/
def Json.textElems : List Json → List String
  | [] => []
  | a :: as => a.text :: Json.textElems as

/-- The texts of the members of an object, each with its key. -/
def Json.textMembers : List (String × Json) → List String
  | [] => []
  | (k, a) :: as => ("\"" ++ k ++ "\":" ++ a.text) :: Json.textMembers as

end

/-! ## Notions used in the proofs -/

/-- The pairs that flattening the rendered tree is expected to give: one per leaf, in document
order, with the dotted path and the value as read back. -/
def Configuration.leaves (this : Configuration) : List JSONIterator :=
  (pairsOf this.form).map (fun p => ⟨".".intercalate p.1, p.2⟩)

/-- The effect of one round of hydration on a container that `traverse` has reached with one
segment left: find or append the leaf, and assign the value unless it is the effective value. -/
def plantLeaf (w : GoValue) (cur : Form) (name : String) : Form :=
  match (cur.leaf name).2.1.Elmnts[(cur.leaf name).1]? with
  | none => (cur.leaf name).2.1
  | some el =>
    if el.effective ≠ w then
      { (cur.leaf name).2.1 with
        Elmnts := (cur.leaf name).2.1.Elmnts.set (cur.leaf name).1 { el with Value := w } }
    else (cur.leaf name).2.1

/-- The first container titled `t`, appended first when there is none: its index and the
sequence it is in. -/
def locate (t : String) (forms : List Form) : Nat × List Form :=
  match findForm t forms with
  | some i => (i, forms)
  | none => (forms.length, forms ++ [Form.titled t])

/-- The effect of one round of hydration on the tree, for the path `segs` and the value `w`. -/
def plant (w : GoValue) : List Form → List String → List Form
  | forms, [] => forms
  | forms, t :: rest =>
    match (locate t forms).2[(locate t forms).1]? with
    | none => (locate t forms).2
    | some cur =>
      match rest with
      | [name] => (locate t forms).2.set (locate t forms).1 (plantLeaf w cur name)
      | _ => (locate t forms).2.set (locate t forms).1 { cur with Form := plant w cur.Form rest }

/-- Leaves with the same names and the same rendered values, one for one. -/
def leavesSame : List FormElement → List FormElement → Prop
  | [], [] => True
  | a :: as, e :: es =>
    a.Name = e.Name ∧ jsonMarshal a.Value = jsonMarshal e.Value ∧ leavesSame as es
  | _, _ => False

mutual

/-- Containers with the same title, the same leaves as far as rendering goes, and the same
children in that sense. -/
def Form.Same : Filestash.Form → Filestash.Form → Prop
  | ⟨title, form, elmnts, _, _⟩, f =>
    title = f.Title ∧ leavesSame elmnts f.Elmnts ∧ FormsSame form f.Form

/-- Sequences of containers that are the same one for one. -/
def FormsSame : List Filestash.Form → List Filestash.Form → Prop
  | [], [] => True
  | g :: gs, f :: fs => g.Same f ∧ FormsSame gs fs
  | _, _ => False

end

/-- The effect of hydrating the tree with a list of pairs, each given by its path segments. -/
def plantAll (forms : List Form) (ps : List (List String × GoValue)) : List Form :=
  ps.foldl (fun fm p => plant p.2 fm p.1) forms

/-- The effect on one container of hydrating it with leaves given by name. -/
def plantLeaves (cur : Form) (ls : List (String × GoValue)) : Form :=
  ls.foldl (fun c l => plantLeaf l.2 c l.1) cur

mutual

/-- Whether two parsed documents are equal, as a computation. -/
def Json.beq : Json → Json → Bool
  | .null, .null => true
  | .bool a, .bool b => decide (a = b)
  | .num a, .num b => decide (a = b)
  | .str a, .str b => decide (a = b)
  | .arr a, .arr b => Json.beqElems a b
  | .obj a, .obj b => Json.beqMembers a b
  | _, _ => false

/-- Whether two sequences of elements are equal. -/
def Json.beqElems : List Json → List Json → Bool
  | [], [] => true
  | a :: as, b :: bs => Json.beq a b && Json.beqElems as bs
  | _, _ => false

/-- Whether two sequences of members are equal. -/
def Json.beqMembers : List (String × Json) → List (String × Json) → Bool
  | [], [] => true
  | (k, a) :: as, (l, b) :: bs => decide (k = l) && Json.beq a b && Json.beqMembers as bs
  | _, _ => false

end

/-- Whether a text parses to a given document, as a computation. -/
def parsesTo (text : String) (doc : Json) : Bool :=
  match gjsonParse text with
  | some j => j.beq doc
  | none => false

/-! ## Inputs and notions used to state the properties of reload, cache and export -/

/-- A configuration file with a scalar at the top level. -/
def scalarDocument : String := "\x7b\"foo\":1\x7d"

/-- A configuration file that names the leaf `name` of `general` twice, once nested and once by
its dotted path, with a new leaf of `general` in between. -/
def reloadDocument : String :=
  "\x7b\"general\":\x7b\"name\":\"a\",\"extra\":1\x7d,\"general.name\":\"b\"\x7d"

/-- A configuration file that sets the leaf `name` of `general`. -/
def nameDocument : String := "\x7b\"general\":\x7b\"name\":\"x\"\x7d\x7d"

/-- The configuration after `Get("general.name")` and `Get("general.extra")` on the one built by
`NewConfiguration`: the second call appends a leaf to the container `general`, whose slice of
eleven leaves is full. -/
def extendedConfiguration : Configuration :=
  (NewConfiguration.Get "general.name").Get "general.extra"

/-- The `Value` of leaf `j` of the top level container `i` of the tree. -/
def Configuration.valueAt (this : Configuration) (i j : Nat) : Option GoValue :=
  (this.form[i]?.bind (·.Elmnts[j]?)).map (·.Value)

mutual

/-- The scalars of a document that are reachable from it through nested objects only, each with
the object keys on the way to it, in document order; a document that is not an object has
none. -/
def Json.scalars : Json → List (List String × GoValue)
  | .obj members => Json.scalarsOf members
  | _ => []

/-- The scalars reachable from the members of an object: a member that is a scalar gives one
pair under its key, a member that is an object gives the pairs of that object under its key, and
a member that is an array gives nothing. -/
def Json.scalarsOf : List (String × Json) → List (List String × GoValue)
  | [] => []
  | (key, value) :: rest =>
    (match value with
      | .obj _ => (Json.scalars value).map (fun p => (key :: p.1, p.2))
      | .arr _ => []
      | _ => [([key], value.Value)]) ++ Json.scalarsOf rest

end

/-- A configuration file whose top level object has an object under the empty key. -/
def emptyKeyDocument : String := "\x7b\"\":\x7b\"a\":1\x7d\x7d"

/-- A configuration file with nested objects, an array and scalars of every kind. -/
def nestedDocument : String :=
  "\x7b\"a\":\x7b\"b\":1,\"c\":[2,\x7b\"d\":3\x7d],\"e\":\x7b\"f\":\"x\"\x7d\x7d,\"g\":null,\"h\":true\x7d"

/-! ## Notions used to state the property of the iterator -/

mutual

/-- The number of leaves of a container and of all the containers below it. -/
def Form.leafCount : Filestash.Form → Nat
  | ⟨_, form, elmnts, _, _⟩ => elmnts.length + leafCountOf form

/-- The number of leaves in a sequence of containers. -/
def leafCountOf : List Filestash.Form → Nat
  | [] => 0
  | f :: fs => f.leafCount + leafCountOf fs

end

/-- The container reached from `f` by going down through the children with the given indices;
the empty list reaches `f` itself. -/
def Form.descend : Filestash.Form → List Nat → Option Filestash.Form
  | f, [] => some f
  | f, i :: rest =>
    match f.Form[i]? with
    | none => none
    | some child => child.descend rest

/-- The titles of the containers passed on the way down from `f` through the children with the
given indices: `f` first, the container reached not included. -/
def Form.titlesAbove : Filestash.Form → List Nat → List String
  | _, [] => []
  | f, i :: rest =>
    f.Title :: (match f.Form[i]? with
      | none => []
      | some child => child.titlesAbove rest)

/-- The segments of a path made of all the titles on the way to a leaf of the container reached
from `f` through `path`: the titles from `f` down to that container, where `f` itself gives no
segment to a leaf below it when its title is empty. -/
def Form.statedSegments (f : Filestash.Form) (path : List Nat) (holder : Filestash.Form) :
    List String :=
  (if f.Title = "" then (f.titlesAbove path).tail else f.titlesAbove path) ++ [holder.Title]

/-- A container titled `a` with a child without title that holds the leaf `e` and a child `c`,
which holds the leaf `d`: the tree that `Get("a..e")` and `Get("a..c.d")` build. -/
def untitledChild : Filestash.Form :=
  { Title := "a"
    Form := [{ Title := "", Form := [{ Title := "c", Form := [], Elmnts := [{ Name := "d", Typ := "text" }] }],
               Elmnts := [{ Name := "e", Typ := "text" }] }] }

/-- The declared schema under a container without title, `Form{Form: form}`, as `Save` and
`MarshalJSON` wrap it. -/
def schemaRoot : Filestash.Form := { Title := "", Form := NewConfiguration.form }

/-- The path of the entry for a leaf of the container `holder` reached from `f` through `path`:
the lower case titles of the containers above `holder`, those with an empty title left out, and
the lower case title of `holder`, joined by dots. -/
def Form.pathOf (toLower : String → String) (f : Filestash.Form) (path : List Nat)
    (holder : Filestash.Form) : String :=
  ".".intercalate (((f.titlesAbove path).filter (· ≠ "")).map toLower ++ [toLower holder.Title])

/-- An entry of a child, as an entry of its parent: the pointer goes through child `k`, and the
path gets the lower case title of the parent and a dot in front, unless that title is empty. -/
def FormIterator.lift (toLower : String → String) (title : String) (k : Nat) (e : FormIterator) :
    FormIterator :=
  ⟨if title ≠ "" then toLower title ++ "." ++ e.Path else e.Path,
    { e.FormElement with path := k :: e.FormElement.path }⟩

/-- What the entries of a container are: as many as there are leaves in and below it, with
pointers that differ from one another; each entry points to a leaf and has the path of that
leaf; and every leaf has an entry. -/
def Form.IteratorOk (toLower : String → String) (f : Filestash.Form) : Prop :=
  (f.Iterator toLower).length = f.leafCount ∧
  ((f.Iterator toLower).map (·.FormElement)).Nodup ∧
  (∀ e ∈ f.Iterator toLower, ∃ h, f.descend e.FormElement.path = some h ∧
    h.gen = e.FormElement.gen ∧ e.FormElement.idx < h.Elmnts.length ∧
    e.Path = f.pathOf toLower e.FormElement.path h) ∧
  (∀ (path : List Nat) (h : Filestash.Form) (idx : Nat), f.descend path = some h →
    idx < h.Elmnts.length → ⟨path, h.gen, idx⟩ ∈ (f.Iterator toLower).map (·.FormElement))

/-- What the second loop of `Iterator` collects from the children `nodes`, the first of which
is child `k` of a container titled `title`. -/
def nodesLoopOk (toLower : String → String) (nodes : List Filestash.Form) : Prop :=
  ∀ (title : String) (k : Nat),
    (Iterator.nodesLoop toLower title nodes k []).length = leafCountOf nodes ∧
    ((Iterator.nodesLoop toLower title nodes k []).map (·.FormElement)).Nodup ∧
    (∀ e ∈ Iterator.nodesLoop toLower title nodes k [], ∃ j node rest h,
      e.FormElement.path = (k + j) :: rest ∧ nodes[j]? = some node ∧
      node.descend rest = some h ∧ h.gen = e.FormElement.gen ∧
      e.FormElement.idx < h.Elmnts.length ∧
      e.Path = (if title ≠ "" then toLower title ++ "." ++ node.pathOf toLower rest h
        else node.pathOf toLower rest h)) ∧
    (∀ (j : Nat) (node : Filestash.Form) (rest : List Nat) (h : Filestash.Form) (idx : Nat),
      nodes[j]? = some node → node.descend rest = some h → idx < h.Elmnts.length →
      ⟨(k + j) :: rest, h.gen, idx⟩ ∈
        (Iterator.nodesLoop toLower title nodes k []).map (·.FormElement))

/-! ## Notions used to state the property of the export -/

/-- Whether the path names containers and a leaf that exist: going down by first match finds
each container and, in the last one, the leaf. -/
def resolves : List Filestash.Form → List String → Bool
  | _, [] => true
  | forms, t :: rest =>
    match findForm t forms with
    | none => false
    | some i =>
      match forms[i]? with
      | none => false
      | some cur =>
        match rest with
        | [name] => (findElmnt name cur.Elmnts).isSome
        | _ => resolves cur.Form rest

/-- Whether `Get(key)` finds what it looks for: the key is in the cache, or its path names
containers and a leaf that exist. -/
def serves (this : Configuration) (key : String) : Bool :=
  (this.cache.Get key).isSome || resolves this.form (splitDot key)

/-- The settings that `Export` reads, in the order it reads them. -/
def exportKeys : List String :=
  ["general.editor", "general.fork_button", "general.display_hidden", "general.auto_connect",
    "general.name", "general.remember_me", "general.upload_button", "features.search.enable",
    "features.share.enable"]

/-- The rendering of each top level container of a tree, with the values of the leaves. -/
def renderings (forms : List Filestash.Form) : List String :=
  forms.map (fun f => f.toJSON (fun el => jsonMarshal el.Value))

/-! ## Notions used in the proofs about the export -/

/-- The receiver has only appended to the tree `forms` of the caller: its tree extends
`forms`. -/
def Receiver.Sound (forms : List Filestash.Form) (r : Receiver) : Prop :=
  r.len = forms.length ∧ FormsExtend forms r.copy.form

/-- The receiver has left the tree of the caller `this` as it was, and finds every key that
`this` finds. -/
def Receiver.Same (this : Configuration) (r : Receiver) : Prop :=
  r.moved = false ∧ r.len = this.form.length ∧ r.copy.form = this.form ∧
    ∀ key : String, serves this key = true → serves r.copy key = true

/-- The receiver still shares its top level slice with the caller, and that slice has the
containers `general` and `features`. -/
def Receiver.Shared (r : Receiver) : Prop :=
  r.moved = false ∧ (findForm "general" r.copy.form).isSome = true ∧
    (findForm "features" r.copy.form).isSome = true

/-! ## Notions used to state and prove the property of replayed hydration -/

/-- What one round of the hydration loop does to the leaf it reaches: the value is assigned to
`Value` unless it is the effective value already. -/
def settle (v : GoValue) (el : FormElement) : FormElement :=
  if el.effective ≠ v then { el with Value := v } else el

/-- What the rounds of the hydration loop that reach one leaf do to it, one after another. -/
def settleAll (vs : List GoValue) (el : FormElement) : FormElement :=
  vs.foldl (fun e v => settle v e) el

/-- The cache and the abandoned backing arrays fit the tree, as the operations leave them: a
cached pointer can be read through, and an abandoned array belonged to a container of the tree
that has a newer array by now. -/
def Consistent (this : Configuration) : Prop :=
  (∀ (key : String) (p : Ptr), this.cache.Get key = some (some p) →
    (this.load p).isSome = true) ∧
  (∀ r ∈ this.retired, ∃ f, formAt this.form r.path = some f ∧ r.gen < f.gen)

/-- The values of the rounds in `hist` that reach the leaf behind the pointer `p`: those of the
pairs whose path the cache serves with `p`. -/
def roundsAt (this : Configuration) (hist : List JSONIterator) (p : Ptr) : List GoValue :=
  (hist.filter (fun d => decide (this.cache.Get d.Path = some (some p)))).map (·.Value)

/-- What a write to a leaf cannot change in a container: the title, the capacity and generation
of the backing array of the leaves, and the number of children. -/
def Form.frame (f : Filestash.Form) : String × Nat × Nat × Nat :=
  (f.Title, f.cap, f.gen, f.Form.length)

/-- The test and the assignment of one round of the hydration loop, on the leaf behind the
pointer `p`: the value `v` is assigned to the field `Value` unless it is the effective value. -/
def settled (this : Configuration) (p : Ptr) (v : GoValue) : Configuration :=
  match this.load p with
  | none => this
  | some x => if x.effective ≠ v then this.store p (fun el => { el with Value := v }) else this

/-- State of the hydration loop after the rounds `hist`: the state is consistent, the cache
serves the path of every round, a round whose path is served with the nil pointer carried
the value nil, and replaying its rounds on any leaf that can be read gives that leaf again. -/
def Hydrated (this : Configuration) (hist : List JSONIterator) : Prop :=
  Consistent this ∧
  (∀ d ∈ hist, ∃ e, this.cache.Get d.Path = some e ∧ (e = none → d.Value = GoValue.nil)) ∧
  (∀ (p : Ptr) (x : FormElement), this.load p = some x → settleAll (roundsAt this hist p) x = x)

/-- State `u` of a second pass over the pairs, after the rounds `done`, against the state `s`
that the first pass left: same cache, same containers, and behind every pointer the leaf of
`s` with the rounds of `done` replayed on it. -/
def Replayed (s u : Configuration) (done : List JSONIterator) : Prop :=
  u.cache = s.cache ∧ u.form.length = s.form.length ∧
  (∀ q : List Nat, (formAt u.form q).map Form.frame = (formAt s.form q).map Form.frame) ∧
  (∀ p : Ptr, u.load p = (s.load p).map (settleAll (roundsAt s done p)))

/-! ## Path resolution: what `traverse` returns -/

theorem findForm_some {t : String} {forms : List Form} {i : Nat} (h : findForm t forms = some i) :
    ∃ f, IsFirstTitled forms t i f := by
  induction forms generalizing i with
  | nil => simp [findForm] at h
  | cons g gs ih =>
    unfold findForm at h
    split at h
    · rename_i hg
      cases h
      exact ⟨g, by simp, hg, by intro j g' hj; omega⟩
    · rename_i hg
      cases hfind : findForm t gs with
      | none => simp [hfind] at h
      | some k =>
        simp [hfind] at h
        subst h
        obtain ⟨f, hf1, hf2, hf3⟩ := ih hfind
        refine ⟨f, by simpa using hf1, hf2, ?_⟩
        intro j g' hj hg'
        cases j with
        | zero => simp at hg'; subst hg'; exact hg
        | succ j => exact hf3 j g' (by omega) (by simpa using hg')

theorem findForm_none {t : String} {forms : List Form} (h : findForm t forms = none) :
    ∀ (j : Nat) (g : Form), forms[j]? = some g → g.Title ≠ t := by
  induction forms with
  | nil => intro j g hg; simp at hg
  | cons g gs ih =>
    unfold findForm at h
    split at h
    · cases h
    · rename_i hg
      have hfind : findForm t gs = none := by
        cases hf : findForm t gs with
        | none => rfl
        | some k => simp [hf] at h
      intro j g' hg'
      cases j with
      | zero => simp at hg'; subst hg'; exact hg
      | succ j => exact ih hfind j g' (by simpa using hg')

theorem isFirstTitled_append {t : String} {forms : List Form}
    (h : findForm t forms = none) (f : Form) (hf : f.Title = t) :
    IsFirstTitled (forms ++ [f]) t forms.length f := by
  refine ⟨by simp, hf, ?_⟩
  intro j g hj hg
  rw [List.getElem?_append_left hj] at hg
  exact findForm_none h j g hg

theorem isFirstTitled_set {t : String} {forms : List Form} {i : Nat} {f : Form}
    (h : IsFirstTitled forms t i f) (g : Form) (hg : g.Title = t) :
    IsFirstTitled (forms.set i g) t i g := by
  obtain ⟨h1, _, h3⟩ := h
  have hi : i < forms.length := by
    rcases Nat.lt_or_ge i forms.length with hlt | hge
    · exact hlt
    · rw [List.getElem?_eq_none hge] at h1; cases h1
  refine ⟨by simp [List.getElem?_set, hi], hg, ?_⟩
  intro j g' hj hg'
  rw [List.getElem?_set_ne (by omega)] at hg'
  exact h3 j g' hj hg'

theorem findElmnt_some {name : String} {elmnts : List FormElement} {j : Nat}
    (h : findElmnt name elmnts = some j) :
    ∃ el, elmnts[j]? = some el ∧ el.Name = name := by
  induction elmnts generalizing j with
  | nil => simp [findElmnt] at h
  | cons e es ih =>
    unfold findElmnt at h
    split at h
    · rename_i he
      cases h
      exact ⟨e, by simp, he⟩
    · cases hfind : findElmnt name es with
      | none => simp [hfind] at h
      | some k =>
        simp [hfind] at h
        subst h
        obtain ⟨el, h1, h2⟩ := ih hfind
        exact ⟨el, by simpa using h1, h2⟩

theorem findElmnt_none {name : String} {elmnts : List FormElement}
    (h : findElmnt name elmnts = none) : ∀ el ∈ elmnts, el.Name ≠ name := by
  induction elmnts with
  | nil => simp
  | cons e es ih =>
    unfold findElmnt at h
    split at h
    · cases h
    · rename_i he
      have hfind : findElmnt name es = none := by
        cases hf : findElmnt name es with
        | none => rfl
        | some k => simp [hf] at h
      intro el hel
      rcases List.mem_cons.1 hel with rfl | hmem
      · exact he
      · exact ih hfind el hmem

/-- The leaf step keeps the title and the children of the container, keeps its elements as a
prefix, and returns the index of an element with the name asked for. -/
theorem leaf_spec (f : Form) (name : String) :
    (f.leaf name).2.1.Title = f.Title ∧ (f.leaf name).2.1.Form = f.Form ∧
    f.Elmnts <+: (f.leaf name).2.1.Elmnts ∧
    ∃ el, (f.leaf name).2.1.Elmnts[(f.leaf name).1]? = some el ∧ el.Name = name := by
  unfold Form.leaf
  cases hfind : findElmnt name f.Elmnts with
  | some j =>
    obtain ⟨el, h1, h2⟩ := findElmnt_some hfind
    exact ⟨rfl, rfl, List.prefix_refl _, el, h1, h2⟩
  | none =>
    by_cases hcap : f.Elmnts.length < f.cap
    · simp only [hcap, if_true]
      exact ⟨trivial, trivial, List.prefix_append _ _, { Name := name, Typ := "text" },
        by simp, rfl⟩
    · simp only [hcap, if_false]
      exact ⟨trivial, trivial, List.prefix_append _ _, { Name := name, Typ := "text" },
        by simp, rfl⟩

theorem IsFirstTitled.lt_length {forms : List Form} {t : String} {i : Nat} {f : Form}
    (h : IsFirstTitled forms t i f) : i < forms.length := by
  rcases Nat.lt_or_ge i forms.length with hlt | hge
  · exact hlt
  · have := h.1
    rw [List.getElem?_eq_none hge] at this
    cases this

/-- What `traverse` finds when it has stopped at container `cur` with one segment left. -/
theorem traverseAt_leaf (sub : List Form → Traversal) {forms : List Form} {t : String} {i : Nat}
    {cur : Form} (h : IsFirstTitled forms t i cur) (name : String) :
    traverseAt sub forms i [name] =
      ⟨some ⟨[i], (cur.leaf name).2.1.gen, (cur.leaf name).1⟩, forms.set i (cur.leaf name).2.1,
        (cur.leaf name).2.2.map (fun old => ⟨[i], cur.gen, old⟩)⟩ := by
  unfold traverseAt
  rw [h.1]

/-- What `traverse` does when it has stopped at container `cur` with more or fewer than one
segment left: it goes on in the children of `cur`. -/
theorem traverseAt_inner (sub : List Form → Traversal) {forms : List Form} {t : String} {i : Nat}
    {cur : Form} (h : IsFirstTitled forms t i cur) (rest : List String) (hrest : rest.length ≠ 1) :
    traverseAt sub forms i rest =
      ⟨(sub cur.Form).elem.map (fun p => { p with path := i :: p.path }),
        forms.set i { cur with Form := (sub cur.Form).forms },
        (sub cur.Form).retired.map (fun o => { o with path := i :: o.path })⟩ := by
  unfold traverseAt
  rw [h.1]
  match rest, hrest with
  | [], _ => rfl
  | [_], h1 => simp at h1
  | _ :: _ :: _, _ => rfl

/-- The container `traverse` stops at for the first segment of a path: the first one with that
title, appended first when there was none. -/
theorem traverse_cons (forms : List Form) (p0 : String) (rest : List String) :
    ∃ forms1 i cur, IsFirstTitled forms1 p0 i cur ∧
      (forms1 = forms ∨ (forms1 = forms ++ [Form.titled p0] ∧ findForm p0 forms = none)) ∧
      traverse forms (p0 :: rest) = traverseAt (fun sub => traverse sub rest) forms1 i rest := by
  cases hfind : findForm p0 forms with
  | some i =>
    obtain ⟨cur, hcur⟩ := findForm_some hfind
    exact ⟨forms, i, cur, hcur, Or.inl rfl, by simp [traverse, hfind]⟩
  | none =>
    exact ⟨forms ++ [Form.titled p0], forms.length, Form.titled p0,
      isFirstTitled_append hfind _ rfl, Or.inr ⟨rfl, rfl⟩, by simp [traverse, hfind]⟩

/-- A path of two or more segments resolves: `traverse` returns a pointer into the container
reached by descending along all segments but the last, to an element named by the last. -/
theorem traverse_resolves (path : List String) :
    ∀ forms : List Form, 2 ≤ path.length →
    ∃ p f el, (traverse forms path).elem = some p ∧
      Descends (traverse forms path).forms path.dropLast p.path f ∧
      f.gen = p.gen ∧ f.Elmnts[p.idx]? = some el ∧ path.getLast? = some el.Name := by
  induction path with
  | nil => intro forms h; simp at h
  | cons p0 rest ih =>
    intro forms hlen
    obtain ⟨forms1, i, cur, hcur, -, heq⟩ := traverse_cons forms p0 rest
    rw [heq]
    match rest, hlen, ih with
    | [name], _, _ =>
      rw [traverseAt_leaf _ hcur]
      obtain ⟨ht, -, -, el, hel, hname⟩ := leaf_spec cur name
      refine ⟨_, (cur.leaf name).2.1, el, rfl, ?_, rfl, hel, by simp [hname]⟩
      exact Descends.last (isFirstTitled_set hcur _ (by rw [ht]; exact hcur.2.1))
    | r1 :: r2 :: rs, _, ih =>
      rw [traverseAt_inner _ hcur _ (by simp)]
      obtain ⟨p, f, el, hp, hd, hg, hel, hlast⟩ := ih cur.Form (by simp)
      refine ⟨{ p with path := i :: p.path }, f, el, by simp [hp], ?_, hg, hel, ?_⟩
      · simp only [List.dropLast_cons₂] at hd ⊢
        exact Descends.step (isFirstTitled_set hcur _ hcur.2.1) hd
      · simpa using hlast

theorem formAt_of_descends {forms : List Form} {ts : List String} {path : List Nat} {f : Form}
    (h : Descends forms ts path f) : formAt forms path = some f ∧ path.length = ts.length := by
  induction h with
  | last h1 => simp [formAt, h1.1]
  | @step forms t ts i is g f h1 h2 ih =>
    cases h2 with
    | last h3 => simp [formAt, h1.1, h3.1]
    | step h3 h4 =>
      refine ⟨?_, by simp [ih.2]⟩
      rw [← ih.1, formAt, h1.1]

/-- Claim C1. For every configuration and every key that splits on the dot into two or more
segments and is not served from the cache, `Get` sets the current element to a pointer `p` that
is not nil; `p` points into the container `f` reached from the top level by descending through
as many nested containers as there are segments but one, each the first of its level titled by
the next segment, and the leaf it points to is named by the last segment. Containers and leaf
are there after the call whether or not they were there before. -/
theorem Get_resolves (this : Configuration) (key : String)
    (hmiss : this.cache.Get key = none) (hN : 2 ≤ (splitDot key).length) :
    ∃ p f el, (this.Get key).currentElement = some p ∧
      Descends (this.Get key).form (splitDot key).dropLast p.path f ∧
      p.path.length = (splitDot key).length - 1 ∧
      f.gen = p.gen ∧ f.Elmnts[p.idx]? = some el ∧
      (splitDot key).getLast? = some el.Name ∧
      (this.Get key).load p = some el := by
  obtain ⟨p, f, el, hp, hd, hg, hel, hlast⟩ := traverse_resolves (splitDot key) this.form hN
  have hform : (this.Get key).form = (traverse this.form (splitDot key)).forms := by
    simp [Configuration.Get, hmiss]
  have hcur : (this.Get key).currentElement = (traverse this.form (splitDot key)).elem := by
    simp [Configuration.Get, hmiss]
  have hat := formAt_of_descends hd
  refine ⟨p, f, el, by rw [hcur, hp], by rw [hform]; exact hd, ?_, hg, hel, hlast, ?_⟩
  · rw [hat.2]; simp
  · unfold Configuration.load
    rw [hform, hat.1]
    simp [hg, hel]

/-- Witness for C1: the key `features.search.enable` on the declared schema, whose container
`search` and leaf `enable` do not exist beforehand. -/
theorem Get_resolves_witness :
    ∃ p f el, (NewConfiguration.Get "features.search.enable").currentElement = some p ∧
      Descends (NewConfiguration.Get "features.search.enable").form
        (splitDot "features.search.enable").dropLast p.path f ∧
      p.path.length = (splitDot "features.search.enable").length - 1 ∧
      f.gen = p.gen ∧ f.Elmnts[p.idx]? = some el ∧
      (splitDot "features.search.enable").getLast? = some el.Name ∧
      (NewConfiguration.Get "features.search.enable").load p = some el :=
  Get_resolves NewConfiguration "features.search.enable" (by decide) (by decide)

/-- Splitting `c.k` at the dots gives the two segments `c` and `k` when neither has a dot. -/
theorem splitDot_pair (c k : String) (hc : '.' ∉ c.toList) (hk : '.' ∉ k.toList) :
    splitDot (c ++ "." ++ k) = [c, k] := by
  unfold splitDot
  have h1 : (c ++ "." ++ k).toList = ['.'].intercalate [c.toList, k.toList] := by
    simp [List.intercalate, String.toList]
  rw [h1, List.splitOn_intercalate [c.toList, k.toList] '.' (by
    intro l hl
    simp only [List.mem_cons, List.mem_singleton, List.not_mem_nil, or_false] at hl
    rcases hl with rfl | rfl
    · exact hc
    · exact hk) (by simp)]
  rfl

theorem findForm_eq_none {t : String} {forms : List Form} (h : ∀ f ∈ forms, f.Title ≠ t) :
    findForm t forms = none := by
  induction forms with
  | nil => rfl
  | cons g gs ih =>
    have hg : g.Title ≠ t := h g (List.mem_cons_self _ _)
    have := ih (fun f hf => h f (List.mem_cons_of_mem _ hf))
    simp [findForm, hg, this]

/-- Claim C2. For every configuration with no top level container titled `c`, and every leaf name
`k`, neither with a dot, `Get` on the key `c.k` (which is not in the cache) returns a pointer to
a leaf named `k` of type `text` whose `Value` and `Default` are nil, and the tree is afterwards
the tree of before followed by one container titled `c`, without children, whose elements are
exactly that leaf. -/
theorem Get_autovivifies (this : Configuration) (c k : String)
    (hform : ∀ f ∈ this.form, f.Title ≠ c) (hc : '.' ∉ c.toList) (hk : '.' ∉ k.toList)
    (hmiss : this.cache.Get (c ++ "." ++ k) = none) :
    ∃ p f, (this.Get (c ++ "." ++ k)).currentElement = some p ∧
      (this.Get (c ++ "." ++ k)).load p =
        some { Name := k, Typ := "text", Value := GoValue.nil, Default := GoValue.nil } ∧
      (this.Get (c ++ "." ++ k)).form = this.form ++ [f] ∧
      f.Title = c ∧ f.Form = [] ∧ f.Elmnts = [{ Name := k, Typ := "text" }] := by
  have hfind := findForm_eq_none hform
  have htr : traverse this.form [c, k] =
      ⟨some ⟨[this.form.length], 1, 0⟩,
        this.form ++ [{ Title := c, Form := [], Elmnts := [{ Name := k, Typ := "text" }],
                        cap := growCap 0, gen := 1 }],
        some ⟨[this.form.length], 0, []⟩⟩ := by
    simp [traverse, hfind, traverseAt, Form.leaf, Form.titled, findElmnt]
  refine ⟨⟨[this.form.length], 1, 0⟩,
    { Title := c, Form := [], Elmnts := [{ Name := k, Typ := "text" }], cap := growCap 0,
      gen := 1 }, ?_, ?_, ?_, rfl, rfl, rfl⟩
  · simp [Configuration.Get, hmiss, splitDot_pair c k hc hk, htr]
  · simp [Configuration.Get, hmiss, splitDot_pair c k hc hk, htr, Configuration.load, formAt]
  · simp [Configuration.Get, hmiss, splitDot_pair c k hc hk, htr]

/-- Witness for C2: `Get("newsection.newkey")` on the declared schema. -/
theorem Get_autovivifies_witness :
    ∃ p f, (NewConfiguration.Get "newsection.newkey").currentElement = some p ∧
      (NewConfiguration.Get "newsection.newkey").load p =
        some { Name := "newkey", Typ := "text", Value := GoValue.nil, Default := GoValue.nil } ∧
      (NewConfiguration.Get "newsection.newkey").form = NewConfiguration.form ++ [f] ∧
      f.Title = "newsection" ∧ f.Form = [] ∧ f.Elmnts = [{ Name := "newkey", Typ := "text" }] :=
  Get_autovivifies NewConfiguration "newsection" "newkey" (by decide) (by decide) (by decide)
    (by decide)

theorem Form.extends_iff (f g : Filestash.Form) :
    f.Extends g ↔ f.Title = g.Title ∧ f.Elmnts <+: g.Elmnts ∧ FormsExtend f.Form g.Form := by
  cases f
  simp [Form.Extends]

mutual

theorem Form.extends_refl : ∀ f : Filestash.Form, f.Extends f
  | ⟨_, fs, _, _, _⟩ => by
    rw [Form.extends_iff]
    exact ⟨rfl, List.prefix_refl _, formsExtend_refl fs⟩

theorem formsExtend_refl : ∀ fs : List Filestash.Form, FormsExtend fs fs
  | [] => by simp [FormsExtend]
  | f :: fs => by
    simp only [FormsExtend]
    exact ⟨Form.extends_refl f, formsExtend_refl fs⟩

end

mutual

theorem Form.extends_trans : ∀ (f g h : Filestash.Form), f.Extends g → g.Extends h → f.Extends h
  | ⟨_, fs, _, _, _⟩, g, h, h1, h2 => by
    rw [Form.extends_iff] at h1 h2 ⊢
    exact ⟨h1.1.trans h2.1, h1.2.1.trans h2.2.1, formsExtend_trans fs g.Form h.Form h1.2.2 h2.2.2⟩

theorem formsExtend_trans : ∀ (fs gs hs : List Filestash.Form),
    FormsExtend fs gs → FormsExtend gs hs → FormsExtend fs hs
  | [], _, _, _, _ => by simp [FormsExtend]
  | _ :: _, [], _, h1, _ => by simp [FormsExtend] at h1
  | _ :: _, _ :: _, [], _, h2 => by simp [FormsExtend] at h2
  | f :: fs, g :: gs, h :: hs, h1, h2 => by
    simp only [FormsExtend] at h1 h2 ⊢
    exact ⟨Form.extends_trans f g h h1.1 h2.1, formsExtend_trans fs gs hs h1.2 h2.2⟩

end

theorem formsExtend_append (fs l : List Form) : FormsExtend fs (fs ++ l) := by
  induction fs with
  | nil => simp [FormsExtend]
  | cons f fs ih =>
    simp only [List.cons_append, FormsExtend]
    exact ⟨Form.extends_refl f, ih⟩

theorem formsExtend_set {fs : List Form} {i : Nat} {f g : Form}
    (hf : fs[i]? = some f) (hfg : f.Extends g) : FormsExtend fs (fs.set i g) := by
  induction fs generalizing i with
  | nil => simp [FormsExtend]
  | cons a as ih =>
    cases i with
    | zero =>
      simp at hf
      subst hf
      simp only [List.set_cons_zero, FormsExtend]
      exact ⟨hfg, formsExtend_refl as⟩
    | succ i =>
      simp only [List.set_cons_succ, FormsExtend]
      exact ⟨Form.extends_refl a, ih (by simpa using hf)⟩

/-- The tree after `traverse` extends the tree before it, whatever the path. -/
theorem traverse_extends (path : List String) :
    ∀ forms : List Form, FormsExtend forms (traverse forms path).forms := by
  induction path with
  | nil => intro forms; exact formsExtend_refl forms
  | cons p0 rest ih =>
    intro forms
    obtain ⟨forms1, i, cur, hcur, hforms1, heq⟩ := traverse_cons forms p0 rest
    rw [heq]
    have h01 : FormsExtend forms forms1 := by
      rcases hforms1 with rfl | ⟨rfl, -⟩
      · exact formsExtend_refl _
      · exact formsExtend_append _ _
    refine formsExtend_trans _ _ _ h01 ?_
    by_cases hrest : rest.length = 1
    · obtain ⟨name, rfl⟩ := List.length_eq_one.1 hrest
      rw [traverseAt_leaf _ hcur]
      obtain ⟨ht, hf, he, -⟩ := leaf_spec cur name
      refine formsExtend_set hcur.1 ?_
      rw [Form.extends_iff]
      exact ⟨ht.symm, he, by rw [hf]; exact formsExtend_refl _⟩
    · rw [traverseAt_inner _ hcur _ hrest]
      refine formsExtend_set hcur.1 ?_
      rw [Form.extends_iff]
      exact ⟨rfl, List.prefix_refl _, ih cur.Form⟩

theorem findForm_of_isFirstTitled {forms : List Form} {t : String} {i : Nat} {f : Form}
    (h : IsFirstTitled forms t i f) : findForm t forms = some i := by
  induction forms generalizing i with
  | nil => have := h.1; simp at this
  | cons g gs ih =>
    obtain ⟨h1, h2, h3⟩ := h
    cases i with
    | zero =>
      simp at h1
      subst h1
      simp [findForm, h2]
    | succ i =>
      have hg : g.Title ≠ t := h3 0 g (by omega) (by simp)
      have hrec : IsFirstTitled gs t i f :=
        ⟨by simpa using h1, h2, fun j g' hj hg' => h3 (j + 1) g' (by omega) (by simpa using hg')⟩
      simp [findForm, hg, ih hrec]

theorem leaf_of_mem {f : Form} {name : String} {el : FormElement}
    (hel : el ∈ f.Elmnts) (hname : el.Name = name) :
    (f.leaf name).2.1 = f ∧ (f.leaf name).2.2 = none := by
  unfold Form.leaf
  cases hfind : findElmnt name f.Elmnts with
  | some j => exact ⟨rfl, rfl⟩
  | none => exact absurd hname (findElmnt_none hfind el hel)

theorem set_of_getElem? {forms : List Form} {i : Nat} {f : Form} (h : forms[i]? = some f) :
    forms.set i f = forms := by
  induction forms generalizing i with
  | nil => rfl
  | cons g gs ih =>
    cases i with
    | zero => simp at h; subst h; rfl
    | succ i => simp only [List.set_cons_succ]; rw [ih (by simpa using h)]

theorem traverse_of_isFirstTitled {forms : List Form} {p0 : String} {i : Nat} {cur : Form}
    (hcur : IsFirstTitled forms p0 i cur) (rest : List String) :
    traverse forms (p0 :: rest) = traverseAt (fun sub => traverse sub rest) forms i rest := by
  rw [traverse]
  simp only [findForm_of_isFirstTitled hcur]

/-- Resolving a path whose containers and leaf all exist changes nothing. -/
theorem traverse_existing (path : List String) :
    ∀ (forms : List Form) (ipath : List Nat) (f : Form) (el : FormElement),
      Descends forms path.dropLast ipath f → el ∈ f.Elmnts → path.getLast? = some el.Name →
      (traverse forms path).forms = forms ∧ (traverse forms path).retired = none := by
  induction path with
  | nil => intro forms ipath f el hd; cases hd
  | cons p0 rest ih =>
    intro forms ipath f el hd hel hlast
    match rest, ih, hd, hlast with
    | [], _, hd, _ => cases hd
    | [name], _, hd, hlast =>
      cases hd with
      | last hcur =>
        have hname : el.Name = name := by simpa using hlast.symm
        obtain ⟨h1, h2⟩ := leaf_of_mem hel hname
        rw [traverse_of_isFirstTitled hcur, traverseAt_leaf _ hcur]
        simp only [h1, h2]
        exact ⟨set_of_getElem? hcur.1, rfl⟩
      | step _ h2 => cases h2
    | r1 :: r2 :: rs, ih, hd, hlast =>
      simp only [List.dropLast_cons₂] at hd
      cases hd with
      | @step _ _ _ i is g _ hcur hrec =>
        obtain ⟨h1, h2⟩ := ih _ _ f el hrec hel (by simpa using hlast)
        rw [traverse_of_isFirstTitled hcur, traverseAt_inner _ hcur _ (by simp)]
        simp only [h1, h2]
        have heta : ({ g with Form := g.Form } : Form) = g := by cases g; rfl
        rw [heta]
        exact ⟨set_of_getElem? hcur.1, rfl⟩

/-- Claim C3. `Get` only appends. For every configuration and every key, the tree after the call
extends the tree before it: at every level each container of before is there afterwards, at the
same place and with the same title, its elements of before are the first of its elements
afterwards, with every field unchanged, and the same holds for its children. When the containers
and the leaf that the key names all exist already, the tree after the call is the tree of
before. -/
theorem Get_only_appends (this : Configuration) (key : String) :
    FormsExtend this.form (this.Get key).form ∧
    ∀ (ipath : List Nat) (f : Form) (el : FormElement),
      Descends this.form (splitDot key).dropLast ipath f → el ∈ f.Elmnts →
      (splitDot key).getLast? = some el.Name → (this.Get key).form = this.form := by
  unfold Configuration.Get
  cases hc : this.cache.Get key with
  | some tmp => exact ⟨formsExtend_refl _, fun _ _ _ _ _ _ => rfl⟩
  | none =>
    exact ⟨traverse_extends _ _, fun ipath f el hd hel hlast =>
      (traverse_existing _ _ ipath f el hd hel hlast).1⟩

/-- Witness for C3: the key `general.port` on the declared schema, whose container is the
first of the top level and whose leaf is the second of that container. -/
theorem Get_only_appends_witness :
    FormsExtend NewConfiguration.form (NewConfiguration.Get "general.port").form ∧
    (NewConfiguration.Get "general.port").form = NewConfiguration.form :=
  ⟨(Get_only_appends NewConfiguration "general.port").1,
    (Get_only_appends NewConfiguration "general.port").2 [0]
      (NewConfiguration.form.headD (Form.titled ""))
      { Name := "port", Typ := "number", Default := .int 8334,
        Description := "Port on which the application is available.",
        Placeholder := "Default: 8334" }
      (Descends.last ⟨rfl, by decide, by intro j g hj; omega⟩) (by decide) (by decide)⟩

/-! ## The serializer -/

theorem intercalate_go_append (x acc s : String) (l : List String) :
    String.intercalate.go (x ++ acc) s l = x ++ String.intercalate.go acc s l := by
  induction l generalizing acc with
  | nil => rfl
  | cons a as ih =>
    simp only [String.intercalate.go]
    rw [← ih]
    simp only [String.append_assoc]

theorem intercalate_cons_cons (s a b : String) (l : List String) :
    s.intercalate (a :: b :: l) = a ++ s ++ s.intercalate (b :: l) := by
  simp only [String.intercalate, String.intercalate.go]
  rw [← intercalate_go_append]

theorem intercalate_append (s : String) (l1 l2 : List String) (h1 : l1 ≠ []) (h2 : l2 ≠ []) :
    s.intercalate (l1 ++ l2) = s.intercalate l1 ++ s ++ s.intercalate l2 := by
  induction l1 with
  | nil => exact absurd rfl h1
  | cons a as ih =>
    cases as with
    | nil =>
      cases l2 with
      | nil => exact absurd rfl h2
      | cons b bs =>
        simp only [List.cons_append, List.nil_append]
        rw [intercalate_cons_cons]
        rfl
    | cons a2 as =>
      simp only [List.cons_append] at ih ⊢
      rw [intercalate_cons_cons, intercalate_cons_cons, ih (by simp)]
      simp only [String.append_assoc]

/-- The text `toJSON` emits for one element: its key and the rendering of the element. -/
theorem elmntsLoop_eq (fn : FormElement → String) (m n : Nat) (els : List FormElement) :
    ∀ (i : Nat) (ret : String), els ≠ [] → i + els.length = m →
    toJSON.elmntsLoop fn m n els i ret =
      ret ++ (if i = 0 then "\x7b" else "") ++
        ",".intercalate (els.map (fun el => "\"" ++ formatKey el.Name ++ "\":" ++ fn el)) ++
        (if n = 0 then "\x7d" else ",") := by
  induction els with
  | nil => intro i ret h; exact absurd rfl h
  | cons el els ih =>
    intro i ret _ hlen
    cases els with
    | nil =>
      have hi : i = m - 1 := by simp at hlen; omega
      by_cases hn : n = 0 <;> by_cases hi0 : i = 0 <;>
        simp only [toJSON.elmntsLoop, hi0, hn, ← hi, String.intercalate, String.intercalate.go,
          List.map, String.append_assoc, String.append_empty, String.empty_append, if_true,
          if_false, true_and, and_true, and_false, ne_eq, not_true_eq_false, not_false_eq_true,
          false_or, or_false, or_true]
    | cons el2 els =>
      have hi : i ≠ m - 1 := by simp at hlen; omega
      rw [toJSON.elmntsLoop]
      simp only [hi, false_and, if_false, ne_eq, not_false_eq_true, true_or, if_true]
      rw [ih (i + 1) _ (by simp) (by simp at hlen ⊢; omega)]
      simp only [List.map_cons, intercalate_cons_cons]
      by_cases hi0 : i = 0 <;>
        simp only [hi0, String.append_assoc, String.append_empty, String.empty_append, if_true,
          if_false, Nat.add_eq_zero, one_ne_zero, and_false]

theorem formLoop_eq (fn : FormElement → String) (n m : Nat) (fs : List Form) :
    ∀ (i : Nat) (ret : String), fs ≠ [] → i + fs.length = n →
    toJSON.formLoop fn n m fs i ret =
      ret ++ (if i = 0 ∧ m = 0 then "\x7b" else "") ++
        ",".intercalate (fs.map (fun c => c.toJSON fn)) ++ "\x7d" := by
  induction fs with
  | nil => intro i ret h; exact absurd rfl h
  | cons f fs ih =>
    intro i ret _ hlen
    cases fs with
    | nil =>
      have hi : i = n - 1 := by simp at hlen; omega
      by_cases hm : i = 0 ∧ m = 0 <;>
        simp only [toJSON.formLoop, hm, ← hi, String.intercalate, String.intercalate.go,
          List.map, String.append_assoc, String.append_empty, String.empty_append, if_true,
          if_false, ne_eq, not_true_eq_false, not_false_eq_true, and_self]
    | cons f2 fs =>
      have hi : i ≠ n - 1 := by simp at hlen; omega
      rw [toJSON.formLoop]
      simp only [hi, if_false, ne_eq, not_false_eq_true, if_true]
      rw [ih (i + 1) _ (by simp) (by simp at hlen ⊢; omega)]
      simp only [List.map_cons, intercalate_cons_cons]
      by_cases hm : i = 0 ∧ m = 0 <;>
        simp only [hm, String.append_assoc, String.append_empty, String.empty_append, if_true,
          if_false, Nat.add_eq_zero, one_ne_zero, and_false, false_and, and_self]

/-- The text `toJSON` emits, in closed form: key, opening brace, the entries separated by commas,
closing brace. -/
theorem toJSON_formula (fn : FormElement → String) (f : Form) :
    f.toJSON fn =
      (if f.Title ≠ "" then "\"" ++ formatKey f.Title ++ "\":" else "") ++ "\x7b" ++
        ",".intercalate (f.Elmnts.map (fun el => "\"" ++ formatKey el.Name ++ "\":" ++ fn el) ++
          f.Form.map (fun c => c.toJSON fn)) ++ "\x7d" := by
  obtain ⟨title, form, elmnts, cap, gen⟩ := f
  rw [Form.toJSON]
  simp only [String.empty_append]
  generalize (if title ≠ "" then "\"" ++ formatKey title ++ "\":" else "") = pre
  cases elmnts with
  | nil =>
    cases form with
    | nil =>
      simp only [toJSON.elmntsLoop, toJSON.formLoop, List.length_nil, and_self, if_true,
        List.map_nil, List.append_nil, String.intercalate, String.append_assoc,
        String.empty_append]
      rfl
    | cons c cs =>
      rw [toJSON.elmntsLoop, formLoop_eq _ _ _ _ _ _ (by simp) (by simp)]
      simp only [List.length_nil, and_self, if_true, List.map_nil, List.nil_append,
        List.length_cons, Nat.add_eq_zero, one_ne_zero, and_false, false_and, if_false]
  | cons e es =>
    cases form with
    | nil =>
      rw [elmntsLoop_eq _ _ _ _ _ _ (by simp) (by simp), toJSON.formLoop]
      simp only [List.length_nil, if_true, List.map_nil, List.append_nil, List.length_cons,
        Nat.add_eq_zero, one_ne_zero, and_false, false_and, if_false]
    | cons c cs =>
      rw [elmntsLoop_eq _ _ _ _ _ _ (by simp) (by simp),
        formLoop_eq _ _ _ _ _ _ (by simp) (by simp)]
      rw [intercalate_append _ _ _ (by simp) (by simp)]
      simp only [List.length_cons, Nat.add_eq_zero, one_ne_zero, and_false, false_and,
        if_false, if_true, String.append_assoc, String.append_empty, String.empty_append]

/-- Claim C4. For every container and every rendering function `fn`, `toJSON(fn)` is: the key of
the title followed by a colon when the title is not empty, an opening brace, the entries
separated by commas, and a closing brace, where the entries are one `"key":fn(e)` for each
element `e` in order followed by the `toJSON(fn)` of each child in order, and the key of a name
is the name with every space replaced by an underscore. Without elements and children the body
is the two braces. -/
theorem toJSON_eq (fn : FormElement → String) (f : Form) :
    (∀ s : String, (formatKey s).toList = s.toList.map (fun c => if c = ' ' then '_' else c)) ∧
    f.toJSON fn =
      (if f.Title ≠ "" then "\"" ++ formatKey f.Title ++ "\":" else "") ++ "\x7b" ++
        ",".intercalate (f.Elmnts.map (fun el => "\"" ++ formatKey el.Name ++ "\":" ++ fn el) ++
          f.Form.map (fun c => c.toJSON fn)) ++ "\x7d" ∧
    (f.Elmnts = [] → f.Form = [] →
      f.toJSON fn =
        (if f.Title ≠ "" then "\"" ++ formatKey f.Title ++ "\":" else "") ++ "\x7b\x7d") := by
  refine ⟨fun _ => rfl, toJSON_formula fn f, ?_⟩
  intro he hf
  rw [toJSON_formula fn f, he, hf]
  simp only [List.map_nil, List.append_nil, String.intercalate, String.append_assoc,
    String.empty_append]
  rfl

/-- Witness for C4: the empty container titled `connections` that `Save` appends to the tree. -/
theorem toJSON_eq_witness :
    (Form.titled "connections").toJSON (fun el => jsonMarshal el.Value) =
      "\"connections\":\x7b\x7d" :=
  ((toJSON_eq (fun el => jsonMarshal el.Value) (Form.titled "connections")).2.2 rfl rfl).trans
    (by decide)

/-! ## The typed projections -/

/-- The value `Interface()` returns when the current element points to leaf `el`. -/
theorem Interface_of_load (this : Configuration) (p : Ptr) (el : FormElement)
    (hcur : this.currentElement = some p) (hel : this.load p = some el) :
    this.Interface = el.effective := by
  unfold Configuration.Interface FormElement.effective
  rw [hcur]
  simp only [hel]
  by_cases hv : el.Value = GoValue.nil <;> simp [hv]

/-- Claim C5. When the current element points to leaf `el`, `Interface()` is the effective value
of `el`, its `Value` when that is not nil and its `Default` otherwise, and `String()`, `Int()`
and `Bool()` are the projections of that effective value. On the declared schema, with nothing
hydrated, `Get("general.port").Int()` is 8334. -/
theorem Interface_effective :
    (∀ (this : Configuration) (p : Ptr) (el : FormElement),
      this.currentElement = some p → this.load p = some el →
      this.Interface = el.effective ∧
      (el.Value ≠ GoValue.nil → this.Interface = el.Value) ∧
      (el.Value = GoValue.nil → this.Interface = el.Default) ∧
      this.String = (match el.effective with
        | .string s => s
        | .bytes b => b
        | _ => "") ∧
      this.Int = (match el.effective with
        | .float64 f => truncFloat f
        | .int64 n => n
        | .int n => n
        | _ => 0) ∧
      this.Bool = (match el.effective with
        | .bool b => b
        | _ => false)) ∧
    (NewConfiguration.Get "general.port").Int = 8334 := by
  refine ⟨?_, by decide⟩
  intro this p el hcur hel
  have h : this.Interface = el.effective := Interface_of_load this p el hcur hel
  refine ⟨h, ?_, ?_, ?_, ?_, ?_⟩
  · intro hv; rw [h]; simp [FormElement.effective, hv]
  · intro hv; rw [h]; simp [FormElement.effective, hv]
  · unfold Configuration.String; rw [h]
  · unfold Configuration.Int; rw [h]
  · unfold Configuration.Bool; rw [h]

/-- Witness for C5: the leaf `general.port` of the declared schema, whose `Value` is nil and
whose `Default` is the `int` 8334. -/
theorem Interface_effective_witness :
    (NewConfiguration.Get "general.port").Interface = GoValue.int 8334 :=
  ((Interface_effective.1 (NewConfiguration.Get "general.port") ⟨[0], 0, 1⟩
    { Name := "port", Typ := "number", Default := .int 8334,
      Description := "Port on which the application is available.",
      Placeholder := "Default: 8334" } (by decide) (by decide)).2.2.1 (by decide))

/-- Claim C6. The typed projections are total and give the zero value on a type mismatch: for
every configuration, whatever its current element, with effective value `v` as `Interface()`
returns it, `String()` is the empty string unless `v` is a string or a byte slice, `Int()` is 0
unless `v` is a float64, an int64 or an int, and `Bool()` is false unless `v` is a bool. With a
nil current element `v` is nil and all three give their zero value. -/
theorem projections_zero_on_mismatch (this : Configuration) :
    ((∀ s, this.Interface ≠ GoValue.string s) → (∀ b, this.Interface ≠ GoValue.bytes b) →
      this.String = "") ∧
    ((∀ f, this.Interface ≠ GoValue.float64 f) → (∀ n, this.Interface ≠ GoValue.int64 n) →
      (∀ n, this.Interface ≠ GoValue.int n) → this.Int = 0) ∧
    ((∀ b, this.Interface ≠ GoValue.bool b) → this.Bool = false) ∧
    (this.currentElement = none →
      this.Interface = GoValue.nil ∧ this.String = "" ∧ this.Int = 0 ∧ this.Bool = false) := by
  refine ⟨?_, ?_, ?_, ?_⟩
  · intro h1 h2
    unfold Configuration.String
    cases hv : this.Interface <;> simp_all
  · intro h1 h2 h3
    unfold Configuration.Int
    cases hv : this.Interface <;> simp_all
  · intro h1
    unfold Configuration.Bool
    cases hv : this.Interface <;> simp_all
  · intro hnil
    have h : this.Interface = GoValue.nil := by
      unfold Configuration.Interface
      rw [hnil]
    refine ⟨h, ?_, ?_, ?_⟩
    · unfold Configuration.String; rw [h]
    · unfold Configuration.Int; rw [h]
    · unfold Configuration.Bool; rw [h]

/-- Witness for C6: `general.port` holds an int, so `String()` is empty and `Bool()` false, and
after `Get("general")`, which leaves the current element nil, all projections are zero. -/
theorem projections_zero_on_mismatch_witness :
    (NewConfiguration.Get "general.port").String = "" ∧
    (NewConfiguration.Get "general.port").Bool = false ∧
    (NewConfiguration.Get "general.name").Int = 0 ∧
    (NewConfiguration.Get "general").Int = 0 := by
  have hport : (NewConfiguration.Get "general.port").Interface = GoValue.int 8334 := by decide
  have hname : (NewConfiguration.Get "general.name").Interface = GoValue.string "Filestash" := by
    decide
  exact ⟨(projections_zero_on_mismatch (NewConfiguration.Get "general.port")).1
      (by rw [hport]; intro s; simp) (by rw [hport]; intro s; simp),
    (projections_zero_on_mismatch (NewConfiguration.Get "general.port")).2.2.1
      (by rw [hport]; intro s; simp),
    (projections_zero_on_mismatch (NewConfiguration.Get "general.name")).2.1
      (by rw [hname]; intro s; simp) (by rw [hname]; intro s; simp)
      (by rw [hname]; intro s; simp),
    ((projections_zero_on_mismatch (NewConfiguration.Get "general")).2.2.2 (by decide)).2.2.1⟩

/-! ## Reading back what was written through a pointer -/

theorem formAt_modifyFormAt (g : Form → Form) (path : List Nat) :
    ∀ (forms : List Form) (f : Form), formAt forms path = some f →
      formAt (modifyFormAt g forms path) path = some (g f) := by
  induction path with
  | nil => intro forms f h; simp [formAt] at h
  | cons i rest ih =>
    intro forms f h
    cases hi : forms[i]? with
    | none =>
      cases rest with
      | nil => rw [formAt, hi] at h; cases h
      | cons j rest => rw [formAt, hi] at h; cases h
    | some a =>
      have hlt : i < forms.length := by
        rcases Nat.lt_or_ge i forms.length with hlt | hge
        · exact hlt
        · rw [List.getElem?_eq_none hge] at hi; cases hi
      cases rest with
      | nil =>
        rw [formAt, hi] at h
        cases h
        rw [modifyFormAt, formAt]
        simp [hi, hlt]
      | cons j rest =>
        rw [formAt, hi] at h
        have := ih a.Form f h
        rw [modifyFormAt, formAt]
        simp [hi, hlt, this]

theorem getElem?_modifyElmnt (g : FormElement → FormElement) (elmnts : List FormElement)
    (i : Nat) (el : FormElement) (h : elmnts[i]? = some el) :
    (modifyElmnt g elmnts i)[i]? = some (g el) := by
  have hlt : i < elmnts.length := by
    rcases Nat.lt_or_ge i elmnts.length with hlt | hge
    · exact hlt
    · rw [List.getElem?_eq_none hge] at h; cases h
  simp [modifyElmnt, h, hlt]

/-- After `*p = g(*p)` the pointer `p` reads `g` of what it read before. -/
theorem load_store (this : Configuration) (p : Ptr) (g : FormElement → FormElement)
    (el : FormElement) (h : this.load p = some el) :
    (this.store p g).load p = some (g el) := by
  unfold Configuration.load at h
  unfold Configuration.store
  cases hf : formAt this.form p.path with
  | none => simp [hf] at h
  | some f =>
    simp only [hf] at h ⊢
    by_cases hgen : f.gen = p.gen
    · simp only [hgen, if_true] at h ⊢
      unfold Configuration.load
      simp only [formAt_modifyFormAt _ _ _ _ hf, Form.write, hgen, if_true]
      exact getElem?_modifyElmnt g _ _ _ h
    · simp only [hgen, if_false] at h ⊢
      unfold Configuration.load
      simp only [hf, hgen, if_false]
      cases hr : this.retired.find? (fun r => r.path = p.path ∧ r.gen = p.gen) with
      | none => rw [hr] at h; cases h
      | some r =>
        simp only [hr, Option.bind_some] at h
        have hpred := List.find?_some hr
        simp only [decide_eq_true_eq] at hpred
        have hfind : (this.retired.map (fun r : Retired =>
            if r.path = p.path ∧ r.gen = p.gen then
              { r with elmnts := modifyElmnt g r.elmnts p.idx }
            else r)).find? (fun r => r.path = p.path ∧ r.gen = p.gen) =
            some { r with elmnts := modifyElmnt g r.elmnts p.idx } := by
          rw [List.find?_map]
          have hcomp : ((fun r : Retired => decide (r.path = p.path ∧ r.gen = p.gen)) ∘
              (fun r : Retired => if r.path = p.path ∧ r.gen = p.gen then
                { r with elmnts := modifyElmnt g r.elmnts p.idx } else r)) =
              (fun r : Retired => decide (r.path = p.path ∧ r.gen = p.gen)) := by
            funext r
            by_cases hr' : r.path = p.path ∧ r.gen = p.gen
            · simp [hr']
            · simp only [Function.comp, hr', if_false]
          rw [hcomp, hr]
          simp [hpred]
        rw [hfind]
        exact getElem?_modifyElmnt g _ _ _ h

theorem load_Save (this : Configuration) (p : Ptr) : this.Save.load p = this.load p := rfl

/-! ## `Set` and `Default` -/

/-- Claim C7 does not hold as stated: on the declared schema the leaf `general.name` has no
`Value` and the `Default` "Filestash", so that its effective value is "Filestash"; yet
`Set("Filestash")` assigns the `Value` and calls `Save`, which writes a document. -/
theorem Set_effective_value_saves :
    (NewConfiguration.Get "general.name").Interface = GoValue.string "Filestash" ∧
    ((NewConfiguration.Get "general.name").load ⟨[0], 0, 0⟩).map (·.Value) = some GoValue.nil ∧
    (((NewConfiguration.Get "general.name").Set (GoValue.string "Filestash")).state.load
      ⟨[0], 0, 0⟩).map (·.Value) = some (GoValue.string "Filestash") ∧
    (NewConfiguration.Get "general.name").writes.length = 0 ∧
    ((NewConfiguration.Get "general.name").Set (GoValue.string "Filestash")).state.writes.length
      = 1 := by
  decide

/-- Claim C7, amended. When the current element points to leaf `el` and `v` is the `Value` of
`el`, and not a byte slice, `Set(v)` returns without calling `Save`: nothing is written, the tree
is the same, and the leaf has the `Value` and the `Default` it had. When the `Value` of `el` is
not nil this `v` is the effective value of `el`. -/
theorem Set_same_value (this : Configuration) (p : Ptr) (el : FormElement) (v : GoValue)
    (hcur : this.currentElement = some p) (hel : this.load p = some el)
    (hv : el.Value = v) (hbytes : ∀ b, v ≠ GoValue.bytes b) :
    this.Set v = Outcome.returned { this with cache := this.cache.Clear } ∧
    (this.Set v).state.writes = this.writes ∧
    (this.Set v).state.form = this.form ∧
    (this.Set v).state.load p = some el ∧
    (v ≠ GoValue.nil → el.effective = v) := by
  have hne : el.Value.ne v = some false := by
    subst hv
    cases hval : el.Value <;> simp_all [GoValue.ne]
  have hset : this.Set v = Outcome.returned { this with cache := this.cache.Clear } := by
    obtain ⟨cur, cache, form, retired, writes⟩ := this
    simp only at hcur
    subst hcur
    have hload : Configuration.load
        { currentElement := some p, cache := KeyValueStore.Clear cache, form := form,
          retired := retired, writes := writes } p = some el := hel
    unfold Configuration.Set
    simp only [hload, hne]
  refine ⟨hset, by rw [hset]; rfl, by rw [hset]; rfl, by rw [hset]; exact hel, ?_⟩
  intro hnil
  simp [FormElement.effective, hv, hnil]

/-- Witness for C7, amended: `Set(nil)` on the leaf `general.port` of the declared schema, whose
`Value` is nil. -/
theorem Set_same_value_witness :
    ((NewConfiguration.Get "general.port").Set GoValue.nil).state.writes = [] :=
  ((Set_same_value (NewConfiguration.Get "general.port") ⟨[0], 0, 1⟩
    { Name := "port", Typ := "number", Default := .int 8334,
      Description := "Port on which the application is available.",
      Placeholder := "Default: 8334" } GoValue.nil (by decide) (by decide) (by decide)
    (by intro b; simp)).2.1).trans (by decide)

/-- Claim C8. When the current element points to leaf `el` whose `Default` is nil, and `A` is
not nil, `Default(A)` returns and leaves the leaf with `Default` equal to `A` and the other
fields as they were; a following `Default(B)`, for any `B`, changes nothing at all: in the state
it leaves behind, the leaf still has `Default` equal to `A`. (The second call ends in a panic
when `A` and `B` are both byte slices, which Go cannot compare; it has changed nothing then
either.) -/
theorem Default_first_write_wins (this : Configuration) (p : Ptr) (el : FormElement)
    (A B : GoValue) (hcur : this.currentElement = some p) (hel : this.load p = some el)
    (hnil : el.Default = GoValue.nil) (hA : A ≠ GoValue.nil) :
    ∃ this1, this.Default A = Outcome.returned this1 ∧
      this1.currentElement = some p ∧
      this1.load p = some { el with Default := A } ∧
      (this1.Default B).state = this1 ∧
      (this1.Default B).state.load p = some { el with Default := A } ∧
      ((∀ a b, ¬ (A = GoValue.bytes a ∧ B = GoValue.bytes b)) →
        this1.Default B = Outcome.returned this1) := by
  have h1 : this.Default A =
      Outcome.returned (this.store p (fun el => { el with Default := A })).Save := by
    unfold Configuration.Default
    rw [hcur]
    simp only [hel, hnil, if_true]
  have hcur1 : (this.store p (fun el => { el with Default := A })).Save.currentElement
      = some p := by
    unfold Configuration.store Configuration.Save
    cases hf : formAt this.form p.path with
    | none => simpa [hf] using hcur
    | some f => by_cases hg : f.gen = p.gen <;> simpa [hf, hg] using hcur
  have hload1 : (this.store p (fun el => { el with Default := A })).Save.load p
      = some { el with Default := A } := by
    rw [load_Save]
    exact load_store this p _ el hel
  have hsecond : ∀ this1 : Configuration, this1.currentElement = some p →
      this1.load p = some { el with Default := A } →
      (this1.Default B).state = this1 ∧
      ((∀ a b, ¬ (A = GoValue.bytes a ∧ B = GoValue.bytes b)) →
        this1.Default B = Outcome.returned this1) := by
    intro this1 hc hl
    unfold Configuration.Default
    rw [hc]
    simp only [hl, hA, if_false]
    cases hne : A.ne B with
    | none =>
      refine ⟨rfl, ?_⟩
      intro hab
      cases A <;> cases B <;> simp_all [GoValue.ne]
    | some b => exact ⟨rfl, fun _ => rfl⟩
  have h2 := hsecond _ hcur1 hload1
  exact ⟨_, h1, hcur1, hload1, h2.1, by rw [h2.1]; exact hload1, h2.2⟩

/-- Witness for C8: `Default("a")` and then `Default("b")` on the leaf `general.host` of the
declared schema, which has no default. -/
theorem Default_first_write_wins_witness :
    ∃ this1, (NewConfiguration.Get "general.host").Default (GoValue.string "a")
        = Outcome.returned this1 ∧
      (this1.Default (GoValue.string "b")).state = this1 ∧
      ((this1.Default (GoValue.string "b")).state.load ⟨[0], 0, 2⟩).map (·.Default)
        = some (GoValue.string "a") := by
  obtain ⟨this1, h1, _, _, h4, h5, _⟩ :=
    Default_first_write_wins (NewConfiguration.Get "general.host") ⟨[0], 0, 2⟩
      { Name := "host", Typ := "text",
        Description := "The host people need to use to access this server",
        Placeholder := "Eg: \"demo.filestash.app\"" } (GoValue.string "a") (GoValue.string "b")
      (by decide) (by decide) (by decide) (by decide)
  exact ⟨this1, h1, h4, by rw [h5]; rfl⟩

/-! ## A persisted override, there and back -/

set_option maxRecDepth 100000 in
/-- Claim C10. On the declared schema, `Get("general.port").Set(9999)` returns and hands one
document to the configuration file; in that document the object under the top level key
`general` has the number 9999 under its key `port`; and `Load` on that document, run on a fresh
configuration, returns and leaves a configuration where `Get("general.port")` holds the
float64 9999 and `Int()` is 9999. -/
theorem Set_port_round_trip :
    ((NewConfiguration.Get "general.port").Set (GoValue.int 9999)).returns = true ∧
    ((NewConfiguration.Get "general.port").Set (GoValue.int 9999)).state.writes =
      [((NewConfiguration.Get "general.port").Set (GoValue.int 9999)).state.document] ∧
    ((NewConfiguration.Get "general.port").Set (GoValue.int 9999)).state.document =
      "\x7b\"general\":\x7b\"name\":null,\"port\":9999,\"host\":null,\"secret_key\":null,\"force_ssl\":null,\"editor\":null,\"fork_button\":null,\"display_hidden\":null,\"auto_connect\":null,\"remember_me\":null,\"upload_button\":null\x7d,\"features\":\x7b\"share\":\x7b\"enable\":null\x7d\x7d,\"log\":\x7b\"enable\":null,\"level\":null,\"telemetry\":null\x7d,\"email\":\x7b\"server\":null,\"port\":null,\"username\":null,\"password\":null,\"from\":null\x7d,\"auth\":\x7b\"admin\":null\x7d,\"connections\":\x7b\x7d\x7d" ∧
    ((((gjsonParse ((NewConfiguration.Get "general.port").Set
        (GoValue.int 9999)).state.document).bind (Json.member "general")).bind
        (Json.member "port")).map Json.Value) = some (GoValue.float64 9999) ∧
    (NewConfiguration.Load (some ((NewConfiguration.Get "general.port").Set
        (GoValue.int 9999)).state.document)).returns = true ∧
    ((NewConfiguration.Load (some ((NewConfiguration.Get "general.port").Set
        (GoValue.int 9999)).state.document)).state.Get "general.port").Interface
      = GoValue.float64 9999 ∧
    ((NewConfiguration.Load (some ((NewConfiguration.Get "general.port").Set
        (GoValue.int 9999)).state.document)).state.Get "general.port").Int = 9999 := by
  refine ⟨?_, ?_, ?_, ?_, ?_, ?_, ?_⟩ <;> decide!

/-! ## Round trip: one round of hydration as a function on the tree -/

theorem toList_intercalate (segs : List String) :
    (".".intercalate segs).toList = ['.'].intercalate (segs.map String.toList) := by
  induction segs with
  | nil => rfl
  | cons a as ih =>
    cases as with
    | nil => simp [String.intercalate, String.intercalate.go, List.intercalate]
    | cons b bs =>
      rw [intercalate_cons_cons]
      simp only [String.toList] at ih ⊢
      simp only [String.data_append, ih]
      simp [List.intercalate]

/-- Splitting a dotted path gives back its segments when none of them has a dot. -/
theorem splitDot_intercalate (segs : List String) (hne : segs ≠ [])
    (hdot : ∀ s ∈ segs, noDot s = true) : splitDot (".".intercalate segs) = segs := by
  unfold splitDot
  rw [toList_intercalate, List.splitOn_intercalate (segs.map String.toList) '.' (by
    intro l hl
    obtain ⟨s, hs, rfl⟩ := List.mem_map.1 hl
    simpa [noDot] using hdot s hs) (by simpa using hne)]
  simp [List.map_map, Function.comp_def, String.toList]

theorem KeyValueStore.Get_eq_none_iff (cache : KeyValueStore) (key : String) :
    cache.Get key = none ↔ ∀ e ∈ cache, e.1 ≠ key := by
  unfold KeyValueStore.Get
  simp [List.find?_eq_none]

theorem KeyValueStore.Get_Set_none (cache : KeyValueStore) (key key2 : String) (ref : Option Ptr)
    (hne : key2 ≠ key) (h : cache.Get key2 = none) : (cache.Set key ref).Get key2 = none := by
  rw [KeyValueStore.Get_eq_none_iff] at h ⊢
  intro e he
  unfold KeyValueStore.Set at he
  rcases List.mem_cons.1 he with rfl | he
  · exact fun h' => hne h'.symm
  · exact h e (List.mem_filter.1 he).1

theorem locate_spec (t : String) (forms : List Form) :
    ∃ cur, IsFirstTitled (locate t forms).2 t (locate t forms).1 cur := by
  unfold locate
  cases hfind : findForm t forms with
  | some i => exact findForm_some hfind
  | none => exact ⟨Form.titled t, isFirstTitled_append hfind _ rfl⟩

theorem traverse_locate (forms : List Form) (t : String) (rest : List String) :
    traverse forms (t :: rest) =
      traverseAt (fun sub => traverse sub rest) (locate t forms).2 (locate t forms).1 rest := by
  rw [traverse]
  unfold locate
  cases hfind : findForm t forms <;> rfl

theorem getElem?_set_self_of_isFirstTitled {forms : List Form} {t : String} {i : Nat}
    {cur : Form} (h : IsFirstTitled forms t i cur) (x : Form) : (forms.set i x)[i]? = some x := by
  simp [List.getElem?_set, h.lt_length]

theorem plant_leaf (w : GoValue) {forms : List Form} {t : String} {cur : Form}
    (hcur : IsFirstTitled (locate t forms).2 t (locate t forms).1 cur) (name : String) :
    plant w forms [t, name] =
      (locate t forms).2.set (locate t forms).1 (plantLeaf w cur name) := by
  rw [plant]
  simp only [hcur.1]

theorem plant_inner (w : GoValue) {forms : List Form} {t : String} {cur : Form}
    (hcur : IsFirstTitled (locate t forms).2 t (locate t forms).1 cur) (rest : List String)
    (hrest : rest.length ≠ 1) :
    plant w forms (t :: rest) =
      (locate t forms).2.set (locate t forms).1 { cur with Form := plant w cur.Form rest } := by
  rw [plant]
  simp only [hcur.1]
  match rest, hrest with
  | [], _ => rfl
  | [_], h1 => simp at h1
  | _ :: _ :: _, _ => rfl

/-- One round of hydration on the tree, read off `traverse`: the pointer returned reads a leaf
`el`, and the tree after the round is the tree after `traverse` with the value assigned through
the pointer when it differs from the effective value of `el`. -/
theorem traverse_plant (w : GoValue) (segs : List String) :
    ∀ forms : List Form, 2 ≤ segs.length →
    ∃ p f el, (traverse forms segs).elem = some p ∧
      formAt (traverse forms segs).forms p.path = some f ∧ f.gen = p.gen ∧
      f.Elmnts[p.idx]? = some el ∧
      plant w forms segs =
        if el.effective ≠ w then
          modifyFormAt (Form.write (fun el => { el with Value := w }) p.idx)
            (traverse forms segs).forms p.path
        else (traverse forms segs).forms := by
  induction segs with
  | nil => intro forms h; simp at h
  | cons t rest ih =>
    intro forms hlen
    obtain ⟨cur, hcur⟩ := locate_spec t forms
    rw [traverse_locate]
    match rest, hlen, ih with
    | [name], _, _ =>
      rw [traverseAt_leaf _ hcur]
      obtain ⟨-, -, -, el, hel, -⟩ := leaf_spec cur name
      refine ⟨_, (cur.leaf name).2.1, el, rfl, ?_, rfl, hel, ?_⟩
      · simp only [formAt]
        exact getElem?_set_self_of_isFirstTitled hcur _
      · rw [plant_leaf w hcur]
        simp only [plantLeaf, hel, modifyFormAt, Form.write,
          getElem?_set_self_of_isFirstTitled hcur, modifyElmnt, List.set_set]
        split <;> rfl
    | r1 :: r2 :: rs, _, ih =>
      rw [traverseAt_inner _ hcur _ (by simp)]
      obtain ⟨p, f, el, hp, hf, hg, hel, hplant⟩ := ih cur.Form (by simp)
      have hpath : ∃ j q, p.path = j :: q := by
        cases hq : p.path with
        | nil => rw [hq] at hf; simp [formAt] at hf
        | cons j q => exact ⟨j, q, rfl⟩
      obtain ⟨j, q, hq⟩ := hpath
      refine ⟨{ p with path := (locate t forms).1 :: p.path }, f, el, by simp [hp], ?_, hg,
        hel, ?_⟩
      · simp only [hq, formAt, getElem?_set_self_of_isFirstTitled hcur]
        rw [← hq]; exact hf
      · rw [plant_inner w hcur _ (by simp), hplant]
        split
        · simp only [hq, modifyFormAt, getElem?_set_self_of_isFirstTitled hcur, List.set_set]
        · rfl

theorem GoValue.ne_of_not_bytes (a w : GoValue) (hw : ∀ b, w ≠ GoValue.bytes b) :
    a.ne w = some (decide (a ≠ w)) := by
  cases a <;> cases w <;> simp_all [GoValue.ne]

theorem store_cache (c : Configuration) (p : Ptr) (g : FormElement → FormElement) :
    (c.store p g).cache = c.cache := by
  unfold Configuration.store
  cases hfa : formAt c.form p.path with
  | none => rfl
  | some f2 => by_cases hg2 : f2.gen = p.gen <;> simp [hg2]

/-- One round of the hydration loop, for a key that is not cached and has two or more segments
and a value that is not a byte slice: the round returns, and it changes the tree as `plant`
does. Keys that were not cached before, other than the one looked up, are not cached after. -/
theorem hydrateStep_plant (this : Configuration) (key : String) (w : GoValue)
    (hmiss : this.cache.Get key = none) (hlen : 2 ≤ (splitDot key).length)
    (hw : ∀ b, w ≠ GoValue.bytes b) :
    ∃ this1, hydrateStep this ⟨key, w⟩ = Outcome.returned this1 ∧
      this1.form = plant w this.form (splitDot key) ∧
      ∀ key2, key2 ≠ key → this.cache.Get key2 = none → this1.cache.Get key2 = none := by
  obtain ⟨p, f, el, hp, hf, hg, hel, hplant⟩ := traverse_plant w (splitDot key) this.form hlen
  have hget : this.Get key =
      { this with
        currentElement := some p
        form := (traverse this.form (splitDot key)).forms
        retired := this.retired ++ (traverse this.form (splitDot key)).retired.toList
        cache := this.cache.Set key (some p) } := by
    unfold Configuration.Get
    simp only [hmiss, hp]
  have hload : (this.Get key).load p = some el := by
    rw [hget]
    unfold Configuration.load
    simp only [hf, hg, if_true, hel]
  have hint : (this.Get key).Interface = el.effective := by
    have hcur : (this.Get key).currentElement = some p := by rw [hget]
    exact Interface_of_load _ p el hcur hload
  have hcache : ∀ key2, key2 ≠ key → this.cache.Get key2 = none →
      (this.Get key).cache.Get key2 = none := by
    intro key2 hne h2
    rw [hget]
    exact KeyValueStore.Get_Set_none _ _ _ _ hne h2
  unfold hydrateStep
  simp only [hint, GoValue.ne_of_not_bytes _ w hw]
  by_cases heff : el.effective = w
  · refine ⟨this.Get key, by simp [heff], ?_, hcache⟩
    rw [hplant, hget]
    simp [heff]
  · have hcur : (this.Get key).currentElement = some p := by rw [hget]
    refine ⟨(this.Get key).store p (fun el => { el with Value := w }), ?_, ?_, ?_⟩
    · simp [heff, hcur, hload]
    · rw [hplant]
      simp only [ne_eq, heff, not_false_eq_true, if_true]
      unfold Configuration.store
      have hf2 : formAt (this.Get key).form p.path = some f := by rw [hget]; exact hf
      simp only [hf2, hg, if_true]
      rw [hget]
    · intro key2 hne h2
      rw [store_cache]
      exact hcache key2 hne h2

/-- The hydration loop over pairs with distinct keys, none cached beforehand, each with two or
more segments and a value that is not a byte slice, returns, and changes the tree as `plant`
does, pair after pair. -/
theorem hydrateLoop_plant (ds : List JSONIterator) :
    ∀ this : Configuration, (ds.map (·.Path)).Nodup →
      (∀ d ∈ ds, this.cache.Get d.Path = none ∧ 2 ≤ (splitDot d.Path).length ∧
        ∀ b, d.Value ≠ GoValue.bytes b) →
      ∃ this1, hydrateLoop this ds = Outcome.returned this1 ∧
        this1.form = ds.foldl (fun fm d => plant d.Value fm (splitDot d.Path)) this.form := by
  induction ds with
  | nil => intro this _ _; exact ⟨this, rfl, rfl⟩
  | cons d ds ih =>
    intro this hnd hall
    obtain ⟨hmiss, hlen, hw⟩ := hall d (List.mem_cons_self _ _)
    obtain ⟨this1, hstep, hform, hcache⟩ := hydrateStep_plant this d.Path d.Value hmiss hlen hw
    have hnd2 : (ds.map (·.Path)).Nodup := (List.nodup_cons.1 (by simpa using hnd)).2
    have hnotin : d.Path ∉ ds.map (·.Path) := (List.nodup_cons.1 (by simpa using hnd)).1
    obtain ⟨this2, hloop, hform2⟩ := ih this1 hnd2 (by
      intro d2 hd2
      obtain ⟨h1, h2, h3⟩ := hall d2 (List.mem_cons_of_mem _ hd2)
      refine ⟨hcache _ ?_ h1, h2, h3⟩
      intro heq
      exact hnotin (heq ▸ List.mem_map_of_mem _ hd2))
    refine ⟨this2, ?_, ?_⟩
    · rw [hydrateLoop]
      have hd : (⟨d.Path, d.Value⟩ : JSONIterator) = d := rfl
      rw [hd] at hstep
      simp only [hstep, hloop]
    · rw [hform2, hform]
      rfl

/-! ## Round trip: hydrating a fresh tree with the leaves of a tidy tree -/

theorem locate_of_isFirstTitled {forms : List Form} {t : String} {i : Nat} {cur : Form}
    (h : IsFirstTitled forms t i cur) : locate t forms = (i, forms) := by
  unfold locate
  rw [findForm_of_isFirstTitled h]

theorem plantAll_append (forms : List Form) (ps qs : List (List String × GoValue)) :
    plantAll forms (ps ++ qs) = plantAll (plantAll forms ps) qs := by
  unfold plantAll
  rw [List.foldl_append]

theorem form_eta (g : Form) : ({ g with Form := g.Form } : Form) = g := by
  cases g; rfl

theorem plantLeaf_title (w : GoValue) (cur : Form) (name : String) :
    (plantLeaf w cur name).Title = cur.Title ∧ (plantLeaf w cur name).Form = cur.Form := by
  obtain ⟨ht, hf, -, -⟩ := leaf_spec cur name
  unfold plantLeaf
  split
  · exact ⟨ht, hf⟩
  · split
    · exact ⟨ht, hf⟩
    · exact ⟨ht, hf⟩

/-- Pairs whose paths go on below the container titled `t` act on the children of that
container only. -/
theorem plantAll_inner {t : String} (ps : List (List String × GoValue)) :
    ∀ (forms : List Form) (i : Nat) (cur : Form), IsFirstTitled forms t i cur →
      (∀ p ∈ ps, 2 ≤ p.1.length) →
      plantAll forms (ps.map (fun p => (t :: p.1, p.2))) =
        forms.set i { cur with Form := plantAll cur.Form ps } := by
  induction ps with
  | nil =>
    intro forms i cur hcur _
    simp only [List.map_nil, plantAll, List.foldl_nil]
    rw [form_eta, set_of_getElem? hcur.1]
  | cons p ps ih =>
    intro forms i cur hcur hlen
    have hp : 2 ≤ p.1.length := hlen p (List.mem_cons_self _ _)
    have hloc := locate_of_isFirstTitled hcur
    have hcur2 : IsFirstTitled (locate t forms).2 t (locate t forms).1 cur := by
      rw [hloc]; exact hcur
    have hstep : plant p.2 forms (t :: p.1) =
        forms.set i { cur with Form := plant p.2 cur.Form p.1 } := by
      rw [plant_inner p.2 hcur2 _ (by omega), hloc]
    have hcur3 : IsFirstTitled (forms.set i { cur with Form := plant p.2 cur.Form p.1 }) t i
        { cur with Form := plant p.2 cur.Form p.1 } := isFirstTitled_set hcur _ hcur.2.1
    have := ih _ i _ hcur3 (fun q hq => hlen q (List.mem_cons_of_mem _ hq))
    simp only [List.map_cons, plantAll, List.foldl_cons] at this ⊢
    rw [hstep, this, List.set_set]

/-- Pairs for the leaves of the container titled `t` act on that container only. -/
theorem plantAll_leaves {t : String} (ls : List (String × GoValue)) :
    ∀ (forms : List Form) (i : Nat) (cur : Form), IsFirstTitled forms t i cur →
      plantAll forms (ls.map (fun l => ([t, l.1], l.2))) = forms.set i (plantLeaves cur ls) := by
  induction ls with
  | nil =>
    intro forms i cur hcur
    simp only [List.map_nil, plantAll, plantLeaves, List.foldl_nil]
    rw [set_of_getElem? hcur.1]
  | cons l ls ih =>
    intro forms i cur hcur
    have hloc := locate_of_isFirstTitled hcur
    have hcur2 : IsFirstTitled (locate t forms).2 t (locate t forms).1 cur := by
      rw [hloc]; exact hcur
    have hstep : plant l.2 forms [t, l.1] = forms.set i (plantLeaf l.2 cur l.1) := by
      rw [plant_leaf l.2 hcur2, hloc]
    have hcur3 : IsFirstTitled (forms.set i (plantLeaf l.2 cur l.1)) t i (plantLeaf l.2 cur l.1) :=
      isFirstTitled_set hcur _ (by rw [(plantLeaf_title _ _ _).1]; exact hcur.2.1)
    have := ih _ i _ hcur3
    simp only [List.map_cons, plantAll, plantLeaves, List.foldl_cons] at this ⊢
    rw [hstep, this, List.set_set]

/-- The first pair for a container that is not there appends it; the pairs then act as on the
tree with the container appended. -/
theorem plantAll_create {t : String} (forms : List Form) (hfind : findForm t forms = none)
    (ps : List (List String × GoValue)) (hne : ps ≠ [])
    (hhead : ∀ p ∈ ps, ∃ rest, p.1 = t :: rest) :
    plantAll forms ps = plantAll (forms ++ [Form.titled t]) ps := by
  cases ps with
  | nil => exact absurd rfl hne
  | cons p ps =>
    obtain ⟨rest, hrest⟩ := hhead p (List.mem_cons_self _ _)
    have hloc1 : locate t forms = (forms.length, forms ++ [Form.titled t]) := by
      unfold locate; rw [hfind]
    have hloc2 : locate t (forms ++ [Form.titled t]) = (forms.length, forms ++ [Form.titled t]) :=
      locate_of_isFirstTitled (isFirstTitled_append hfind _ rfl)
    have hstep : plant p.2 forms p.1 = plant p.2 (forms ++ [Form.titled t]) p.1 := by
      rw [hrest, plant, plant, hloc1, hloc2]
    simp only [plantAll, List.foldl_cons, hstep]

theorem formatFloat_int (n : Int) : formatFloat (n : Rat) = toString n := by
  unfold formatFloat
  simp only [Rat.intCast_num, Rat.intCast_den, Nat.div_one, Nat.mod_one, if_true,
    String.append_empty]
  cases n with
  | ofNat m =>
    have h : ¬ (Int.ofNat m < 0) := by simp
    simp only [h, if_false, String.empty_append]
    rfl
  | negSucc m =>
    have h : Int.negSucc m < 0 := Int.negSucc_lt_zero m
    simp only [h, if_true]
    rfl

theorem flatMap_eq_self {f : Char → List Char} :
    ∀ l : List Char, (∀ c ∈ l, f c = [c]) → l.flatMap f = l
  | [], _ => rfl
  | c :: cs, h => by
    rw [List.flatMap_cons, h c (List.mem_cons_self _ _),
      flatMap_eq_self cs (fun x hx => h x (List.mem_cons_of_mem _ hx))]
    rfl

theorem jsonEscape_base64Char (n : Nat) : jsonEscape (base64Char n) = [base64Char n] := by
  have hall : ∀ c ∈ '=' ::
      "ABCDEFGHIJKLMNOPQRSTUVWXYZabcdefghijklmnopqrstuvwxyz0123456789+/".toList,
      jsonEscape c = [c] := by decide
  apply hall
  unfold base64Char
  rw [List.getD_eq_getElem?_getD]
  cases h : "ABCDEFGHIJKLMNOPQRSTUVWXYZabcdefghijklmnopqrstuvwxyz0123456789+/".toList[n]? with
  | none => simp
  | some c => exact List.mem_cons_of_mem _ (List.getElem?_mem h)

/-- No character of a base64 text needs an escape in a JSON string. -/
theorem jsonEscape_base64 : ∀ bs : List Nat, ∀ c ∈ base64 bs, jsonEscape c = [c]
  | [], c, h => by simp [base64] at h
  | [_], c, h => by
    simp only [base64, List.mem_cons, List.mem_singleton, List.not_mem_nil, or_false] at h
    rcases h with rfl | rfl | rfl | rfl
    · exact jsonEscape_base64Char _
    · exact jsonEscape_base64Char _
    · decide
    · decide
  | [_, _], c, h => by
    simp only [base64, List.mem_cons, List.mem_singleton, List.not_mem_nil, or_false] at h
    rcases h with rfl | rfl | rfl | rfl
    · exact jsonEscape_base64Char _
    · exact jsonEscape_base64Char _
    · exact jsonEscape_base64Char _
    · decide
  | _ :: _ :: _ :: rest, c, h => by
    simp only [base64, List.mem_cons] at h
    rcases h with rfl | rfl | rfl | rfl | h
    · exact jsonEscape_base64Char _
    · exact jsonEscape_base64Char _
    · exact jsonEscape_base64Char _
    · exact jsonEscape_base64Char _
    · exact jsonEscape_base64 rest c h

theorem jsonQuote_base64 (bs : List Nat) :
    jsonQuote (String.mk (base64 bs)) = "\"" ++ String.mk (base64 bs) ++ "\"" := by
  unfold jsonQuote
  simp only [String.toList]
  rw [flatMap_eq_self _ (jsonEscape_base64 bs)]

/-- Reading a written value back and writing it again gives the same text. -/
theorem jsonMarshal_reread (v : GoValue) : jsonMarshal v.reread = jsonMarshal v := by
  cases v <;> simp [GoValue.reread, jsonMarshal, formatFloat_int, jsonQuote_base64]

theorem reread_eq_nil (v : GoValue) : v.reread = GoValue.nil ↔ v = GoValue.nil := by
  cases v <;> simp [GoValue.reread]

theorem reread_not_bytes (v : GoValue) (h : v.exact = true) : ∀ b, v.reread ≠ GoValue.bytes b := by
  cases v <;> simp_all [GoValue.reread, GoValue.exact]

theorem findElmnt_append_found (name : String) (doneL : List FormElement) (a : FormElement)
    (as : List FormElement) (hdone : ∀ d ∈ doneL, d.Name ≠ name) (ha : a.Name = name) :
    findElmnt name (doneL ++ a :: as) = some doneL.length := by
  induction doneL with
  | nil => simp [findElmnt, ha]
  | cons d ds ih =>
    have hd : d.Name ≠ name := hdone d (List.mem_cons_self _ _)
    simp [findElmnt, hd, ih (fun x hx => hdone x (List.mem_cons_of_mem _ hx))]

theorem findElmnt_eq_none {name : String} {elmnts : List FormElement}
    (h : ∀ d ∈ elmnts, d.Name ≠ name) : findElmnt name elmnts = none := by
  induction elmnts with
  | nil => rfl
  | cons d ds ih =>
    have hd : d.Name ≠ name := h d (List.mem_cons_self _ _)
    simp [findElmnt, hd, ih (fun x hx => h x (List.mem_cons_of_mem _ hx))]

/-- Planting a leaf whose schema leaf `a` comes next among the elements of the container. -/
theorem plantLeaf_found (w : GoValue) (cur : Form) (doneL : List FormElement) (a : FormElement)
    (as : List FormElement) (hels : cur.Elmnts = doneL ++ a :: as)
    (hdone : ∀ d ∈ doneL, d.Name ≠ a.Name) :
    (plantLeaf w cur a.Name).Elmnts =
      doneL ++ (if a.effective ≠ w then { a with Value := w } else a) :: as := by
  have hfind := findElmnt_append_found a.Name doneL a as hdone rfl
  unfold plantLeaf Form.leaf
  rw [hels, hfind]
  simp only [hels, List.getElem?_append_right (Nat.le_refl _), Nat.sub_self,
    List.getElem?_cons_zero]
  split
  · simp [hels]
  · simp [hels]

/-- Planting a leaf that the container does not have yet. -/
theorem plantLeaf_new (w : GoValue) (cur : Form) (name : String)
    (hnone : ∀ d ∈ cur.Elmnts, d.Name ≠ name) :
    (plantLeaf w cur name).Elmnts =
      cur.Elmnts ++ [{ Name := name, Typ := "text", Value := w }] := by
  have hfind := findElmnt_eq_none hnone
  unfold plantLeaf Form.leaf
  rw [hfind]
  by_cases hcap : cur.Elmnts.length < cur.cap
  · simp only [hcap, if_true, List.getElem?_append_right (Nat.le_refl _), Nat.sub_self,
      List.getElem?_cons_zero]
    by_cases hw : w = GoValue.nil
    · simp [FormElement.effective, hw]
    · have : GoValue.nil ≠ w := fun h => hw h.symm
      simp [FormElement.effective, this]
  · simp only [hcap, if_false, List.getElem?_append_right (Nat.le_refl _), Nat.sub_self,
      List.getElem?_cons_zero]
    by_cases hw : w = GoValue.nil
    · simp [FormElement.effective, hw]
    · have : GoValue.nil ≠ w := fun h => hw h.symm
      simp [FormElement.effective, this]

theorem leavesSame_cons_iff (a e : FormElement) (as es : List FormElement) :
    leavesSame (a :: as) (e :: es) ↔
      a.Name = e.Name ∧ jsonMarshal a.Value = jsonMarshal e.Value ∧ leavesSame as es := by
  simp [leavesSame]

/-- Hydrating a container with the leaves `els` of a tidy container, when the elements still
untouched are the schema leaves that `els` has grown out of: afterwards the container has, after
the elements already done, exactly the leaves `els` as far as rendering goes. -/
theorem plantLeaves_same (els : List FormElement) :
    ∀ (cur : Form) (doneL pendL : List FormElement), cur.Elmnts = doneL ++ pendL →
      (∀ d ∈ doneL, d.Name ∉ els.map (·.Name)) → leavesGrown pendL els = true →
      (els.map (·.Name)).Nodup →
      (plantLeaves cur (els.map (fun el => (el.Name, el.Value.reread)))).Title = cur.Title ∧
      (plantLeaves cur (els.map (fun el => (el.Name, el.Value.reread)))).Form = cur.Form ∧
      ∃ resL, (plantLeaves cur (els.map (fun el => (el.Name, el.Value.reread)))).Elmnts
          = doneL ++ resL ∧ leavesSame resL els := by
  induction els with
  | nil =>
    intro cur doneL pendL hels _ hgrown _
    cases pendL with
    | nil => exact ⟨rfl, rfl, [], hels, trivial⟩
    | cons a as => simp [leavesGrown] at hgrown
  | cons e es ih =>
    intro cur doneL pendL hels hdone hgrown hnd
    have hnd' : e.Name ∉ es.map (·.Name) ∧ (es.map (·.Name)).Nodup := by
      simpa [List.nodup_cons] using hnd
    have hdoneE : ∀ d ∈ doneL, d.Name ≠ e.Name := by
      intro d hd h
      exact hdone d hd (by simp [h])
    have hdoneEs : ∀ d ∈ doneL, d.Name ∉ es.map (·.Name) := by
      intro d hd h
      exact hdone d hd (by simp only [List.map_cons]; exact List.mem_cons_of_mem _ h)
    have htitle := plantLeaf_title e.Value.reread cur e.Name
    simp only [List.map_cons, plantLeaves, List.foldl_cons]
    cases pendL with
    | cons a as =>
      simp only [leavesGrown, Bool.and_eq_true, Bool.or_eq_true, decide_eq_true_eq] at hgrown
      obtain ⟨⟨⟨hname, hval⟩, hcond⟩, hrest⟩ := hgrown
      have hE : (plantLeaf e.Value.reread cur e.Name).Elmnts = doneL ++
          (if a.effective ≠ e.Value.reread then { a with Value := e.Value.reread } else a) :: as := by
        rw [← hname]
        exact plantLeaf_found e.Value.reread cur doneL a as hels (hname ▸ hdoneE)
      have heff : a.effective = a.Default := by simp [FormElement.effective, hval]
      have hsame : (if a.effective ≠ e.Value.reread then { a with Value := e.Value.reread } else a).Name
            = e.Name ∧
          jsonMarshal (if a.effective ≠ e.Value.reread then { a with Value := e.Value.reread }
            else a).Value = jsonMarshal e.Value := by
        by_cases hne : a.effective = e.Value.reread
        · have hnil : e.Value = GoValue.nil := by
            rcases hcond with h | h
            · exact absurd (heff ▸ hne) h
            · exact h
          simp [hne, hname, hval, hnil]
        · simp [hne, hname, jsonMarshal_reread]
      generalize (if a.effective ≠ e.Value.reread then { a with Value := e.Value.reread }
        else a) = a2 at hE hsame
      obtain ⟨h1, h2, resL, h3, h4⟩ := ih (plantLeaf e.Value.reread cur e.Name)
        (doneL ++ [a2])
        as (by rw [hE]; simp) (by
          intro d hd
          rcases List.mem_append.1 hd with hd | hd
          · exact hdoneEs d hd
          · rw [List.mem_singleton.1 hd, hsame.1]
            exact hnd'.1) hrest hnd'.2
      refine ⟨h1.trans htitle.1, h2.trans htitle.2, a2 :: resL, ?_, ?_⟩
      · simpa [plantLeaves] using h3
      · exact (leavesSame_cons_iff _ _ _ _).2 ⟨hsame.1, hsame.2, h4⟩
    | nil =>
      have hE := plantLeaf_new e.Value.reread cur e.Name (by
        intro d hd
        rw [hels, List.append_nil] at hd
        exact hdoneE d hd)
      have hsame : ({ Name := e.Name, Typ := "text", Value := e.Value.reread } : FormElement).Name
            = e.Name ∧
          jsonMarshal ({ Name := e.Name, Typ := "text", Value := e.Value.reread } :
            FormElement).Value = jsonMarshal e.Value := ⟨rfl, jsonMarshal_reread _⟩
      generalize ({ Name := e.Name, Typ := "text", Value := e.Value.reread } : FormElement) = a2
        at hE hsame
      obtain ⟨h1, h2, resL, h3, h4⟩ := ih (plantLeaf e.Value.reread cur e.Name)
        (doneL ++ [a2]) []
        (by rw [hE, hels]; simp) (by
          intro d hd
          rcases List.mem_append.1 hd with hd | hd
          · exact hdoneEs d hd
          · rw [List.mem_singleton.1 hd, hsame.1]
            exact hnd'.1) (by simp [leavesGrown]) hnd'.2
      refine ⟨h1.trans htitle.1, h2.trans htitle.2, a2 :: resL, ?_, ?_⟩
      · simpa [plantLeaves] using h3
      · exact (leavesSame_cons_iff _ _ _ _).2 ⟨hsame.1, hsame.2, h4⟩

theorem Form.tidy_iff (f : Filestash.Form) :
    f.tidy = true ↔ (noDot f.Title = true ∧
      (∀ el ∈ f.Elmnts, noDot el.Name = true ∧ el.Value.exact = true) ∧
      (f.Elmnts.map (·.Name)).Nodup ∧ (f.Form.map (·.Title)).Nodup ∧
      (f.Elmnts ≠ [] ∨ f.Form ≠ []) ∧ tidyForms f.Form = true) ∧
      (f.Title ≠ "" ∧ noSpace f.Title = true ∧ ∀ el ∈ f.Elmnts, noSpace el.Name = true) := by
  cases f
  simp only [Form.tidy, Bool.and_eq_true, List.all_eq_true, decide_eq_true_eq, Bool.or_eq_true,
    Bool.not_eq_true', List.isEmpty_eq_false, and_assoc]

theorem Form.grown_iff (g f : Filestash.Form) :
    g.grown f = true ↔ g.Title = f.Title ∧ leavesGrown g.Elmnts f.Elmnts = true ∧
      formsGrown g.Form f.Form = true := by
  cases g
  simp [Form.grown, and_assoc]

theorem Form.same_iff (g f : Filestash.Form) :
    g.Same f ↔ g.Title = f.Title ∧ leavesSame g.Elmnts f.Elmnts ∧ FormsSame g.Form f.Form := by
  cases g
  simp [Form.Same]

theorem Form.pairs_eq (f : Filestash.Form) :
    f.pairs = f.Elmnts.map (fun el => ([f.Title, el.Name], el.Value.reread)) ++
      (pairsOf f.Form).map (fun p => (f.Title :: p.1, p.2)) := by
  cases f
  simp [Form.pairs]

mutual

/-- The pairs of a tidy container have paths of two or more segments without dots, starting
with its title, and values that are not byte slices; and there is at least one pair. -/
theorem Form.pairs_wf : ∀ f : Filestash.Form, f.tidy = true →
    f.pairs ≠ [] ∧ ∀ p ∈ f.pairs, (∃ rest, p.1 = f.Title :: rest) ∧ 2 ≤ p.1.length ∧
      (∀ s ∈ p.1, noDot s = true) ∧ ∀ b, p.2 ≠ GoValue.bytes b
  | ⟨title, form, elmnts, cap, gen⟩, h => by
    obtain ⟨ht, hels, -, -, hne, hform⟩ := ((Form.tidy_iff _).1 h).1
    have hsub := pairsOf_wf form hform
    rw [Form.pairs_eq]
    refine ⟨?_, ?_⟩
    · rcases hne with hne | hne
      · cases elmnts with
        | nil => exact absurd rfl hne
        | cons e es => simp
      · cases form with
        | nil => exact absurd rfl hne
        | cons c cs =>
          have hc : c.tidy = true := by
            simp only [tidyForms, Bool.and_eq_true] at hform
            exact hform.1
          have := (Form.pairs_wf c hc).1
          cases hcp : c.pairs with
          | nil => exact absurd hcp this
          | cons q qs => simp [pairsOf, hcp]
    · intro p hp
      rcases List.mem_append.1 hp with hp | hp
      · obtain ⟨el, hel, rfl⟩ := List.mem_map.1 hp
        obtain ⟨hn, hx⟩ := hels el hel
        refine ⟨⟨_, rfl⟩, by simp, ?_, reread_not_bytes _ hx⟩
        intro s hs
        simp only [List.mem_cons, List.mem_singleton, List.not_mem_nil, or_false] at hs
        rcases hs with rfl | rfl
        · exact ht
        · exact hn
      · obtain ⟨q, hq, rfl⟩ := List.mem_map.1 hp
        obtain ⟨h2, h3, h4⟩ := hsub q hq
        refine ⟨⟨_, rfl⟩, by simp; omega, ?_, h4⟩
        intro s hs
        rcases List.mem_cons.1 hs with rfl | hs
        · exact ht
        · exact h3 s hs

theorem pairsOf_wf : ∀ fs : List Filestash.Form, tidyForms fs = true →
    ∀ p ∈ pairsOf fs, 2 ≤ p.1.length ∧ (∀ s ∈ p.1, noDot s = true) ∧ ∀ b, p.2 ≠ GoValue.bytes b
  | [], _ => by simp [pairsOf]
  | f :: fs, h => by
    simp only [tidyForms, Bool.and_eq_true] at h
    intro p hp
    simp only [pairsOf] at hp
    rcases List.mem_append.1 hp with hp | hp
    · exact ((Form.pairs_wf f h.1).2 p hp).2
    · exact pairsOf_wf fs h.2 p hp

end

theorem isFirstTitled_middle (done : List Form) (p : Form) (ps : List Form) (t : String)
    (hp : p.Title = t) (hdone : ∀ d ∈ done, d.Title ≠ t) :
    IsFirstTitled (done ++ p :: ps) t done.length p := by
  refine ⟨by rw [List.getElem?_append_right (Nat.le_refl _)]; simp, hp, ?_⟩
  intro j g hj hg
  rw [List.getElem?_append_left hj] at hg
  exact hdone g (List.mem_iff_getElem?.2 ⟨j, hg⟩)

theorem set_middle (done : List Form) (p : Form) (ps : List Form) (x : Form) :
    (done ++ p :: ps).set done.length x = done ++ x :: ps := by
  induction done with
  | nil => rfl
  | cons d ds ih => simp [ih]

mutual

/-- Hydrating with the leaves of a tidy container `f`, when the container that the paths reach
is one that `f` has grown out of, leaves in its place a container that renders as `f`. -/
theorem plant_container : ∀ f : Filestash.Form, f.tidy = true →
    ∀ (forms : List Filestash.Form) (i : Nat) (cur : Filestash.Form),
      IsFirstTitled forms f.Title i cur → cur.grown f = true →
      ∃ res, plantAll forms f.pairs = forms.set i res ∧ res.Same f
  | ⟨title, form, elmnts, cap, gen⟩, h, forms, i, cur, hcur, hgrown => by
    obtain ⟨-, -, hnames, htitles, -, hform⟩ := ((Form.tidy_iff _).1 h).1
    obtain ⟨hct, hcl, hcf⟩ := (Form.grown_iff _ _).1 hgrown
    simp only at hcur hnames htitles hform hct hcl hcf
    obtain ⟨h1, h2, resL, h3, h4⟩ := plantLeaves_same elmnts cur [] cur.Elmnts rfl
      (by simp) hcl hnames
    obtain ⟨resF, h5, h6⟩ := plant_forest form hform htitles [] cur.Form (by simp) hcf
    simp only [List.nil_append] at h3 h5
    have hA : plantAll forms (elmnts.map (fun el => ([title, el.Name], el.Value.reread))) =
        forms.set i (plantLeaves cur (elmnts.map (fun el => (el.Name, el.Value.reread)))) := by
      have := plantAll_leaves (t := title)
        (elmnts.map (fun el => (el.Name, el.Value.reread))) forms i cur hcur
      simpa [List.map_map, Function.comp_def] using this
    generalize plantLeaves cur (elmnts.map (fun el => (el.Name, el.Value.reread))) = c1
      at h1 h2 h3 hA
    have hcur1 : IsFirstTitled (forms.set i c1) title i c1 :=
      isFirstTitled_set hcur c1 (by rw [h1]; exact hcur.2.1)
    have hB := plantAll_inner (t := title) (pairsOf form) (forms.set i c1) i c1 hcur1
      (fun p hp => (pairsOf_wf form hform p hp).1)
    refine ⟨{ c1 with Form := resF }, ?_, ?_⟩
    · rw [Form.pairs_eq, plantAll_append]
      simp only
      rw [hA, hB, List.set_set, h2, h5]
    · rw [Form.same_iff]
      exact ⟨by simp only [h1, hct], by simp only [h3]; exact h4, h6⟩

/-- Hydrating with the leaves of a tidy sequence `fs` of containers, when the tree consists of
containers already done, none titled as a container of `fs`, followed by schema containers that
`fs` has grown out of, leaves after the containers done a sequence that renders as `fs`. -/
theorem plant_forest : ∀ fs : List Filestash.Form, tidyForms fs = true →
    (fs.map (·.Title)).Nodup →
    ∀ (done pending : List Filestash.Form), (∀ d ∈ done, d.Title ∉ fs.map (·.Title)) →
      formsGrown pending fs = true →
      ∃ res, plantAll (done ++ pending) (pairsOf fs) = done ++ res ∧ FormsSame res fs
  | [], _, _, done, pending, _, hgrown => by
    cases pending with
    | nil => exact ⟨[], by simp [pairsOf, plantAll], trivial⟩
    | cons p ps => simp [formsGrown] at hgrown
  | f :: fs, htidy, hnd, done, pending, hdone, hgrown => by
    simp only [tidyForms, Bool.and_eq_true] at htidy
    have hnd' : f.Title ∉ fs.map (·.Title) ∧ (fs.map (·.Title)).Nodup := by
      simpa [List.nodup_cons] using hnd
    have hdoneF : ∀ d ∈ done, d.Title ≠ f.Title := by
      intro d hd h
      exact hdone d hd (by simp [h])
    have hdoneFs : ∀ d ∈ done, d.Title ∉ fs.map (·.Title) := by
      intro d hd h
      exact hdone d hd (by simp only [List.map_cons]; exact List.mem_cons_of_mem _ h)
    have hwf := Form.pairs_wf f htidy.1
    have hprep : ∃ p ps, plantAll (done ++ pending) f.pairs = plantAll (done ++ p :: ps) f.pairs ∧
        p.grown f = true ∧ formsGrown ps fs = true := by
      cases pending with
      | cons p ps =>
        simp only [formsGrown, Bool.and_eq_true] at hgrown
        exact ⟨p, ps, rfl, hgrown.1, hgrown.2⟩
      | nil =>
        refine ⟨Form.titled f.Title, [], ?_, ?_, by simp [formsGrown]⟩
        · rw [List.append_nil]
          exact plantAll_create done (findForm_eq_none hdoneF) f.pairs hwf.1
            (fun p hp => (hwf.2 p hp).1)
        · rw [Form.grown_iff]
          exact ⟨rfl, by simp [Form.titled, leavesGrown], by simp [Form.titled, formsGrown]⟩
    obtain ⟨p, ps, hpre, hpg, hpsg⟩ := hprep
    have hcur := isFirstTitled_middle done p ps f.Title ((Form.grown_iff _ _).1 hpg).1 hdoneF
    obtain ⟨res1, hres1, hsame1⟩ := plant_container f htidy.1 _ _ _ hcur hpg
    rw [set_middle] at hres1
    have hres1t : res1.Title = f.Title := ((Form.same_iff _ _).1 hsame1).1
    obtain ⟨res2, hres2, hsame2⟩ := plant_forest fs htidy.2 hnd'.2 (done ++ [res1]) ps (by
      intro d hd
      rcases List.mem_append.1 hd with hd | hd
      · exact hdoneFs d hd
      · rw [List.mem_singleton.1 hd, hres1t]
        exact hnd'.1) hpsg
    refine ⟨res1 :: res2, ?_, hsame1, hsame2⟩
    simp only [pairsOf]
    rw [plantAll_append, hpre, hres1]
    simpa using hres2

end

theorem leavesSame_entries (fn : GoValue → String) (hfn : fn = jsonMarshal) :
    ∀ (as es : List FormElement), leavesSame as es →
      as.map (fun el => "\"" ++ formatKey el.Name ++ "\":" ++ fn el.Value) =
        es.map (fun el => "\"" ++ formatKey el.Name ++ "\":" ++ fn el.Value)
  | [], [], _ => rfl
  | [], _ :: _, h => by simp [leavesSame] at h
  | _ :: _, [], h => by simp [leavesSame] at h
  | a :: as, e :: es, h => by
    obtain ⟨h1, h2, h3⟩ := (leavesSame_cons_iff _ _ _ _).1 h
    subst hfn
    simp only [List.map_cons, h1, h2, leavesSame_entries jsonMarshal rfl as es h3]

mutual

/-- Containers that are the same as far as rendering goes render to the same text. -/
theorem Form.same_toJSON : ∀ (g f : Filestash.Form), g.Same f →
    g.toJSON (fun el => jsonMarshal el.Value) = f.toJSON (fun el => jsonMarshal el.Value)
  | ⟨title, form, elmnts, cap, gen⟩, f, h => by
    obtain ⟨h1, h2, h3⟩ := (Form.same_iff _ _).1 h
    simp only at h1 h2 h3
    rw [toJSON_formula _ _, toJSON_formula _ f]
    simp only [h1, leavesSame_entries jsonMarshal rfl _ _ h2, formsSame_toJSON form f.Form h3]

theorem formsSame_toJSON : ∀ (gs fs : List Filestash.Form), FormsSame gs fs →
    gs.map (fun c => c.toJSON (fun el => jsonMarshal el.Value)) =
      fs.map (fun c => c.toJSON (fun el => jsonMarshal el.Value))
  | [], [], _ => rfl
  | [], _ :: _, h => by simp [FormsSame] at h
  | _ :: _, [], h => by simp [FormsSame] at h
  | g :: gs, f :: fs, h => by
    simp only [FormsSame] at h
    simp only [List.map_cons, Form.same_toJSON g f h.1, formsSame_toJSON gs fs h.2]

end

/-- The rendered document depends on the tree through the renderings of its top level
containers only. -/
theorem document_congr (a b : Configuration)
    (h : a.form.map (fun c => c.toJSON (fun el => jsonMarshal el.Value)) =
      b.form.map (fun c => c.toJSON (fun el => jsonMarshal el.Value))) :
    a.document = b.document := by
  unfold Configuration.document
  rw [toJSON_formula _ _, toJSON_formula _ _]
  simp only [List.map_append, h]

theorem pairsOf_head : ∀ fs : List Form, tidyForms fs = true →
    ∀ p ∈ pairsOf fs, ∃ t rest, p.1 = t :: rest ∧ t ∈ fs.map (·.Title)
  | [], _ => by simp [pairsOf]
  | f :: fs, h => by
    simp only [tidyForms, Bool.and_eq_true] at h
    intro p hp
    simp only [pairsOf] at hp
    rcases List.mem_append.1 hp with hp | hp
    · obtain ⟨rest, hrest⟩ := ((Form.pairs_wf f h.1).2 p hp).1
      exact ⟨f.Title, rest, hrest, by simp⟩
    · obtain ⟨t, rest, h1, h2⟩ := pairsOf_head fs h.2 p hp
      exact ⟨t, rest, h1, by simp only [List.map_cons]; exact List.mem_cons_of_mem _ h2⟩

mutual

/-- The leaves of a tidy container have distinct paths. -/
theorem Form.paths_nodup : ∀ f : Filestash.Form, f.tidy = true → (f.pairs.map (·.1)).Nodup
  | ⟨title, form, elmnts, cap, gen⟩, h => by
    obtain ⟨-, -, hnames, htitles, -, hform⟩ := ((Form.tidy_iff _).1 h).1
    simp only at hnames htitles hform
    have hsub := pathsOf_nodup form hform htitles
    have hwf := pairsOf_wf form hform
    rw [Form.pairs_eq]
    simp only [List.map_append, List.map_map, Function.comp_def]
    refine List.Nodup.append ?_ ?_ ?_
    · have h1 : elmnts.map (fun el => [title, el.Name]) =
          (elmnts.map (·.Name)).map (fun n => [title, n]) := by
        simp [List.map_map, Function.comp_def]
      rw [h1]
      exact hnames.map (fun a b hab => by simpa using hab)
    · have h2 : (pairsOf form).map (fun p => title :: p.1) =
          ((pairsOf form).map (·.1)).map (fun s => title :: s) := by
        simp [List.map_map, Function.comp_def]
      rw [h2]
      exact hsub.map (fun a b hab => by simpa using hab)
    · intro x hx1 hx2
      obtain ⟨el, -, rfl⟩ := List.mem_map.1 hx1
      obtain ⟨p, hp, hpe⟩ := List.mem_map.1 hx2
      have := (hwf p hp).1
      have hlen := congrArg List.length hpe
      simp at hlen
      omega

theorem pathsOf_nodup : ∀ fs : List Filestash.Form, tidyForms fs = true →
    (fs.map (·.Title)).Nodup → ((pairsOf fs).map (·.1)).Nodup
  | [], _, _ => by simp [pairsOf]
  | f :: fs, h, hnd => by
    simp only [tidyForms, Bool.and_eq_true] at h
    have hnd' : f.Title ∉ fs.map (·.Title) ∧ (fs.map (·.Title)).Nodup := by
      simpa [List.nodup_cons] using hnd
    simp only [pairsOf, List.map_append]
    refine List.Nodup.append (Form.paths_nodup f h.1) (pathsOf_nodup fs h.2 hnd'.2) ?_
    intro x hx1 hx2
    obtain ⟨p, hp, rfl⟩ := List.mem_map.1 hx1
    obtain ⟨q, hq, hqe⟩ := List.mem_map.1 hx2
    obtain ⟨rest, hrest⟩ := ((Form.pairs_wf f h.1).2 p hp).1
    obtain ⟨t, rest2, h1, h2⟩ := pairsOf_head fs h.2 q hq
    rw [hqe, hrest] at h1
    simp only [List.cons.injEq] at h1
    exact hnd'.1 (h1.1 ▸ h2)

end

/-! ## Round trip: flattening the document that the rendering denotes -/

theorem formatKey_of_noSpace (s : String) (h : noSpace s = true) : formatKey s = s := by
  unfold noSpace at h
  simp only [decide_eq_true_eq] at h
  unfold formatKey
  have : s.toList.map (fun c => if c = ' ' then '_' else c) = s.toList := by
    have hall : ∀ c ∈ s.toList, (if c = ' ' then '_' else c) = c := by
      intro c hc
      have : c ≠ ' ' := fun h' => h (h' ▸ hc)
      simp [this]
    calc s.toList.map (fun c => if c = ' ' then '_' else c)
        = s.toList.map id := List.map_congr_left hall
      _ = s.toList := List.map_id _
  rw [this]
  rfl

theorem Form.json_eq (f : Filestash.Form) :
    f.json = .obj (f.Elmnts.map (fun el => (formatKey el.Name, Json.ofValue el.Value)) ++
      membersOf f.Form) := by
  cases f
  simp [Form.json]

theorem forEach_append (ms ns : List (String × Json)) (pkey : String) :
    recurJSON.forEach (ms ++ ns) pkey = recurJSON.forEach ms pkey ++ recurJSON.forEach ns pkey := by
  induction ms with
  | nil => simp [recurJSON.forEach]
  | cons m ms ih =>
    obtain ⟨k, v⟩ := m
    have ih' : recurJSON.forEach (ms.append ns) pkey =
        recurJSON.forEach ms pkey ++ recurJSON.forEach ns pkey := ih
    simp only [List.cons_append, recurJSON.forEach, ih', List.append_assoc]

theorem ofValue_Value (v : GoValue) (h : v.exact = true) : (Json.ofValue v).Value = v.reread := by
  cases v <;> simp_all [Json.ofValue, Json.Value, GoValue.reread, GoValue.exact]

/-- The leaves of a container, flattened: each gives one pair, with its name after the key
prefix and its value as read back. -/
theorem forEach_leaves (pkey : String) (title : String) :
    ∀ els : List FormElement, (∀ el ∈ els, el.Value.exact = true ∧ noSpace el.Name = true) →
      recurJSON.forEach (els.map (fun el => (formatKey el.Name, Json.ofValue el.Value)))
          (pkey ++ title ++ ".") =
        (els.map (fun el => ([title, el.Name], el.Value.reread))).map
          (fun p => ⟨pkey ++ ".".intercalate p.1, p.2⟩)
  | [], _ => rfl
  | el :: els, h => by
    obtain ⟨hx, hs⟩ := h el (List.mem_cons_self _ _)
    have ih := forEach_leaves pkey title els (fun e he => h e (List.mem_cons_of_mem _ he))
    simp only [List.map_cons, recurJSON.forEach, ih]
    have hpath : pkey ++ title ++ "." ++ formatKey el.Name
        = pkey ++ ".".intercalate [title, el.Name] := by
      rw [formatKey_of_noSpace _ hs, intercalate_cons_cons]
      simp [String.intercalate, String.intercalate.go, String.append_assoc]
    cases hv : el.Value <;>
      simp_all [Json.ofValue, Json.Value, GoValue.reread, GoValue.exact]

theorem append_ne_empty (a b : String) (hb : b ≠ "") : a ++ b ≠ "" := by
  intro h
  have h1 := congrArg String.length h
  have h2 : b.length ≠ 0 := by
    intro h0
    exact hb (String.ext (List.length_eq_zero.1 h0))
  simp only [String.length_append] at h1
  have h3 : ("" : String).length = 0 := rfl
  omega

mutual

/-- Flattening the object that a tidy container denotes, under the key prefix and its title,
gives the pairs of its leaves, in order. -/
theorem recurJSON_form : ∀ (f : Filestash.Form), f.tidy = true → ∀ pkey : String,
    recurJSON f.json (pkey ++ formatKey f.Title) =
      f.pairs.map (fun p => ⟨pkey ++ ".".intercalate p.1, p.2⟩)
  | ⟨title, form, elmnts, cap, gen⟩, h, pkey => by
    obtain ⟨⟨-, hels, -, -, -, hform⟩, hne, hsp, helsp⟩ := (Form.tidy_iff _).1 h
    simp only at hels hform hne hsp helsp
    have hkey : formatKey title = title := formatKey_of_noSpace _ hsp
    have hsub := forEach_forest form hform (pkey ++ title ++ ".")
    rw [Form.json_eq, Form.pairs_eq, recurJSON]
    simp only [hkey, append_ne_empty pkey title hne, ne_eq, not_false_eq_true, if_true]
    rw [forEach_append, forEach_leaves pkey title elmnts
      (fun el hel => ⟨(hels el hel).2, helsp el hel⟩), hsub]
    simp only [List.map_append, List.map_map, Function.comp_def]
    congr 1
    apply List.map_congr_left
    intro p hp
    have hlen := (pairsOf_wf form hform p hp).1
    cases hp1 : p.1 with
    | nil => rw [hp1] at hlen; simp at hlen
    | cons s ss =>
      simp only [intercalate_cons_cons, String.append_assoc]

/-- Flattening the members that a tidy sequence of containers denotes gives the pairs of their
leaves, in order. -/
theorem forEach_forest : ∀ (fs : List Filestash.Form), tidyForms fs = true → ∀ pkey : String,
    recurJSON.forEach (membersOf fs) pkey =
      (pairsOf fs).map (fun p => ⟨pkey ++ ".".intercalate p.1, p.2⟩)
  | [], _, _ => rfl
  | f :: fs, h, pkey => by
    simp only [tidyForms, Bool.and_eq_true] at h
    have h1 := recurJSON_form f h.1 pkey
    have h2 := forEach_forest fs h.2 pkey
    simp only [membersOf, recurJSON.forEach, pairsOf, List.map_append, h2]
    rw [Form.json_eq] at h1 ⊢
    simp only [h1]

end

/-- Flattening the document that the rendering of a tidy tree denotes gives one pair per leaf,
in document order, with the dotted path and the value as read back. -/
theorem recurJSON_document (this : Configuration) (htidy : tidyForms this.form = true) :
    recurJSON this.json "" = this.leaves := by
  unfold Configuration.json Configuration.leaves
  rw [recurJSON]
  simp only [ne_eq, not_true_eq_false, if_false]
  rw [forEach_append, forEach_forest this.form htidy ""]
  simp [recurJSON.forEach, recurJSON]

/-! ## Round trip: the rendered text and the document it denotes -/

theorem ofValue_text (v : GoValue) : (Json.ofValue v).text = jsonMarshal v := by
  cases v <;> simp [Json.ofValue, Json.text, jsonMarshal, formatFloat_int, jsonQuote_base64]

theorem textMembers_append (ms ns : List (String × Json)) :
    Json.textMembers (ms ++ ns) = Json.textMembers ms ++ Json.textMembers ns := by
  induction ms with
  | nil => rfl
  | cons m ms ih =>
    obtain ⟨k, v⟩ := m
    have ih' : Json.textMembers (ms.append ns) = Json.textMembers ms ++ Json.textMembers ns := ih
    simp only [List.cons_append, Json.textMembers, ih']

theorem textMembers_leaves : ∀ els : List FormElement,
    Json.textMembers (els.map (fun el => (formatKey el.Name, Json.ofValue el.Value))) =
      els.map (fun el => "\"" ++ formatKey el.Name ++ "\":" ++ jsonMarshal el.Value)
  | [] => rfl
  | el :: els => by
    simp only [List.map_cons, Json.textMembers, ofValue_text, textMembers_leaves els]

mutual

/-- The rendering of a tidy container is its key followed by the text of the object that the
container denotes. -/
theorem Form.toJSON_text : ∀ f : Filestash.Form, f.tidy = true →
    f.toJSON (fun el => jsonMarshal el.Value) = "\"" ++ formatKey f.Title ++ "\":" ++ f.json.text
  | ⟨title, form, elmnts, cap, gen⟩, h => by
    obtain ⟨⟨-, -, -, -, -, hform⟩, hne, -, -⟩ := (Form.tidy_iff _).1 h
    simp only at hform hne
    rw [toJSON_formula _ _, Form.json_eq, Json.text, textMembers_append, textMembers_leaves,
      membersOf_text form hform]
    simp only [ne_eq, hne, not_false_eq_true, if_true, String.append_assoc]

theorem membersOf_text : ∀ fs : List Filestash.Form, tidyForms fs = true →
    Json.textMembers (membersOf fs) = fs.map (fun c => c.toJSON (fun el => jsonMarshal el.Value))
  | [], _ => rfl
  | f :: fs, h => by
    simp only [tidyForms, Bool.and_eq_true] at h
    simp only [membersOf, Json.textMembers, List.map_cons, Form.toJSON_text f h.1,
      membersOf_text fs h.2]

end

/-- The text that `Save` renders from a tidy tree is the compact text of the document
`Configuration.json`: that document is what the rendered text denotes. -/
theorem document_eq_text (this : Configuration) (htidy : tidyForms this.form = true) :
    this.document = this.json.text := by
  unfold Configuration.document Configuration.json
  rw [toJSON_formula _ _, Json.text, textMembers_append, membersOf_text this.form htidy]
  simp only [ne_eq, not_true_eq_false, if_false, List.map_nil, List.nil_append, List.map_append,
    String.empty_append]
  have hconn : [(Form.titled "connections").toJSON (fun el => jsonMarshal el.Value)] =
      Json.textMembers [("connections", Json.obj [])] := by decide
  simp only [List.map_cons, List.map_nil, hconn]

/-! ## Round trip -/

/-- Claim C9, amended. Rendering, hydrating a fresh configuration and rendering again gives the
same text for every configuration whose tree has grown out of the declared schema (the schema
containers and leaves come first at every level, by title and name) with no leaf of the schema
holding, as a `Value` that is not nil, what reads back as its declared `Default`; whose tree is
tidy (titles not empty, titles and names without dot and space and distinct among siblings, no
container without elements and children, values that JSON carries exactly: nil, bool, string,
byte slice, float64, integer below 2^53); and for which the reader parses the text of the
document that the tree denotes, which is the text `Save` renders, back to that document. The
hydration returns, and the fresh configuration then renders to the text it was hydrated from. -/
theorem hydrate_round_trip (this : Configuration)
    (hgrown : formsGrown NewConfiguration.form this.form = true)
    (htidy : tidyForms this.form = true)
    (htitles : (this.form.map (·.Title)).Nodup)
    (hparse : gjsonParse this.json.text = some this.json) :
    (NewConfiguration.hydrate this.document).returns = true ∧
    (NewConfiguration.hydrate this.document).state.document = this.document := by
  have hread : JsonIterator this.document = this.leaves := by
    unfold JsonIterator
    rw [document_eq_text this htidy, hparse]
    exact recurJSON_document this htidy
  have hwf := pairsOf_wf this.form htidy
  have hsplit : ∀ p ∈ pairsOf this.form, splitDot (".".intercalate p.1) = p.1 := by
    intro p hp
    obtain ⟨h1, h2, -⟩ := hwf p hp
    exact splitDot_intercalate p.1 (by intro h; rw [h] at h1; simp at h1) h2
  have hkeys : (this.leaves.map (·.Path)).Nodup := by
    unfold Configuration.leaves
    simp only [List.map_map, Function.comp_def]
    have h1 : (pairsOf this.form).map (fun p => ".".intercalate p.1) =
        ((pairsOf this.form).map (·.1)).map (fun s => ".".intercalate s) := by
      simp [List.map_map, Function.comp_def]
    rw [h1]
    refine List.Nodup.map_on ?_ (pathsOf_nodup this.form htidy htitles)
    intro x hx y hy hxy
    obtain ⟨p, hp, rfl⟩ := List.mem_map.1 hx
    obtain ⟨q, hq, rfl⟩ := List.mem_map.1 hy
    rw [← hsplit p hp, ← hsplit q hq, hxy]
  obtain ⟨this1, hloop, hform⟩ := hydrateLoop_plant this.leaves NewConfiguration hkeys (by
    intro d hd
    obtain ⟨p, hp, rfl⟩ := List.mem_map.1 hd
    obtain ⟨h1, -, h3⟩ := hwf p hp
    refine ⟨rfl, ?_, h3⟩
    simp only [hsplit p hp]
    exact h1)
  have hfold : this1.form = plantAll NewConfiguration.form (pairsOf this.form) := by
    rw [hform]
    unfold Configuration.leaves plantAll
    rw [List.foldl_map]
    exact List.foldl_ext _ _ _ (fun fm p hp => by simp only [hsplit p hp])
  obtain ⟨res, hres, hsame⟩ := plant_forest this.form htidy htitles [] NewConfiguration.form
    (by simp) hgrown
  simp only [List.nil_append] at hres
  have hhyd : NewConfiguration.hydrate this.document =
      Outcome.returned { this1 with cache := this1.cache.Clear } := by
    unfold Configuration.hydrate
    rw [hread, hloop]
  rw [hhyd]
  refine ⟨rfl, document_congr _ _ ?_⟩
  show this1.form.map _ = _
  rw [hfold, hres]
  exact formsSame_toJSON _ _ hsame

mutual

theorem Json.eq_of_beq : ∀ a b : Json, a.beq b = true → a = b
  | .null, .null, _ => rfl
  | .bool a, .bool b, h => by simp only [Json.beq, decide_eq_true_eq] at h; rw [h]
  | .num a, .num b, h => by simp only [Json.beq, decide_eq_true_eq] at h; rw [h]
  | .str a, .str b, h => by simp only [Json.beq, decide_eq_true_eq] at h; rw [h]
  | .arr a, .arr b, h => by
    simp only [Json.beq] at h
    rw [Json.eq_of_beqElems a b h]
  | .obj a, .obj b, h => by
    simp only [Json.beq] at h
    rw [Json.eq_of_beqMembers a b h]
  | .null, .bool _, h | .null, .num _, h | .null, .str _, h | .null, .arr _, h
  | .null, .obj _, h => by simp [Json.beq] at h
  | .bool _, .null, h | .bool _, .num _, h | .bool _, .str _, h | .bool _, .arr _, h
  | .bool _, .obj _, h => by simp [Json.beq] at h
  | .num _, .null, h | .num _, .bool _, h | .num _, .str _, h | .num _, .arr _, h
  | .num _, .obj _, h => by simp [Json.beq] at h
  | .str _, .null, h | .str _, .bool _, h | .str _, .num _, h | .str _, .arr _, h
  | .str _, .obj _, h => by simp [Json.beq] at h
  | .arr _, .null, h | .arr _, .bool _, h | .arr _, .num _, h | .arr _, .str _, h
  | .arr _, .obj _, h => by simp [Json.beq] at h
  | .obj _, .null, h | .obj _, .bool _, h | .obj _, .num _, h | .obj _, .str _, h
  | .obj _, .arr _, h => by simp [Json.beq] at h

theorem Json.eq_of_beqElems : ∀ a b : List Json, Json.beqElems a b = true → a = b
  | [], [], _ => rfl
  | [], _ :: _, h => by simp [Json.beqElems] at h
  | _ :: _, [], h => by simp [Json.beqElems] at h
  | a :: as, b :: bs, h => by
    simp only [Json.beqElems, Bool.and_eq_true] at h
    rw [Json.eq_of_beq a b h.1, Json.eq_of_beqElems as bs h.2]

theorem Json.eq_of_beqMembers : ∀ a b : List (String × Json), Json.beqMembers a b = true → a = b
  | [], [], _ => rfl
  | [], _ :: _, h => by simp [Json.beqMembers] at h
  | _ :: _, [], h => by simp [Json.beqMembers] at h
  | (k, a) :: as, (l, b) :: bs, h => by
    simp only [Json.beqMembers, Bool.and_eq_true, decide_eq_true_eq] at h
    rw [h.1.1, Json.eq_of_beq a b h.1.2, Json.eq_of_beqMembers as bs h.2]

end

theorem gjsonParse_of_parsesTo (text : String) (doc : Json) (h : parsesTo text doc = true) :
    gjsonParse text = some doc := by
  unfold parsesTo at h
  cases hp : gjsonParse text with
  | none => simp [hp] at h
  | some j =>
    simp only [hp] at h
    rw [Json.eq_of_beq j doc h]

set_option maxRecDepth 100000 in
/-- Witness for C9, amended: the configuration after `Get("general.port").Set(9999)`,
`Get("newsection.sub.newkey").Set("x<y")`, `Get("general.extra")` and `Get("newsection.k2")`. -/
theorem hydrate_round_trip_witness :
    (NewConfiguration.hydrate grownConfiguration.document).returns = true ∧
    (NewConfiguration.hydrate grownConfiguration.document).state.document
      = grownConfiguration.document :=
  hydrate_round_trip grownConfiguration (by decide!) (by decide!) (by decide!)
    (gjsonParse_of_parsesTo _ _ (by decide!))

set_option maxRecDepth 100000 in
/-- Claim C9 does not hold as stated. After `Get("general.name").Set("Filestash")` on the
declared schema, where "Filestash" is the declared default of that leaf, the rendered document
has "Filestash" under `general.name`; hydrating a fresh configuration from it returns, but
leaves the `Value` of that leaf nil, because the value read is the effective value already;
rendering again gives null under `general.name`, a different text. -/
theorem round_trip_fails_on_default :
    ((NewConfiguration.Get "general.name").Set (GoValue.string "Filestash")).returns = true ∧
    (NewConfiguration.hydrate ((NewConfiguration.Get "general.name").Set
      (GoValue.string "Filestash")).state.document).returns = true ∧
    (NewConfiguration.hydrate ((NewConfiguration.Get "general.name").Set
      (GoValue.string "Filestash")).state.document).state.document ≠
      ((NewConfiguration.Get "general.name").Set (GoValue.string "Filestash")).state.document ∧
    ((NewConfiguration.hydrate ((NewConfiguration.Get "general.name").Set
      (GoValue.string "Filestash")).state.document).state.load ⟨[0], 0, 0⟩).map (·.Value)
      = some GoValue.nil := by
  refine ⟨?_, ?_, ?_, ?_⟩
  · decide!
  · decide!
  · decide!
  · decide!

set_option maxRecDepth 100000 in
/-- A container without leaves does not survive the round trip either: `Get("spare")` on the
declared schema appends an empty container titled `spare`, which is rendered but gives no pair,
so that a fresh configuration hydrated from the document renders without it. -/
theorem round_trip_fails_on_empty_container :
    (NewConfiguration.hydrate (NewConfiguration.Get "spare").document).returns = true ∧
    (NewConfiguration.hydrate (NewConfiguration.Get "spare").document).state.document ≠
      (NewConfiguration.Get "spare").document := by
  refine ⟨?_, ?_⟩
  · decide!
  · decide!

/-! ## C11: what `Save` writes for a leaf -/

/-- The text that `json.Marshal` gives for the `Value` of a leaf, in terms of the effective
value: the encoding of the effective value when `Value` is not nil, and `null` otherwise. -/
theorem jsonMarshal_Value (el : FormElement) :
    jsonMarshal el.Value =
      if el.Value ≠ GoValue.nil then jsonMarshal el.effective else "null" := by
  unfold FormElement.effective
  by_cases h : el.Value = GoValue.nil
  · simp [h, jsonMarshal]
  · simp [h]

set_option maxRecDepth 100000 in
/-- C11, as the claim states it, fails: on the configuration built by `NewConfiguration` the
effective value of `general.name` is the declared default `"Filestash"`, which `json.Marshal`
writes as `"Filestash"`, yet the document that `Save` hands to the file has `null` under the key
`name` of `general`, as under every other key. -/
theorem Save_omits_default :
    (NewConfiguration.Get "general.name").Interface = GoValue.string "Filestash" ∧
    jsonMarshal (GoValue.string "Filestash") = "\"Filestash\"" ∧
    NewConfiguration.Save.writes =
      ["\x7b\"general\":\x7b\"name\":null,\"port\":null,\"host\":null,\"secret_key\":null,\"force_ssl\":null,\"editor\":null,\"fork_button\":null,\"display_hidden\":null,\"auto_connect\":null,\"remember_me\":null,\"upload_button\":null\x7d,\"features\":\x7b\"share\":\x7b\"enable\":null\x7d\x7d,\"log\":\x7b\"enable\":null,\"level\":null,\"telemetry\":null\x7d,\"email\":\x7b\"server\":null,\"port\":null,\"username\":null,\"password\":null,\"from\":null\x7d,\"auth\":\x7b\"admin\":null\x7d,\"connections\":\x7b\x7d\x7d"] ∧
    ((((NewConfiguration.Save.writes.head?.bind gjsonParse).bind (Json.member "general")).bind
      (Json.member "name")).map Json.text) = some "null" := by
  refine ⟨?_, ?_, ?_, ?_⟩ <;> decide!

/-- C11, amended: `Save` hands one document to the file, the rendering of the tree followed by
the container `connections`; in it every container is rendered as its key, an opening brace, one
entry per leaf and one rendering per child, and a closing brace, and the entry of a leaf is its
key followed by the JSON encoding of its `Value` field: the encoding of the effective value when
`Value` is not nil, and `null` otherwise, whatever the `Default`. For a tidy tree the document
is the text of the JSON object `Configuration.json`, whose member for a leaf is the encoding of
its `Value`. -/
theorem Save_renders_Value (this : Configuration) :
    this.Save.writes = this.writes ++ [this.document] ∧
    this.document = "\x7b" ++ ",".intercalate
        ((this.form ++ [Form.titled "connections"]).map
          (fun c => c.toJSON (fun el => jsonMarshal el.Value))) ++ "\x7d" ∧
    (∀ f : Form, f.toJSON (fun el => jsonMarshal el.Value) =
      (if f.Title ≠ "" then "\"" ++ formatKey f.Title ++ "\":" else "") ++ "\x7b" ++
        ",".intercalate
          (f.Elmnts.map (fun el => "\"" ++ formatKey el.Name ++ "\":" ++
              (if el.Value ≠ GoValue.nil then jsonMarshal el.effective else "null")) ++
            f.Form.map (fun c => c.toJSON (fun el => jsonMarshal el.Value))) ++ "\x7d") ∧
    (tidyForms this.form = true → this.document = this.json.text) := by
  refine ⟨rfl, ?_, ?_, document_eq_text this⟩
  · unfold Configuration.document
    rw [toJSON_formula]
    simp
  · intro f
    rw [toJSON_formula]
    congr 5
    funext el
    rw [jsonMarshal_Value el]

set_option maxRecDepth 100000 in
/-- The amended C11 at the configuration built by `NewConfiguration`, whose tree is tidy. -/
theorem Save_renders_Value_witness :
    tidyForms NewConfiguration.form = true ∧
    NewConfiguration.document = NewConfiguration.json.text :=
  ⟨by decide!, (Save_renders_Value NewConfiguration).2.2.2 (by decide!)⟩

/-! ## C12, C13, C19: evaluations at the failing inputs -/

set_option maxRecDepth 100000 in
/-- C12 at a failing input: the configuration file `{"foo":1}` flattens to the one pair
`("foo", 1)`; `Get("foo")` on the configuration built by `NewConfiguration` leaves the current
element nil, `Interface()` is then nil and differs from `1`, and the assignment through the nil
pointer makes `Load` panic. `Set` and `Default` on that nil current element return. -/
theorem Load_panics_on_top_level_scalar :
    JsonIterator scalarDocument = [⟨"foo", GoValue.float64 1⟩] ∧
    (NewConfiguration.Get "foo").currentElement = none ∧
    (NewConfiguration.Get "foo").Interface = GoValue.nil ∧
    (NewConfiguration.Load (some scalarDocument)).returns = false ∧
    ((NewConfiguration.Get "foo").Set (GoValue.float64 1)).returns = true ∧
    ((NewConfiguration.Get "foo").Default (GoValue.float64 1)).returns = true := by
  refine ⟨?_, ?_, ?_, ?_, ?_, ?_⟩ <;> decide!

set_option maxRecDepth 100000 in
/-- C13 at two failing inputs: a second `Load` with the same file does not leave the tree as
the first left it. After the hydration loop `Load` empties the cache, so the second loop walks
the tree where the first was served a pointer into an array that `append` had abandoned. On the
configuration built by `NewConfiguration`, `Load` with `reloadDocument` returns and leaves `"a"`
in the leaf `general.name`, and a second `Load` with the same file returns and leaves `"b"`
there. On `extendedConfiguration`, `Load` with `nameDocument` returns and leaves the `Value` of
`general.name` nil, and a second `Load` with the same file sets it to `"x"`. -/
theorem Load_twice_differs :
    JsonIterator reloadDocument =
      [⟨"general.name", GoValue.string "a"⟩, ⟨"general.extra", GoValue.float64 1⟩,
        ⟨"general.name", GoValue.string "b"⟩] ∧
    (NewConfiguration.Load (some reloadDocument)).returns = true ∧
    ((NewConfiguration.Load (some reloadDocument)).state.Load (some reloadDocument)).returns
      = true ∧
    (NewConfiguration.Load (some reloadDocument)).state.valueAt 0 0
      = some (GoValue.string "a") ∧
    ((NewConfiguration.Load (some reloadDocument)).state.Load
      (some reloadDocument)).state.valueAt 0 0 = some (GoValue.string "b") ∧
    JsonIterator nameDocument = [⟨"general.name", GoValue.string "x"⟩] ∧
    (extendedConfiguration.Load (some nameDocument)).returns = true ∧
    ((extendedConfiguration.Load (some nameDocument)).state.Load (some nameDocument)).returns
      = true ∧
    (extendedConfiguration.Load (some nameDocument)).state.valueAt 0 0 = some GoValue.nil ∧
    ((extendedConfiguration.Load (some nameDocument)).state.Load
      (some nameDocument)).state.valueAt 0 0 = some (GoValue.string "x") := by
  refine ⟨?_, ?_, ?_, ?_, ?_, ?_, ?_, ?_, ?_, ?_⟩ <;> decide!

set_option maxRecDepth 100000 in
/-- C19 at a failing input: after `Get("general.name")` and `Get("general.extra")` on the
configuration built by `NewConfiguration`, `Get("general.name")` is served from the cache with
the pointer into the backing array that `append` has abandoned, while the tree walk for the
same key selects the leaf of the tree, in the new backing array, and changes nothing. A
`Set("x")` through the cached pointer returns and writes to the abandoned array: the leaf of the
tree keeps its nil `Value`, and a later `Get("general.name")`, now resolved by a tree walk,
still reads the default. -/
theorem Get_serves_abandoned_leaf :
    extendedConfiguration.cache.Get "general.name" = some (some ⟨[0], 0, 0⟩) ∧
    (extendedConfiguration.Get "general.name").currentElement = some ⟨[0], 0, 0⟩ ∧
    (traverse extendedConfiguration.form (splitDot "general.name")).elem = some ⟨[0], 1, 0⟩ ∧
    (extendedConfiguration.form[0]?.map (·.gen)) = some 1 ∧
    ((extendedConfiguration.Get "general.name").Set (GoValue.string "x")).returns = true ∧
    (((extendedConfiguration.Get "general.name").Set (GoValue.string "x")).state.load
      ⟨[0], 0, 0⟩).map (·.Value) = some (GoValue.string "x") ∧
    ((extendedConfiguration.Get "general.name").Set (GoValue.string "x")).state.valueAt 0 0
      = some GoValue.nil ∧
    ((extendedConfiguration.Get "general.name").Set (GoValue.string "x")).state.cache.Get
      "general.name" = none ∧
    (((extendedConfiguration.Get "general.name").Set (GoValue.string "x")).state.Get
      "general.name").Interface = GoValue.string "Filestash" := by
  refine ⟨?_, ?_, ?_, ?_, ?_, ?_, ?_, ?_, ?_⟩ <;> decide!

/-! ## C14, C17: the lookup cache -/

theorem KeyValueStore.Get_Set_self (cache : KeyValueStore) (key : String) (ref : Option Ptr) :
    (cache.Set key ref).Get key = some ref := by
  simp [KeyValueStore.Get, KeyValueStore.Set]

theorem KeyValueStore.Get_Set_ne (cache : KeyValueStore) (key key2 : String) (ref : Option Ptr)
    (hne : key2 ≠ key) : (cache.Set key ref).Get key2 = cache.Get key2 := by
  unfold KeyValueStore.Get KeyValueStore.Set
  have h1 : ¬ ((key, ref).1 = key2) := fun h => hne h.symm
  rw [List.find?_cons_of_neg _ (by simpa using h1)]
  congr 1
  induction cache with
  | nil => rfl
  | cons e es ih =>
    by_cases he : e.1 = key
    · have h2 : ¬ (e.1 = key2) := fun h => hne (h.symm.trans he)
      rw [List.filter_cons_of_neg (by simpa using he), List.find?_cons_of_neg _ (by simpa using h2)]
      exact ih
    · rw [List.filter_cons_of_pos (by simpa using he)]
      by_cases h2 : e.1 = key2
      · rw [List.find?_cons_of_pos _ (by simpa using h2),
          List.find?_cons_of_pos _ (by simpa using h2)]
      · rw [List.find?_cons_of_neg _ (by simpa using h2),
          List.find?_cons_of_neg _ (by simpa using h2)]
        exact ih

/-- After `Get(key)` the cache serves `key` with the current element. -/
theorem Get_caches (this : Configuration) (key : String) :
    (this.Get key).cache.Get key = some (this.Get key).currentElement := by
  unfold Configuration.Get
  cases h : this.cache.Get key with
  | none => simp only [KeyValueStore.Get_Set_self]
  | some tmp => simp only [h]

/-- A `Get` that the cache serves changes nothing but the current element. -/
theorem Get_of_cached (this : Configuration) (key : String) (tmp : Option Ptr)
    (h : this.cache.Get key = some tmp) : this.Get key = { this with currentElement := tmp } := by
  unfold Configuration.Get
  simp only [h]

/-- C14: for every configuration (tree and cache state) and every key, after `Get(key)` the
cache serves the key with the current element that the call has set, so that a second `Get(key)`
takes the cache-hit branch; it sets the current element to the same pointer and leaves the
whole state, the tree included, as the first call left it. When the first call walked the tree
for a key of at least two segments, that current element is a leaf. -/
theorem Get_twice (this : Configuration) (key : String) :
    (this.Get key).cache.Get key = some (this.Get key).currentElement ∧
    ((this.Get key).Get key).currentElement = (this.Get key).currentElement ∧
    ((this.Get key).Get key).form = (this.Get key).form ∧
    (this.Get key).Get key = this.Get key ∧
    (this.cache.Get key = none → 2 ≤ (splitDot key).length →
      ∃ p el, (this.Get key).currentElement = some p ∧ (this.Get key).load p = some el ∧
        (splitDot key).getLast? = some el.Name) := by
  have h := Get_of_cached (this.Get key) key _ (Get_caches this key)
  refine ⟨Get_caches this key, by rw [h], by rw [h], by rw [h], ?_⟩
  intro hmiss hlen
  obtain ⟨p, f, el, hp, hd, hg, hel, hlast⟩ := traverse_resolves (splitDot key) this.form hlen
  refine ⟨p, el, ?_, ?_, hlast⟩
  · simp only [Configuration.Get, hmiss, hp]
  · have hf := (formAt_of_descends hd).1
    simp only [Configuration.Get, hmiss, Configuration.load, hf, hg, if_true, hel]

set_option maxRecDepth 100000 in
/-- C14 at `Get("general.port")` on the configuration built by `NewConfiguration`. -/
theorem Get_twice_witness :
    (NewConfiguration.Get "general.port").cache.Get "general.port" = some (some ⟨[0], 0, 1⟩) ∧
    (NewConfiguration.Get "general.port").Get "general.port" = NewConfiguration.Get "general.port" ∧
    ∃ p el, (NewConfiguration.Get "general.port").currentElement = some p ∧
      (NewConfiguration.Get "general.port").load p = some el ∧
      (splitDot "general.port").getLast? = some el.Name :=
  ⟨(Get_twice NewConfiguration "general.port").1.trans (by decide!),
    (Get_twice NewConfiguration "general.port").2.2.2.1,
    (Get_twice NewConfiguration "general.port").2.2.2.2 (by decide!) (by decide!)⟩

set_option maxRecDepth 100000 in
/-- C17, as the claim states it, fails: on the configuration built by `NewConfiguration`,
`Get("general.name")` stores an entry in the cache; `Get("general.extra")` then creates a leaf,
the twelfth of `general`, and the cache still serves `general.name` with the entry stored before.
Nor is the cache empty after every `Set`: after `Get("general")`, which leaves the current
element nil, `Set("x")` returns at once and the cache still serves `general.name`. -/
theorem Get_keeps_cache :
    (NewConfiguration.Get "general.name").cache.Get "general.name" = some (some ⟨[0], 0, 0⟩) ∧
    (NewConfiguration.Get "general.name").form[0]?.map (·.Elmnts.length) = some 11 ∧
    ((NewConfiguration.Get "general.name").Get "general.extra").form[0]?.map (·.Elmnts.length)
      = some 12 ∧
    ((NewConfiguration.Get "general.name").Get "general.extra").cache.Get "general.name"
      = some (some ⟨[0], 0, 0⟩) ∧
    ((NewConfiguration.Get "general.name").Get "general").currentElement = none ∧
    (((NewConfiguration.Get "general.name").Get "general").Set (GoValue.string "x")).state.cache.Get
      "general.name" = some (some ⟨[0], 0, 0⟩) := by
  refine ⟨?_, ?_, ?_, ?_, ?_, ?_⟩ <;> decide!

/-- What `Get(key)` does to the cache: an entry under another key is served as before, and
when the key itself is served from the cache, the cache is left as it is. -/
theorem Get_keeps_entries (this : Configuration) (key : String) :
    (∀ key2 : String, key2 ≠ key → (this.Get key).cache.Get key2 = this.cache.Get key2) ∧
    (∀ tmp : Option Ptr, this.cache.Get key = some tmp → (this.Get key).cache = this.cache) := by
  refine ⟨?_, ?_⟩
  · intro key2 hne
    unfold Configuration.Get
    cases h : this.cache.Get key with
    | none => simp only [KeyValueStore.Get_Set_ne _ _ _ _ hne]
    | some tmp => simp only
  · intro tmp h
    rw [Get_of_cached this key tmp h]

/-- C17, amended: the cache is empty after `Set` on a current element that is not nil, while
`Set` on a nil current element returns at once and changes nothing; the cache is empty after
`Schema`, and after the hydration pass of `Load` when that pass returns. -/
theorem cache_cleared (this : Configuration) :
    (∀ value : GoValue, this.currentElement ≠ none → (this.Set value).state.cache = []) ∧
    (∀ value : GoValue, this.currentElement = none →
      this.Set value = Outcome.returned this) ∧
    (∀ fn : FormElement → FormElement, (this.Schema fn).cache = []) ∧
    (∀ cFile : String, (this.hydrate cFile).returns = true →
      (this.hydrate cFile).state.cache = []) := by
  refine ⟨?_, ?_, ?_, ?_⟩
  · intro value hcur
    unfold Configuration.Set
    split
    · rename_i h
      exact absurd h hcur
    · simp only
      split
      · rfl
      · split
        · rfl
        · simp only [Outcome.state, Configuration.Save, store_cache]
          rfl
        · rfl
  · intro value hcur
    unfold Configuration.Set
    simp only [hcur]
  · intro fn
    rfl
  · intro cFile hret
    unfold Configuration.hydrate at hret ⊢
    cases h : hydrateLoop this (JsonIterator cFile) with
    | returned s => rfl
    | panicked s => rw [h] at hret; cases hret

set_option maxRecDepth 100000 in
/-- The amended C17 at `Get("general.port").Set(9999)` on the configuration built by
`NewConfiguration`. -/
theorem cache_cleared_witness :
    (NewConfiguration.Get "general.port").cache ≠ [] ∧
    ((NewConfiguration.Get "general.port").Set (GoValue.int 9999)).state.cache = [] :=
  ⟨by decide!, (cache_cleared (NewConfiguration.Get "general.port")).1 (GoValue.int 9999)
    (by decide!)⟩

/-! ## C15: removing a change listener -/

theorem findListener_some {id : String} {ls : List ChangeListener} {i : Nat}
    (h : findListener id ls = some i) :
    ∃ l, ls[i]? = some l ∧ l.Id = id ∧
      ∀ (j : Nat) (l2 : ChangeListener), j < i → ls[j]? = some l2 → l2.Id ≠ id := by
  induction ls generalizing i with
  | nil => simp [findListener] at h
  | cons a as ih =>
    unfold findListener at h
    split at h
    · rename_i ha
      cases h
      exact ⟨a, by simp, ha, fun j l2 hj _ => absurd hj (Nat.not_lt_zero j)⟩
    · rename_i ha
      cases hrec : findListener id as with
      | none => rw [hrec] at h; cases h
      | some k =>
        rw [hrec] at h
        cases h
        obtain ⟨l, h1, h2, h3⟩ := ih hrec
        refine ⟨l, by simpa using h1, h2, ?_⟩
        intro j l2 hj hl2
        cases j with
        | zero =>
          simp only [List.getElem?_cons_zero, Option.some.injEq] at hl2
          rw [← hl2]
          exact ha
        | succ j =>
          simp only [List.getElem?_cons_succ] at hl2
          exact h3 j l2 (Nat.lt_of_succ_lt_succ hj) hl2

theorem findListener_eq_none {id : String} {ls : List ChangeListener}
    (h : ∀ l ∈ ls, l.Id ≠ id) : findListener id ls = none := by
  induction ls with
  | nil => rfl
  | cons a as ih =>
    unfold findListener
    rw [if_neg (h a (List.mem_cons_self _ _)),
      ih (fun l hl => h l (List.mem_cons_of_mem _ hl))]
    rfl

theorem findListener_none {id : String} {ls : List ChangeListener}
    (h : findListener id ls = none) : ∀ l ∈ ls, l.Id ≠ id := by
  induction ls with
  | nil => simp
  | cons a as ih =>
    unfold findListener at h
    split at h
    · cases h
    · rename_i ha
      cases hrec : findListener id as with
      | none =>
        intro l hl
        rcases List.mem_cons.1 hl with rfl | hl
        · exact ha
        · exact ih hrec l hl
      | some k => rw [hrec] at h; cases h

/-- The index that `findListener` gives is the first one with the identifier. -/
theorem findListener_of_first {id : String} {ls : List ChangeListener} {i : Nat}
    {l : ChangeListener} (hl : ls[i]? = some l) (hid : l.Id = id)
    (hfirst : ∀ (j : Nat) (l2 : ChangeListener), j < i → ls[j]? = some l2 → l2.Id ≠ id) :
    findListener id ls = some i := by
  cases hfind : findListener id ls with
  | none => exact absurd hid (findListener_none hfind l (List.getElem?_mem hl))
  | some k =>
    obtain ⟨l3, h1, h2, h3⟩ := findListener_some hfind
    rcases Nat.lt_trichotomy k i with hlt | heq | hgt
    · exact absurd h2 (hfirst k l3 hlt h1)
    · rw [heq]
    · exact absurd hid (h3 i l hgt hl)

/-- Copying the last element over element `i` and dropping the last element removes element `i`
and keeps every other element as often as it was there. -/
theorem perm_swap_remove : ∀ (xs : List ChangeListener) (i : Nat) (l last : ChangeListener),
    xs[i]? = some l → xs.getLast? = some last →
    (l :: (xs.set i last).dropLast).Perm xs
  | [], i, l, last, h, _ => by simp at h
  | [a], i, l, last, h, hlast => by
    cases i with
    | zero =>
      simp only [List.getElem?_cons_zero, Option.some.injEq] at h
      simp [h]
    | succ i => simp at h
  | a :: b :: t, i, l, last, h, hlast => by
    have hlast2 : (b :: t).getLast? = some last := by
      rw [List.getLast?_cons_cons] at hlast
      exact hlast
    have hperm : (last :: (b :: t).dropLast).Perm (b :: t) := by
      have h1 := List.dropLast_append_getLast? last hlast2
      have h2 : (last :: (b :: t).dropLast).Perm ((b :: t).dropLast ++ [last]) :=
        (List.perm_append_singleton last _).symm
      rw [h1] at h2
      exact h2
    cases i with
    | zero =>
      simp only [List.getElem?_cons_zero, Option.some.injEq] at h
      subst h
      simp only [List.set_cons_zero, List.dropLast_cons₂]
      exact List.Perm.cons _ hperm
    | succ i =>
      simp only [List.getElem?_cons_succ] at h
      have ih := perm_swap_remove (b :: t) i l last h hlast2
      have hne : (b :: t).set i last ≠ [] := by
        cases i <;> simp
      simp only [List.set_cons_succ]
      rw [List.dropLast_cons_of_ne_nil hne]
      exact (List.Perm.swap a l _).trans (List.Perm.cons a ih)

/-- C15: `UnlistenForChange(c)` leaves the registry unchanged when no registration has the
identifier of `c`. Otherwise, with `l` the first registration that has it, at index `i`, the
registry afterwards is the old one with its last registration copied over index `i` and then cut
by one: it is one shorter, `l` put back in front of it gives a permutation of the old registry,
and so every registration is counted in it as often as before, but for `l`, counted once
less. -/
theorem UnlistenForChange_removes_first (onChange : List ChangeListener) (c : ChangeListener) :
    ((∀ l ∈ onChange, l.Id ≠ c.Id) → UnlistenForChange onChange c = onChange) ∧
    ∀ (i : Nat) (l : ChangeListener), onChange[i]? = some l → l.Id = c.Id →
      (∀ (j : Nat) (l2 : ChangeListener), j < i → onChange[j]? = some l2 → l2.Id ≠ c.Id) →
      (∃ last, onChange.getLast? = some last ∧
        UnlistenForChange onChange c = (onChange.set i last).dropLast) ∧
      (UnlistenForChange onChange c).length + 1 = onChange.length ∧
      (l :: UnlistenForChange onChange c).Perm onChange ∧
      ∀ x : ChangeListener,
        (UnlistenForChange onChange c).count x + (if x = l then 1 else 0) = onChange.count x := by
  refine ⟨?_, ?_⟩
  · intro h
    unfold UnlistenForChange
    rw [findListener_eq_none h]
  · intro i l hl hid hfirst
    have hfind := findListener_of_first hl hid hfirst
    have hpos : 0 < onChange.length := by
      rcases Nat.lt_or_ge i onChange.length with hlt | hge
      · omega
      · rw [List.getElem?_eq_none hge] at hl; cases hl
    have hne : onChange ≠ [] := List.ne_nil_of_length_pos hpos
    obtain ⟨last, hlast⟩ : ∃ last, onChange.getLast? = some last :=
      ⟨onChange.getLast hne, List.getLast?_eq_getLast _ hne⟩
    have hlast2 : onChange[onChange.length - 1]? = some last := by
      rw [← hlast, List.getLast?_eq_getElem?]
    have hres : UnlistenForChange onChange c = (onChange.set i last).dropLast := by
      unfold UnlistenForChange
      have hge : (0 : Int) ≤ (onChange.length : Int) - 1 := by omega
      rw [hfind]
      simp only [hge, if_true, hlast2, List.dropLast_eq_take, List.length_set]
    have hperm := perm_swap_remove onChange i l last hl hlast
    rw [← hres] at hperm
    refine ⟨⟨last, hlast, hres⟩, ?_, hperm, ?_⟩
    · have := hperm.length_eq
      simpa using this
    · intro x
      have := hperm.count_eq x
      rw [List.count_cons] at this
      rw [← this]
      by_cases hx : x = l
      · simp [hx]
      · have hx2 : ¬ (l = x) := fun h => hx h.symm
        simp [hx, hx2]

/-- C15 on a registry of four in which the first and the third registration have the
identifier of the handle: the first one goes and the last one takes its place. -/
theorem UnlistenForChange_removes_first_witness :
    UnlistenForChange [⟨"a", 1⟩, ⟨"b", 2⟩, ⟨"a", 3⟩, ⟨"c", 4⟩] ⟨"a", 0⟩
      = [⟨"c", 4⟩, ⟨"b", 2⟩, ⟨"a", 3⟩] ∧
    ((⟨"a", 1⟩ : ChangeListener) ::
        UnlistenForChange [⟨"a", 1⟩, ⟨"b", 2⟩, ⟨"a", 3⟩, ⟨"c", 4⟩] ⟨"a", 0⟩).Perm
      [⟨"a", 1⟩, ⟨"b", 2⟩, ⟨"a", 3⟩, ⟨"c", 4⟩] ∧
    UnlistenForChange [⟨"a", 1⟩, ⟨"b", 2⟩] ⟨"z", 0⟩ = [⟨"a", 1⟩, ⟨"b", 2⟩] :=
  ⟨by decide,
    ((UnlistenForChange_removes_first [⟨"a", 1⟩, ⟨"b", 2⟩, ⟨"a", 3⟩, ⟨"c", 4⟩] ⟨"a", 0⟩).2 0
      ⟨"a", 1⟩ rfl rfl (fun j _ hj _ => absurd hj (Nat.not_lt_zero j))).2.2.1,
    (UnlistenForChange_removes_first [⟨"a", 1⟩, ⟨"b", 2⟩] ⟨"z", 0⟩).1 (by decide)⟩

/-! ## C16: flattening a document -/

/-- The path that `recurJSON` builds from the path `pkey` of an object and a key in it. -/
theorem foldl_extend_of_ne (ks : List String) :
    ∀ acc : String, acc ≠ "" →
      ks.foldl (fun a k => (if a ≠ "" then a ++ "." else a) ++ k) acc
        = ".".intercalate (acc :: ks) := by
  induction ks with
  | nil => intro acc _; rfl
  | cons k t ih =>
    intro acc hacc
    have hne : acc ++ "." ++ k ≠ "" := by
      intro h
      have h2 := congrArg String.length h
      simp only [String.length_append] at h2
      have : ("." : String).length = 1 := rfl
      have : ("" : String).length = 0 := rfl
      omega
    simp only [List.foldl_cons, hacc, ne_eq, not_false_eq_true, if_true]
    rw [ih _ hne]
    cases t with
    | nil => rfl
    | cons b t2 =>
      rw [intercalate_cons_cons, intercalate_cons_cons, intercalate_cons_cons]
      simp only [String.append_assoc]

/-- From the empty path, the keys that are empty at the start leave no trace. -/
theorem foldl_extend_empty (ks : List String) :
    ks.foldl (fun a k => (if a ≠ "" then a ++ "." else a) ++ k) ""
      = ".".intercalate (ks.dropWhile (· = "")) := by
  induction ks with
  | nil => rfl
  | cons k t ih =>
    by_cases hk : k = ""
    · subst hk
      simp only [List.foldl_cons, ne_eq, not_true_eq_false, if_false, decide_True,
        List.dropWhile_cons_of_pos]
      exact ih
    · have h1 : (List.dropWhile (· = "") (k :: t)) = k :: t := by
        rw [List.dropWhile_cons_of_neg (by simpa using hk)]
      have h2 : ("" : String) ++ k = k := by
        apply String.ext
        simp
      rw [h1]
      simp only [List.foldl_cons, ne_eq, not_true_eq_false, if_false, h2]
      exact foldl_extend_of_ne t k hk

mutual

/-- On an object, `recurJSON` gives one pair for each scalar reachable through objects only; the
path of a pair is built from `pkey` by adding the keys one by one, each after a dot unless the
path so far is empty. -/
theorem recurJSON_scalars : ∀ (doc : Json) (pkey : String),
    (∃ ms, doc = .obj ms) →
    recurJSON doc pkey = doc.scalars.map
      (fun p => ⟨p.1.foldl (fun a k => (if a ≠ "" then a ++ "." else a) ++ k) pkey, p.2⟩)
  | .obj members, pkey, _ => by
    simp only [recurJSON, Json.scalars]
    exact forEach_scalars members pkey
  | .null, _, h | .bool _, _, h | .num _, _, h | .str _, _, h | .arr _, _, h => by
    obtain ⟨ms, hms⟩ := h
    cases hms

theorem forEach_scalars : ∀ (members : List (String × Json)) (pkey : String),
    recurJSON.forEach members (if pkey ≠ "" then pkey ++ "." else pkey) =
      (Json.scalarsOf members).map
        (fun p => ⟨p.1.foldl (fun a k => (if a ≠ "" then a ++ "." else a) ++ k) pkey, p.2⟩)
  | [], _ => rfl
  | (key, value) :: rest, pkey => by
    simp only [recurJSON.forEach, Json.scalarsOf, List.map_append]
    rw [forEach_scalars rest pkey]
    congr 1
    cases value with
    | obj ms =>
      simp only
      rw [recurJSON_scalars (.obj ms) _ ⟨ms, rfl⟩]
      simp only [List.map_map]
      rfl
    | arr _ => rfl
    | null => rfl
    | bool _ => rfl
    | num _ => rfl
    | str _ => rfl

end

/-- The pairs of an object document, flattened from the empty path. -/
theorem recurJSON_root (members : List (String × Json)) :
    recurJSON (.obj members) "" = (Json.scalarsOf members).map
      (fun p => ⟨".".intercalate (p.1.dropWhile (· = "")), p.2⟩) := by
  rw [recurJSON_scalars (.obj members) "" ⟨members, rfl⟩]
  simp only [Json.scalars]
  apply List.map_congr_left
  intro p _
  rw [foldl_extend_empty]

set_option maxRecDepth 100000 in
/-- C16, as the claim states it, fails: the document `{"":{"a":1}}` has the scalar `1` under the
keys `""` and `"a"`, which joined by a dot are `.a`, and `JsonIterator` returns the pair
`("a", 1)`. -/
theorem JsonIterator_drops_empty_key :
    parsesTo emptyKeyDocument (.obj [("", .obj [("a", .num 1)])]) = true ∧
    Json.scalarsOf [("", Json.obj [("a", Json.num 1)])] = [(["", "a"], GoValue.float64 1)] ∧
    ".".intercalate ["", "a"] = ".a" ∧
    JsonIterator emptyKeyDocument = [⟨"a", GoValue.float64 1⟩] := by
  refine ⟨?_, ?_, ?_, ?_⟩ <;> decide!

/-- C16, amended: for every text that parses to a JSON object, `JsonIterator` returns, in
document order, exactly one pair for each scalar reachable from the root through nested objects
only (none for an array, for anything inside an array, or for an object itself); the path of
the pair is the object keys on the way to the scalar joined by dots, after the empty keys at the
start of the way have been left out. When no key on the way to any scalar is empty, the path is
all the keys joined by dots, as the claim states. -/
theorem JsonIterator_flattens (json : String) (members : List (String × Json))
    (hparse : gjsonParse json = some (.obj members)) :
    JsonIterator json = (Json.scalarsOf members).map
      (fun p => ⟨".".intercalate (p.1.dropWhile (· = "")), p.2⟩) ∧
    ((∀ p ∈ Json.scalarsOf members, "" ∉ p.1) →
      JsonIterator json = (Json.scalarsOf members).map
        (fun p => ⟨".".intercalate p.1, p.2⟩)) := by
  have h : JsonIterator json = (Json.scalarsOf members).map
      (fun p => ⟨".".intercalate (p.1.dropWhile (· = "")), p.2⟩) := by
    unfold JsonIterator
    rw [hparse]
    exact recurJSON_root members
  refine ⟨h, ?_⟩
  intro hkeys
  rw [h]
  apply List.map_congr_left
  intro p hp
  have hnot := hkeys p hp
  cases hp1 : p.1 with
  | nil => rfl
  | cons k t =>
    rw [hp1] at hnot
    have hk : ¬ (k = "") := fun hk => hnot (by rw [hk]; exact List.mem_cons_self _ _)
    rw [List.dropWhile_cons_of_neg (by simpa using hk)]

set_option maxRecDepth 100000 in
/-- The amended C16 at a document with nested objects, an array and scalars of every kind. -/
theorem JsonIterator_flattens_witness :
    JsonIterator nestedDocument =
      [⟨"a.b", GoValue.float64 1⟩, ⟨"a.e.f", GoValue.string "x"⟩, ⟨"g", GoValue.nil⟩,
        ⟨"h", GoValue.bool true⟩] :=
  ((JsonIterator_flattens nestedDocument
    [("a", .obj [("b", .num 1), ("c", .arr [.num 2, .obj [("d", .num 3)]]),
        ("e", .obj [("f", .str "x")])]), ("g", .null), ("h", .bool true)]
    (gjsonParse_of_parsesTo _ _ (by decide!))).2 (by decide!)).trans (by decide!)

/-! ## C20: the iterator over the leaves -/

/-- The entries that the first loop of `Iterator` adds: one for each leaf, in order. -/
theorem iterator_elmntsLoop (lower : String) (gen : Nat) (els : List FormElement) :
    ∀ (i : Nat) (slice : List FormIterator),
      Iterator.elmntsLoop lower gen els i slice =
        slice ++ (List.range els.length).map (fun j => ⟨lower, ⟨[], gen, i + j⟩⟩) := by
  induction els with
  | nil => intro i slice; simp [Iterator.elmntsLoop]
  | cons el els ih =>
    intro i slice
    simp only [Iterator.elmntsLoop, ih, List.length_cons, List.range_succ_eq_map, List.map_cons,
      List.map_map, List.append_assoc, List.singleton_append, Nat.add_zero]
    congr 2
    apply List.map_congr_left
    intro j _
    simp only [Function.comp, Nat.succ_eq_add_one]
    congr 2
    omega

/-- What the second loop of `Iterator` does with one child. -/
theorem iterator_nodesLoop_cons (toLower : String → String) (title : String) (node : Form)
    (rest : List Form) (k : Nat) (slice : List FormIterator) :
    Iterator.nodesLoop toLower title (node :: rest) k slice =
      Iterator.nodesLoop toLower title rest (k + 1)
        ((node.Iterator toLower).map (FormIterator.lift toLower title k) ++ slice) := by
  rw [Iterator.nodesLoop]
  congr 2
  by_cases ht : title = ""
  · simp only [ht, ne_eq, not_true_eq_false, if_false]
    apply List.map_congr_left
    intro e _
    simp [FormIterator.lift]
  · simp only [ht, ne_eq, not_false_eq_true, if_true, List.map_map]
    apply List.map_congr_left
    intro e _
    simp [FormIterator.lift, ht]

/-- The second loop of `Iterator` puts what it collects in front of the entries it starts
with. -/
theorem iterator_nodesLoop_append (toLower : String → String) (title : String)
    (nodes : List Form) :
    ∀ (k : Nat) (slice : List FormIterator),
      Iterator.nodesLoop toLower title nodes k slice =
        Iterator.nodesLoop toLower title nodes k [] ++ slice := by
  induction nodes with
  | nil => intro k slice; simp [Iterator.nodesLoop]
  | cons node rest ih =>
    intro k slice
    rw [iterator_nodesLoop_cons, iterator_nodesLoop_cons, ih (k + 1) (_ ++ slice),
      ih (k + 1) (_ ++ []), List.append_nil, List.append_assoc]

/-- The entries of a container: those of its children, last child first, then one for each leaf
of its own. -/
theorem Iterator_eq (toLower : String → String) (f : Form) :
    f.Iterator toLower = Iterator.nodesLoop toLower f.Title f.Form 0 [] ++
      (List.range f.Elmnts.length).map (fun j => ⟨toLower f.Title, ⟨[], f.gen, j⟩⟩) := by
  cases f with
  | mk title form elmnts cap gen =>
    rw [Form.Iterator]
    simp only
    rw [iterator_nodesLoop_append, iterator_elmntsLoop]
    simp

/-- The path of a leaf below child `j`, from the path it has in that child. -/
theorem pathOf_cons (toLower : String → String) (f node : Form) (j : Nat) (rest : List Nat)
    (h : Form) (hnode : f.Form[j]? = some node) :
    f.pathOf toLower (j :: rest) h =
      if f.Title ≠ "" then toLower f.Title ++ "." ++ node.pathOf toLower rest h
      else node.pathOf toLower rest h := by
  unfold Form.pathOf
  rw [Form.titlesAbove, hnode]
  simp only
  by_cases ht : f.Title = ""
  · rw [List.filter_cons_of_neg (by simpa using ht)]
    simp [ht]
  · rw [List.filter_cons_of_pos (by simpa using ht)]
    simp only [ht, ne_eq, not_false_eq_true, if_true, List.map_cons, List.cons_append]
    cases hrest : List.map toLower (List.filter (· ≠ "") (node.titlesAbove rest))
        ++ [toLower h.Title] with
    | nil => simp at hrest
    | cons b l => rw [intercalate_cons_cons]

/-- Putting a child index in front of the paths of pointers that differ keeps them apart. -/
theorem nodup_lift (toLower : String → String) (title : String) (k : Nat)
    (l : List FormIterator) (h : (l.map (·.FormElement)).Nodup) :
    ((l.map (FormIterator.lift toLower title k)).map (·.FormElement)).Nodup := by
  have heq : (l.map (FormIterator.lift toLower title k)).map (·.FormElement) =
      (l.map (·.FormElement)).map (fun p => { p with path := k :: p.path }) := by
    simp only [List.map_map]
    rfl
  rw [heq]
  apply List.Nodup.map _ h
  intro p q hpq
  cases p; cases q
  simp only [Ptr.mk.injEq, List.cons.injEq, true_and] at hpq
  simp only [Ptr.mk.injEq]
  exact hpq

/-- The second loop of `Iterator` on no children collects nothing. -/
theorem nodesLoopOk_nil (toLower : String → String) : nodesLoopOk toLower [] := by
  intro title k
  refine ⟨rfl, by simp [Iterator.nodesLoop], ?_, ?_⟩
  · intro e he
    simp [Iterator.nodesLoop] at he
  · intro j node rest h idx hj
    simp at hj

/-- The second loop of `Iterator` on a first child with the expected entries and further
children from which the expected entries are collected. -/
theorem nodesLoopOk_cons (toLower : String → String) (node : Form) (rest : List Form)
    (hnode : node.IteratorOk toLower) (hrest : nodesLoopOk toLower rest) :
    nodesLoopOk toLower (node :: rest) := by
  intro title k
  obtain ⟨n1, n2, n3, n4⟩ := hnode
  obtain ⟨r1, r2, r3, r4⟩ := hrest title (k + 1)
  have heq : Iterator.nodesLoop toLower title (node :: rest) k [] =
      Iterator.nodesLoop toLower title rest (k + 1) [] ++
        (node.Iterator toLower).map (FormIterator.lift toLower title k) := by
    rw [iterator_nodesLoop_cons, iterator_nodesLoop_append, List.append_nil]
  rw [heq]
  refine ⟨?_, ?_, ?_, ?_⟩
  · simp only [List.length_append, List.length_map, r1, n1, leafCountOf]
    omega
  · rw [List.map_append]
    refine List.Nodup.append r2 (nodup_lift toLower title k _ n2) ?_
    intro p hp1 hp2
    obtain ⟨e1, he1, rfl⟩ := List.mem_map.1 hp1
    obtain ⟨e2, he2, hp⟩ := List.mem_map.1 hp2
    obtain ⟨e0, _, rfl⟩ := List.mem_map.1 he2
    obtain ⟨j, _, rest1, _, hpath, -⟩ := r3 e1 he1
    have : (FormIterator.lift toLower title k e0).FormElement.path
        = k :: e0.FormElement.path := rfl
    rw [hp, hpath] at this
    simp only [List.cons.injEq] at this
    omega
  · intro e he
    rcases List.mem_append.1 he with he | he
    · obtain ⟨j, nd, rest1, h, hpath, hj, hd, hg, hi, hP⟩ := r3 e he
      refine ⟨j + 1, nd, rest1, h, ?_, by simpa using hj, hd, hg, hi, hP⟩
      rw [hpath]
      congr 1
      omega
    · obtain ⟨e0, he0, rfl⟩ := List.mem_map.1 he
      obtain ⟨h, hd, hg, hi, hP⟩ := n3 e0 he0
      refine ⟨0, node, e0.FormElement.path, h, rfl, by simp, hd, hg, hi, ?_⟩
      simp only [FormIterator.lift, hP]
  · intro j nd rest1 h idx hj hd hi
    rw [List.map_append]
    cases j with
    | zero =>
      simp only [List.getElem?_cons_zero, Option.some.injEq] at hj
      subst hj
      apply List.mem_append_right
      obtain ⟨e0, he0, hp0⟩ := List.mem_map.1 (n4 rest1 h idx hd hi)
      refine List.mem_map.2 ⟨FormIterator.lift toLower title k e0,
        List.mem_map.2 ⟨e0, he0, rfl⟩, ?_⟩
      simp only [FormIterator.lift, hp0, Nat.add_zero]
    | succ j =>
      simp only [List.getElem?_cons_succ] at hj
      apply List.mem_append_left
      have := r4 j nd rest1 h idx hj hd hi
      have hk : k + 1 + j = k + (j + 1) := by omega
      rw [hk] at this
      exact this

/-- The entries of a container from which the second loop collects the expected entries. -/
theorem iteratorOk_of_nodes (toLower : String → String) (f : Form)
    (hnodes : nodesLoopOk toLower f.Form) : f.IteratorOk toLower := by
  obtain ⟨r1, r2, r3, r4⟩ := hnodes f.Title 0
  have hcount : f.leafCount = f.Elmnts.length + leafCountOf f.Form := by
    cases f
    rw [Form.leafCount]
  unfold Form.IteratorOk
  rw [Iterator_eq]
  refine ⟨?_, ?_, ?_, ?_⟩
  · simp only [List.length_append, List.length_map, List.length_range, r1, hcount]
    omega
  · rw [List.map_append]
    refine List.Nodup.append r2 ?_ ?_
    · simp only [List.map_map]
      apply List.Nodup.map _ (List.nodup_range _)
      intro a b hab
      simp only [Function.comp, Ptr.mk.injEq, true_and] at hab
      exact hab
    · intro p hp1 hp2
      obtain ⟨e1, he1, rfl⟩ := List.mem_map.1 hp1
      obtain ⟨j, _, rest1, _, hpath, -⟩ := r3 e1 he1
      simp only [List.map_map, List.mem_map, Function.comp] at hp2
      obtain ⟨a, _, ha⟩ := hp2
      rw [← ha] at hpath
      cases hpath
  · intro e he
    rcases List.mem_append.1 he with he | he
    · obtain ⟨j, nd, rest1, h, hpath, hj, hd, hg, hi, hP⟩ := r3 e he
      rw [Nat.zero_add] at hpath
      refine ⟨h, ?_, hg, hi, ?_⟩
      · rw [hpath, Form.descend, hj]
        exact hd
      · rw [hpath, pathOf_cons toLower f nd j rest1 h hj]
        exact hP
    · obtain ⟨j, hj, rfl⟩ := List.mem_map.1 he
      refine ⟨f, rfl, rfl, List.mem_range.1 hj, ?_⟩
      simp [Form.pathOf, Form.titlesAbove, String.intercalate, String.intercalate.go]
  · intro path h idx hd hi
    rw [List.map_append]
    cases path with
    | nil =>
      simp only [Form.descend, Option.some.injEq] at hd
      subst hd
      apply List.mem_append_right
      simp only [List.map_map, List.mem_map, Function.comp]
      exact ⟨idx, List.mem_range.2 hi, rfl⟩
    | cons j rest1 =>
      apply List.mem_append_left
      rw [Form.descend] at hd
      cases hj : f.Form[j]? with
      | none => rw [hj] at hd; cases hd
      | some nd =>
        rw [hj] at hd
        have := r4 j nd rest1 h idx hj hd hi
        rw [Nat.zero_add] at this
        exact this

mutual

/-- The entries of every container are the expected ones. -/
theorem Form.iteratorOk (toLower : String → String) :
    ∀ f : Filestash.Form, f.IteratorOk toLower
  | ⟨title, form, elmnts, cap, gen⟩ =>
    iteratorOk_of_nodes toLower ⟨title, form, elmnts, cap, gen⟩ (nodesLoopOk_all toLower form)

/-- The second loop of `Iterator` collects the expected entries from every sequence of
children. -/
theorem nodesLoopOk_all (toLower : String → String) :
    ∀ nodes : List Filestash.Form, nodesLoopOk toLower nodes
  | [] => nodesLoopOk_nil toLower
  | node :: rest =>
    nodesLoopOk_cons toLower node rest (Form.iteratorOk toLower node)
      (nodesLoopOk_all toLower rest)

end

set_option maxRecDepth 100000 in
/-- C20, as the claim states it, fails: in the container `a` with a child without title that
holds the leaf `e` and the child `c` with the leaf `d` (the containers that `Get("a..e")` and
`Get("a..c.d")` build), the entry for `d` has the path `a.c`, while the titles from `a` down to
`c` joined by dots are `a..c`. -/
theorem Iterator_skips_untitled :
    untitledChild.Iterator toLowerASCII = [⟨"a.c", ⟨[0, 0], 0, 0⟩⟩, ⟨"a.", ⟨[0], 0, 0⟩⟩] ∧
    (untitledChild.descend [0, 0]).map (fun h =>
      ".".intercalate ((untitledChild.statedSegments [0, 0] h).map toLowerASCII))
      = some "a..c" ∧
    (((NewConfiguration.Get "a..e").Get "a..c.d").form[5]?.map
      (fun f => (f.Iterator toLowerASCII).map (·.Path))) = some ["a.c", "a."] := by
  refine ⟨?_, ?_, ?_⟩ <;> decide!

/-- C20, amended: for every container `f` and whatever `strings.ToLower` does, `f.Iterator()`
has as many entries as there are leaves in `f` and below it; the pointers of the entries differ
from one another, each points to a leaf, and every leaf has one. The path of the entry for a
leaf is the lower case titles of the containers from `f` down to the container of the leaf,
joined by dots, where of the containers above the container of the leaf those with an empty
title give no segment. When the containers between `f` and the container of the leaf have titles
that are not empty, that is the path the claim states. -/
theorem Iterator_entries (toLower : String → String) (f : Form) :
    (f.Iterator toLower).length = f.leafCount ∧
    ((f.Iterator toLower).map (·.FormElement)).Nodup ∧
    (∀ (path : List Nat) (h : Form) (idx : Nat), f.descend path = some h →
      idx < h.Elmnts.length → ⟨path, h.gen, idx⟩ ∈ (f.Iterator toLower).map (·.FormElement)) ∧
    (∀ e ∈ f.Iterator toLower, ∃ h, f.descend e.FormElement.path = some h ∧
      h.gen = e.FormElement.gen ∧ e.FormElement.idx < h.Elmnts.length ∧
      e.Path = ".".intercalate
        (((f.titlesAbove e.FormElement.path).filter (· ≠ "")).map toLower ++ [toLower h.Title]) ∧
      ((∀ t ∈ (f.titlesAbove e.FormElement.path).tail, t ≠ "") →
        e.Path = ".".intercalate ((f.statedSegments e.FormElement.path h).map toLower))) := by
  obtain ⟨h1, h2, h3, h4⟩ := Form.iteratorOk toLower f
  refine ⟨h1, h2, h4, ?_⟩
  intro e he
  obtain ⟨h, hd, hg, hi, hP⟩ := h3 e he
  refine ⟨h, hd, hg, hi, hP, ?_⟩
  intro htail
  rw [hP]
  unfold Form.pathOf Form.statedSegments
  congr 1
  rw [List.map_append]
  congr 2
  cases hta : f.titlesAbove e.FormElement.path with
  | nil => simp
  | cons t ts =>
    rw [hta] at htail
    simp only [List.tail_cons] at htail
    have hts : ts.filter (· ≠ "") = ts := by
      apply List.filter_eq_self.2
      intro a ha
      simpa using htail a ha
    have ht : f.Title = t := by
      cases hp : e.FormElement.path with
      | nil => rw [hp, Form.titlesAbove] at hta; cases hta
      | cons j rest =>
        rw [hp, Form.titlesAbove] at hta
        simp only [List.cons.injEq] at hta
        exact hta.1
    by_cases h0 : t = ""
    · rw [List.filter_cons_of_neg (by simpa using h0), hts]
      simp [ht, h0]
    · rw [List.filter_cons_of_pos (by simpa using h0), hts]
      simp [ht, h0]

set_option maxRecDepth 100000 in
/-- The amended C20 at the declared schema under a container without title: twenty-one entries,
and the entry for the leaf `enable` of `share` under `features` has the path the claim
states. -/
theorem Iterator_entries_witness :
    (schemaRoot.Iterator toLowerASCII).length = 21 ∧
    ∃ h, schemaRoot.descend [1, 0] = some h ∧
      "features.share" = ".".intercalate ((schemaRoot.statedSegments [1, 0] h).map toLowerASCII) :=
  ⟨(Iterator_entries toLowerASCII schemaRoot).1.trans (by decide!),
    match (Iterator_entries toLowerASCII schemaRoot).2.2.2 ⟨"features.share", ⟨[1, 0], 0, 0⟩⟩
      (by decide!) with
    | ⟨h, h1, _, _, _, h5⟩ => ⟨h, h1, h5 (by decide!)⟩⟩

/-! ## C18: the export -/

/-- A path that names containers and a leaf that exist is resolved without a change to the
tree. -/
theorem traverse_of_resolves (path : List String) :
    ∀ forms : List Form, resolves forms path = true → (traverse forms path).forms = forms := by
  induction path with
  | nil => intro forms _; rfl
  | cons t rest ih =>
    intro forms h
    rw [resolves] at h
    cases hfind : findForm t forms with
    | none => rw [hfind] at h; cases h
    | some i =>
      rw [hfind] at h
      obtain ⟨cur, hcur⟩ := findForm_some hfind
      simp only [hcur.1] at h
      rw [traverse_of_isFirstTitled hcur]
      by_cases hlen : rest.length = 1
      · obtain ⟨name, rfl⟩ := List.length_eq_one.1 hlen
        simp only at h
        rw [traverseAt_leaf _ hcur]
        simp only
        obtain ⟨j, hj⟩ := Option.isSome_iff_exists.1 h
        obtain ⟨el, hel, hname⟩ := findElmnt_some hj
        rw [(leaf_of_mem (List.getElem?_mem hel) hname).1]
        exact set_of_getElem? hcur.1
      · rw [traverseAt_inner _ hcur rest hlen]
        simp only
        have h2 : resolves cur.Form rest = true := by
          match rest, hlen, h with
          | [], _, _ => rfl
          | [_], hlen, _ => exact absurd rfl hlen
          | _ :: _ :: _, _, h => exact h
        rw [ih cur.Form h2, form_eta]
        exact set_of_getElem? hcur.1

/-- The tree after `Get` extends the tree before it. -/
theorem Get_extends (this : Configuration) (key : String) :
    FormsExtend this.form (this.Get key).form := by
  unfold Configuration.Get
  cases h : this.cache.Get key with
  | none => exact traverse_extends (splitDot key) this.form
  | some tmp => exact formsExtend_refl this.form

/-- A `Get` that finds what it looks for leaves the tree as it is, and every key that was found
before is found after it. -/
theorem Get_of_serves (this : Configuration) (key : String) (h : serves this key = true) :
    (this.Get key).form = this.form ∧
    ∀ key2 : String, serves this key2 = true → serves (this.Get key) key2 = true := by
  have hform : (this.Get key).form = this.form := by
    unfold Configuration.Get
    cases hc : this.cache.Get key with
    | some tmp => rfl
    | none =>
      simp only [serves, hc, Option.isSome_none, Bool.false_or] at h
      exact traverse_of_resolves _ _ h
  refine ⟨hform, ?_⟩
  intro key2 h2
  unfold serves at h2 ⊢
  rw [hform]
  by_cases hk : key2 = key
  · rw [hk, Get_caches]
    rfl
  · cases hc : this.cache.Get key with
    | some tmp => rw [Get_of_cached this key tmp hc]; exact h2
    | none =>
      have : (this.Get key).cache.Get key2 = this.cache.Get key2 := by
        unfold Configuration.Get
        simp only [hc, KeyValueStore.Get_Set_ne _ _ _ _ hk]
      rw [this]
      exact h2

theorem formsExtend_length : ∀ (fs gs : List Form), FormsExtend fs gs → fs.length ≤ gs.length
  | [], _, _ => Nat.zero_le _
  | _ :: _, [], h => by simp [FormsExtend] at h
  | f :: fs, g :: gs, h => by
    simp only [FormsExtend] at h
    simp only [List.length_cons]
    exact Nat.succ_le_succ (formsExtend_length fs gs h.2)

theorem formsExtend_take : ∀ (fs gs : List Form), FormsExtend fs gs →
    FormsExtend fs (gs.take fs.length)
  | [], _, _ => by simp [FormsExtend]
  | _ :: _, [], h => by simp [FormsExtend] at h
  | f :: fs, g :: gs, h => by
    simp only [FormsExtend] at h
    simp only [List.length_cons, List.take_succ_cons, FormsExtend]
    exact ⟨h.1, formsExtend_take fs gs h.2⟩

/-- A `Get` on the receiver only appends to its tree. -/
theorem Receiver.sound_Get (forms : List Form) (r : Receiver) (key : String)
    (h : r.Sound forms) : (r.Get key).Sound forms := by
  unfold Receiver.Sound at h ⊢
  obtain ⟨h1, h2⟩ := h
  have hext := formsExtend_trans _ _ _ h2 (Get_extends r.copy key)
  unfold Receiver.Get
  dsimp only
  split
  · exact ⟨h1, hext⟩
  · exact ⟨h1, hext⟩

/-- What the caller sees of a receiver that has only appended, when the model follows it. -/
theorem Receiver.sound_tree (forms : List Form) (r : Receiver) (h : r.Sound forms)
    (tree : List Form) (htree : r.tree = some tree) :
    FormsExtend forms tree ∧ tree.length = forms.length := by
  unfold Receiver.Sound at h
  obtain ⟨h1, h2⟩ := h
  unfold Receiver.tree at htree
  split at htree
  · cases htree
  · simp only [Option.some.injEq] at htree
    rw [← htree, h1]
    refine ⟨formsExtend_take _ _ h2, ?_⟩
    rw [List.length_take]
    exact Nat.min_eq_left (formsExtend_length _ _ h2)

/-- A `Get` on the receiver that finds what it looks for leaves the tree of the caller as it
was. -/
theorem Receiver.same_Get (this : Configuration) (r : Receiver) (key : String)
    (h : r.Same this) (hkey : serves this key = true) : (r.Get key).Same this := by
  unfold Receiver.Same at h ⊢
  obtain ⟨h1, h2, h3, h4⟩ := h
  obtain ⟨g1, g2⟩ := Get_of_serves r.copy key (h4 key hkey)
  have hnot : ¬ (r.copy.form.length < (r.copy.Get key).form.length ∧
      r.cap ≤ r.copy.form.length) := by
    rw [g1]
    exact fun h => Nat.lt_irrefl _ h.1
  unfold Receiver.Get
  dsimp only
  rw [if_neg hnot]
  exact ⟨h1, h2, g1.trans h3, fun k hk => g2 k (h4 k hk)⟩

theorem Receiver.sound_foldl (forms : List Form) (keys : List String) :
    ∀ r : Receiver, r.Sound forms →
      (keys.foldl (fun r key => Receiver.Get key r) r).Sound forms := by
  induction keys with
  | nil => intro r h; exact h
  | cons key keys ih => intro r h; exact ih _ (Receiver.sound_Get forms r key h)

theorem Receiver.same_foldl (this : Configuration) (keys : List String) :
    ∀ r : Receiver, r.Same this → (∀ key ∈ keys, serves this key = true) →
      (keys.foldl (fun r key => Receiver.Get key r) r).Same this := by
  induction keys with
  | nil => intro r h _; exact h
  | cons key keys ih =>
    intro r h hkeys
    exact ih _ (Receiver.same_Get this r key h (hkeys key (List.mem_cons_self _ _)))
      (fun k hk => hkeys k (List.mem_cons_of_mem _ hk))

/-- The first container with a title keeps its place when the tree is extended. -/
theorem findForm_extends (t : String) : ∀ (fs gs : List Form) (i : Nat), FormsExtend fs gs →
    findForm t fs = some i → findForm t gs = some i
  | [], _, _, _, h => by simp [findForm] at h
  | _ :: _, [], _, h, _ => by simp [FormsExtend] at h
  | f :: fs, g :: gs, i, hext, h => by
    simp only [FormsExtend] at hext
    have htitle : f.Title = g.Title := ((Form.extends_iff f g).1 hext.1).1
    unfold findForm at h ⊢
    rw [← htitle]
    split at h
    · rename_i ht
      rw [if_pos ht]
      exact h
    · rename_i ht
      rw [if_neg ht]
      cases hrec : findForm t fs with
      | none => rw [hrec] at h; cases h
      | some k =>
        rw [hrec] at h
        rw [findForm_extends t fs gs k hext.2 hrec]
        exact h

/-- A walk that starts in a container that exists leaves the number of top level containers as
it is. -/
theorem traverse_length {forms : List Form} {p0 : String} {i : Nat}
    (h : findForm p0 forms = some i) (rest : List String) :
    (traverse forms (p0 :: rest)).forms.length = forms.length := by
  obtain ⟨cur, hcur⟩ := findForm_some h
  rw [traverse_of_isFirstTitled hcur]
  by_cases hlen : rest.length = 1
  · obtain ⟨name, rfl⟩ := List.length_eq_one.1 hlen
    rw [traverseAt_leaf _ hcur]
    simp
  · rw [traverseAt_inner _ hcur rest hlen]
    simp

/-- A `Get` for a key that starts with the title of a top level container leaves the number of
top level containers as it is. -/
theorem Get_length (this : Configuration) (key : String) (p0 : String)
    (hhead : (splitDot key).head? = some p0) (h : (findForm p0 this.form).isSome = true) :
    (this.Get key).form.length = this.form.length := by
  unfold Configuration.Get
  cases hc : this.cache.Get key with
  | some tmp => rfl
  | none =>
    obtain ⟨i, hi⟩ := Option.isSome_iff_exists.1 h
    cases hs : splitDot key with
    | nil => rw [hs] at hhead; cases hhead
    | cons a rest =>
      rw [hs] at hhead
      simp only [List.head?_cons, Option.some.injEq] at hhead
      subst hhead
      simp only
      exact traverse_length hi rest

/-- A `Get` on the receiver for a key under `general` or `features` does not move its slice. -/
theorem Receiver.shared_Get (r : Receiver) (key : String) (h : r.Shared)
    (hkey : (splitDot key).head? = some "general" ∨ (splitDot key).head? = some "features") :
    (r.Get key).Shared := by
  unfold Receiver.Shared at h ⊢
  obtain ⟨h1, h2, h3⟩ := h
  have hlen : (r.copy.Get key).form.length = r.copy.form.length := by
    rcases hkey with hk | hk
    · exact Get_length r.copy key _ hk h2
    · exact Get_length r.copy key _ hk h3
  have hnot : ¬ (r.copy.form.length < (r.copy.Get key).form.length ∧
      r.cap ≤ r.copy.form.length) := by
    rw [hlen]
    exact fun h => Nat.lt_irrefl _ h.1
  have hext := Get_extends r.copy key
  obtain ⟨i, hi⟩ := Option.isSome_iff_exists.1 h2
  obtain ⟨j, hj⟩ := Option.isSome_iff_exists.1 h3
  unfold Receiver.Get
  dsimp only
  rw [if_neg hnot]
  refine ⟨h1, ?_, ?_⟩
  · simp only [findForm_extends _ _ _ i hext hi, Option.isSome_some]
  · simp only [findForm_extends _ _ _ j hext hj, Option.isSome_some]

theorem Receiver.shared_foldl (keys : List String) :
    ∀ r : Receiver, r.Shared →
      (∀ key ∈ keys, (splitDot key).head? = some "general" ∨
        (splitDot key).head? = some "features") →
      (keys.foldl (fun r key => Receiver.Get key r) r).Shared := by
  induction keys with
  | nil => intro r h _; exact h
  | cons key keys ih =>
    intro r h hkeys
    exact ih _ (Receiver.shared_Get r key h (hkeys key (List.mem_cons_self _ _)))
      (fun k hk => hkeys k (List.mem_cons_of_mem _ hk))

/-- The tree that `Export` leaves to the caller is the one that the receiver leaves after its
nine calls of `Get`. -/
theorem Export_tree (formCap : Nat) (this : Configuration) :
    (this.Export formCap).2 =
      (exportKeys.foldl (fun r key => Receiver.Get key r)
        { copy := this, cap := formCap, len := this.form.length }).tree := by
  simp only [Configuration.Export, exportKeys, List.foldl_cons, List.foldl_nil]

set_option maxRecDepth 100000 in
/-- C18, as the claim states it, fails: on the configuration built by `NewConfiguration`, which
declares no `features.search.enable`, `Export()` returns `EnableSearch` false and leaves the
container `features` with a second child, `search`, that holds the leaf `enable`; the tree
renders to another text than before the call. -/
theorem Export_creates_search :
    serves NewConfiguration "features.search.enable" = false ∧
    (NewConfiguration.Export 5).1.EnableSearch = false ∧
    renderings NewConfiguration.form =
      ["\"general\":\x7b\"name\":null,\"port\":null,\"host\":null,\"secret_key\":null,\"force_ssl\":null,\"editor\":null,\"fork_button\":null,\"display_hidden\":null,\"auto_connect\":null,\"remember_me\":null,\"upload_button\":null\x7d",
        "\"features\":\x7b\"share\":\x7b\"enable\":null\x7d\x7d",
        "\"log\":\x7b\"enable\":null,\"level\":null,\"telemetry\":null\x7d",
        "\"email\":\x7b\"server\":null,\"port\":null,\"username\":null,\"password\":null,\"from\":null\x7d",
        "\"auth\":\x7b\"admin\":null\x7d"] ∧
    (NewConfiguration.Export 5).2.map renderings = some
      ["\"general\":\x7b\"name\":null,\"port\":null,\"host\":null,\"secret_key\":null,\"force_ssl\":null,\"editor\":null,\"fork_button\":null,\"display_hidden\":null,\"auto_connect\":null,\"remember_me\":null,\"upload_button\":null\x7d",
        "\"features\":\x7b\"share\":\x7b\"enable\":null\x7d,\"search\":\x7b\"enable\":null\x7d\x7d",
        "\"log\":\x7b\"enable\":null,\"level\":null,\"telemetry\":null\x7d",
        "\"email\":\x7b\"server\":null,\"port\":null,\"username\":null,\"password\":null,\"from\":null\x7d",
        "\"auth\":\x7b\"admin\":null\x7d"] := by
  refine ⟨?_, ?_, ?_, ?_⟩ <;> decide!

/-- C18, amended: for every configuration and every capacity of its top level slice, `Export()`
leaves the tree of the caller exactly as it was, so that it renders to the same text, when each
of the nine settings that `Export` reads is in the cache or names containers and a leaf that
exist. In any case it only appends: the tree after the call, where the model follows it, has as
many top level containers as before and extends the tree before (every container and every
leaf is still there, in order, with every field, `Value` and `Default` included, as it was).
The model follows the tree of the caller whenever the containers `general` and `features`
exist. -/
theorem Export_only_appends (formCap : Nat) (this : Configuration) :
    ((∀ key ∈ exportKeys, serves this key = true) →
      (this.Export formCap).2 = some this.form ∧
      (this.Export formCap).2.map renderings = some (renderings this.form)) ∧
    (∀ tree : List Form, (this.Export formCap).2 = some tree →
      FormsExtend this.form tree ∧ tree.length = this.form.length) ∧
    ((findForm "general" this.form).isSome = true →
      (findForm "features" this.form).isSome = true →
      (this.Export formCap).2.isSome = true) := by
  have hsound : Receiver.Sound this.form
      { copy := this, cap := formCap, len := this.form.length } := by
    unfold Receiver.Sound
    exact ⟨rfl, formsExtend_refl _⟩
  rw [Export_tree]
  refine ⟨?_, fun tree htree =>
    Receiver.sound_tree _ _ (Receiver.sound_foldl this.form exportKeys _ hsound) tree htree, ?_⟩
  swap
  · intro hg hf
    have hshared : Receiver.Shared { copy := this, cap := formCap, len := this.form.length } := by
      unfold Receiver.Shared
      exact ⟨rfl, hg, hf⟩
    have hfold := Receiver.shared_foldl exportKeys _ hshared (by decide)
    unfold Receiver.Shared at hfold
    unfold Receiver.tree
    rw [hfold.1]
    rfl
  intro hkeys
  have hsame : Receiver.Same this { copy := this, cap := formCap, len := this.form.length } := by
    unfold Receiver.Same
    exact ⟨rfl, rfl, rfl, fun _ hk => hk⟩
  have hfold := Receiver.same_foldl this exportKeys _ hsame hkeys
  unfold Receiver.Same at hfold
  obtain ⟨s1, s2, s3, -⟩ := hfold
  have htree : (exportKeys.foldl (fun r key => Receiver.Get key r)
      { copy := this, cap := formCap, len := this.form.length }).tree = some this.form := by
    unfold Receiver.tree
    rw [s1]
    simp only [Bool.false_eq_true, if_false]
    rw [s3, s2, List.take_length]
  rw [htree]
  exact ⟨rfl, rfl⟩

set_option maxRecDepth 100000 in
/-- The amended C18 at the configuration built by `NewConfiguration` after
`Get("features.search.enable")`, which finds all nine settings: eight in the tree and one in the
cache. -/
theorem Export_only_appends_witness :
    (∀ key ∈ exportKeys, serves (NewConfiguration.Get "features.search.enable") key = true) ∧
    ((NewConfiguration.Get "features.search.enable").Export 5).2
      = some (NewConfiguration.Get "features.search.enable").form :=
  ⟨by decide!,
    ((Export_only_appends 5 (NewConfiguration.Get "features.search.enable")).1
      (by decide!)).1⟩

/-! ## The hydration loop replayed with the cache kept

What the stale pointers of the cache do to a second run of the loop when the cache is not
emptied in between, which `Load` itself never does: the second run goes through the pointers of
the first and changes nothing in the tree. -/

theorem settle_Value (v : GoValue) (el : FormElement) :
    settle v el = { el with Value := (settle v el).Value } := by
  unfold settle
  split <;> rfl

theorem settle_Default (v : GoValue) (el : FormElement) : (settle v el).Default = el.Default := by
  unfold settle
  split <;> rfl

theorem settle_Value_if (v : GoValue) (el : FormElement) :
    (settle v el).Value = if el.effective ≠ v then v else el.Value := by
  unfold settle
  split <;> rfl

/-- The `Value` that a round leaves in the leaf. -/
theorem settle_Value_eq (v : GoValue) (el : FormElement) :
    (settle v el).Value =
      if v = GoValue.nil then GoValue.nil
      else if v = el.Default then (if el.Value = GoValue.nil then GoValue.nil else v)
      else v := by
  rw [settle_Value_if]
  unfold FormElement.effective
  generalize el.Value = V
  generalize el.Default = D
  by_cases h1 : V = GoValue.nil
  · subst h1
    simp only [ne_eq, not_true_eq_false, if_false, if_true]
    by_cases hv : v = GoValue.nil
    · subst hv
      simp only [if_true]
      split <;> rfl
    · simp only [hv, if_false]
      by_cases h2 : v = D
      · subst h2
        simp only [not_true_eq_false, if_false, if_true]
      · have h3 : ¬ (D = v) := fun h => h2 h.symm
        simp only [h2, h3, not_false_eq_true, if_true, if_false]
  · simp only [ne_eq, h1, not_false_eq_true, if_true, if_false]
    by_cases hv : v = GoValue.nil
    · subst hv
      simp only [h1, not_false_eq_true, if_true]
    · simp only [hv, if_false]
      by_cases h3 : V = v
      · subst h3
        simp only [not_true_eq_false, if_false]
        split <;> rfl
      · simp only [h3, not_false_eq_true, if_true]
        split <;> rfl

/-- Two leaves that differ in their `Value` only are equal once the values are. -/
theorem eq_of_Value_eq (a b : FormElement) (h : { a with Value := GoValue.nil } =
    { b with Value := GoValue.nil }) (hv : a.Value = b.Value) : a = b := by
  cases a; cases b
  simp only [FormElement.mk.injEq] at h ⊢
  simp only at hv
  obtain ⟨h1, h2, h3, h4, h5, h6, h7, h8, h9, -, h11, h12, h13, h14⟩ := h
  exact ⟨h1, h2, h3, h4, h5, h6, h7, h8, h9, hv, h11, h12, h13, h14⟩

/-- A round changes nothing but the `Value`. -/
theorem settle_rest (v : GoValue) (el : FormElement) :
    ({ settle v el with Value := GoValue.nil } : FormElement) = { el with Value := GoValue.nil } := by
  unfold settle
  split <;> rfl

theorem settleAll_rest (vs : List GoValue) : ∀ el : FormElement,
    ({ settleAll vs el with Value := GoValue.nil } : FormElement)
      = { el with Value := GoValue.nil } := by
  induction vs with
  | nil => intro el; rfl
  | cons v vs ih =>
    intro el
    unfold settleAll
    rw [List.foldl_cons]
    exact (ih (settle v el)).trans (settle_rest v el)

theorem settleAll_Default (vs : List GoValue) (el : FormElement) :
    (settleAll vs el).Default = el.Default := by
  have h := congrArg FormElement.Default (settleAll_rest vs el)
  exact h

theorem settleAll_append (vs ws : List GoValue) (el : FormElement) :
    settleAll (vs ++ ws) el = settleAll ws (settleAll vs el) := by
  unfold settleAll
  rw [List.foldl_append]

/-- A round leaves the same leaf behind on two leaves that differ in their `Value` only, when
both values are nil or neither is. -/
theorem settle_congr (v : GoValue) (a b : FormElement)
    (hrest : ({ a with Value := GoValue.nil } : FormElement) = { b with Value := GoValue.nil })
    (hnil : a.Value = GoValue.nil ↔ b.Value = GoValue.nil) : settle v a = settle v b := by
  apply eq_of_Value_eq
  · rw [settle_rest, settle_rest, hrest]
  · have hD : a.Default = b.Default := by
      have h := congrArg FormElement.Default hrest
      exact h
    rw [settle_Value_eq, settle_Value_eq, hD]
    by_cases h : a.Value = GoValue.nil
    · rw [if_pos h, if_pos (hnil.1 h)]
    · rw [if_neg h, if_neg (fun hb => h (hnil.2 hb))]

theorem settleAll_nil_iff (vs : List GoValue) : ∀ (a b : FormElement),
    ({ a with Value := GoValue.nil } : FormElement) = { b with Value := GoValue.nil } →
    (a.Value = GoValue.nil ↔ b.Value = GoValue.nil) →
    ((settleAll vs a).Value = GoValue.nil ↔ (settleAll vs b).Value = GoValue.nil) := by
  induction vs with
  | nil => intro a b _ h; exact h
  | cons v vs ih =>
    intro a b hrest hnil
    unfold settleAll
    rw [List.foldl_cons, List.foldl_cons, settle_congr v a b hrest hnil]

/-- A leaf that the rounds `vs` leave as it is, is after one more round `v` a leaf that the
rounds `vs` followed by `v` leave as it is. -/
theorem settleAll_fixed (vs : List GoValue) (v : GoValue) (x : FormElement)
    (hfix : settleAll vs x = x) : settleAll (vs ++ [v]) (settle v x) = settle v x := by
  rw [settleAll_append]
  show settle v (settleAll vs (settle v x)) = settle v x
  apply eq_of_Value_eq
  · rw [settle_rest, settleAll_rest]
  · have hD : (settleAll vs (settle v x)).Default = x.Default := by
      rw [settleAll_Default, settle_Default]
    rw [settle_Value_eq v (settleAll vs (settle v x)), settle_Value_eq v x, hD]
    by_cases hv : v = GoValue.nil
    · rw [if_pos hv, if_pos hv]
    · rw [if_neg hv, if_neg hv]
      by_cases h2 : v = x.Default
      · rw [if_pos h2, if_pos h2]
        have hiff : (settle v x).Value = GoValue.nil ↔ x.Value = GoValue.nil := by
          rw [settle_Value_eq, if_neg hv, if_pos h2]
          by_cases h : x.Value = GoValue.nil
          · simp only [h, if_true]
          · simp only [h, if_false, hv]
        have h3 := settleAll_nil_iff vs (settle v x) x (settle_rest v x) hiff
        rw [hfix] at h3
        by_cases h : x.Value = GoValue.nil
        · rw [if_pos h, if_pos (h3.2 h)]
        · rw [if_neg h, if_neg (fun hb => h (h3.1 hb))]
      · rw [if_neg h2, if_neg h2]

/-! ### Reading through one pointer after writing through another -/

theorem formAt_cons (forms : List Form) (i : Nat) (rest : List Nat) :
    formAt forms (i :: rest) =
      match forms[i]? with
      | none => none
      | some f => if rest = [] then some f else formAt f.Form rest := by
  cases rest with
  | nil => rw [formAt]; cases forms[i]? <;> rfl
  | cons j rest => rw [formAt]; cases forms[i]? <;> simp

theorem modifyFormAt_cons (g : Form → Form) (forms : List Form) (i : Nat) (rest : List Nat) :
    modifyFormAt g forms (i :: rest) =
      match forms[i]? with
      | none => forms
      | some f =>
        forms.set i (if rest = [] then g f else { f with Form := modifyFormAt g f.Form rest }) := by
  cases rest with
  | nil => rw [modifyFormAt]; cases forms[i]? <;> rfl
  | cons j rest => rw [modifyFormAt]; cases forms[i]? <;> simp

theorem getElem?_lt {α : Type} {l : List α} {i : Nat} {a : α} (h : l[i]? = some a) :
    i < l.length := by
  rcases Nat.lt_or_ge i l.length with hlt | hge
  · exact hlt
  · rw [List.getElem?_eq_none hge] at h; cases h

/-- A write to the leaves of one container leaves the leaves and the backing array of every
other container as they are. -/
theorem formAt_modify_ne (h : FormElement → FormElement) (idx : Nat) (p : List Nat) :
    ∀ (forms : List Form) (q : List Nat), q ≠ p →
      (formAt (modifyFormAt (Form.write h idx) forms p) q).map (fun f => (f.gen, f.Elmnts)) =
        (formAt forms q).map (fun f => (f.gen, f.Elmnts)) := by
  induction p with
  | nil => intro forms q _; rfl
  | cons i rest ih =>
    intro forms q hne
    rw [modifyFormAt_cons]
    cases hi : forms[i]? with
    | none => rfl
    | some f =>
      have hlt := getElem?_lt hi
      simp only
      cases q with
      | nil => rfl
      | cons k qrest =>
        rw [formAt_cons, formAt_cons]
        by_cases hk : k = i
        · subst hk
          simp only [List.getElem?_set_self hlt, hi]
          by_cases hq : qrest = []
          · subst hq
            have hrest : rest ≠ [] := fun hr => hne (by rw [hr])
            simp only [if_true, hrest, if_false, Option.map_some']
          · simp only [hq, if_false]
            by_cases hr : rest = []
            · simp only [hr, if_true, Form.write]
            · simp only [hr, if_false]
              exact ih f.Form qrest (fun hqr => hne (by rw [hqr]))
        · have hik : i ≠ k := fun h => hk h.symm
          rw [List.getElem?_set_ne hik]

/-- A write through a position that holds no container changes nothing. -/
theorem modifyFormAt_none (g : Form → Form) (p : List Nat) :
    ∀ forms : List Form, formAt forms p = none → modifyFormAt g forms p = forms := by
  induction p with
  | nil => intro forms _; rfl
  | cons i rest ih =>
    intro forms hnone
    rw [modifyFormAt_cons]
    rw [formAt_cons] at hnone
    cases hi : forms[i]? with
    | none => rfl
    | some f =>
      rw [hi] at hnone
      simp only at hnone ⊢
      by_cases hr : rest = []
      · simp [hr] at hnone
      · simp only [hr, if_false] at hnone ⊢
        rw [ih f.Form hnone, form_eta]
        exact set_of_getElem? hi

theorem getElem?_modifyElmnt_ne (g : FormElement → FormElement) (elmnts : List FormElement)
    (i j : Nat) (hne : j ≠ i) : (modifyElmnt g elmnts i)[j]? = elmnts[j]? := by
  unfold modifyElmnt
  cases elmnts[i]? with
  | none => rfl
  | some el =>
    simp only
    rw [List.getElem?_set_ne (fun h => hne h.symm)]

/-- The element a pointer refers to, from the generation and the leaves of its container. -/
theorem load_eq (this : Configuration) (p : Ptr) :
    this.load p =
      match (formAt this.form p.path).map (fun f => (f.gen, f.Elmnts)) with
      | none => none
      | some v =>
        if v.1 = p.gen then v.2[p.idx]?
        else (this.retired.find? (fun r => r.path = p.path ∧ r.gen = p.gen)).bind
          (fun r => r.elmnts[p.idx]?) := by
  unfold Configuration.load
  cases formAt this.form p.path <;> rfl

/-- After `*p = g(*p)` every other pointer reads what it read before. -/
theorem load_store_ne (this : Configuration) (p q : Ptr) (g : FormElement → FormElement)
    (hne : q ≠ p) : (this.store p g).load q = this.load q := by
  unfold Configuration.store
  cases hf : formAt this.form p.path with
  | none => rfl
  | some f =>
    simp only
    by_cases hgen : f.gen = p.gen
    · simp only [hgen, if_true]
      rw [load_eq, load_eq]
      simp only
      by_cases hpath : q.path = p.path
      · rw [hpath, formAt_modifyFormAt _ _ _ _ hf, hf]
        simp only [Option.map_some', Form.write]
        by_cases hq : f.gen = q.gen
        · have hidx : q.idx ≠ p.idx := by
            intro hidx
            apply hne
            cases p; cases q
            simp only [Ptr.mk.injEq]
            simp only at hpath hgen hq hidx
            exact ⟨hpath, hq.symm.trans hgen, hidx⟩
          simp only [hq, if_true]
          exact getElem?_modifyElmnt_ne g _ _ _ hidx
        · simp only [hq, if_false]
      · rw [formAt_modify_ne _ _ _ _ _ hpath]
    · simp only [hgen, if_false]
      rw [load_eq, load_eq]
      simp only
      cases hfq : (formAt this.form q.path).map (fun f => (f.gen, f.Elmnts)) with
      | none => rfl
      | some v =>
        simp only
        by_cases hv : v.1 = q.gen
        · simp only [hv, if_true]
        · simp only [hv, if_false]
          rw [List.find?_map]
          have hpred : ((fun r : Retired => decide (r.path = q.path ∧ r.gen = q.gen)) ∘
              fun r : Retired => if r.path = p.path ∧ r.gen = p.gen then
                { r with elmnts := modifyElmnt g r.elmnts p.idx } else r) =
              fun r : Retired => decide (r.path = q.path ∧ r.gen = q.gen) := by
            funext r
            simp only [Function.comp]
            split <;> rfl
          rw [hpred]
          cases hr : this.retired.find? (fun r => decide (r.path = q.path ∧ r.gen = q.gen)) with
          | none => rfl
          | some r =>
            have hrq := List.find?_some hr
            simp only [decide_eq_true_eq] at hrq
            simp only [Option.map_some', Option.bind_some]
            by_cases hrp : r.path = p.path ∧ r.gen = p.gen
            · have hidx : q.idx ≠ p.idx := by
                intro hidx
                apply hne
                cases p; cases q
                simp only [Ptr.mk.injEq]
                simp only at hrq hrp hidx
                exact ⟨hrq.1.symm.trans hrp.1, hrq.2.symm.trans hrp.2, hidx⟩
              simp only [hrp, and_self, if_true]
              exact getElem?_modifyElmnt_ne g _ _ _ hidx
            · simp only [hrp, if_false]

/-- A write through a pointer changes neither the cache nor, in any container, the generation
of the backing array or the number of leaves. -/
theorem store_shape (this : Configuration) (p : Ptr) (g : FormElement → FormElement)
    (q : List Nat) :
    (formAt (this.store p g).form q).map (fun f => (f.gen, f.Elmnts.length)) =
      (formAt this.form q).map (fun f => (f.gen, f.Elmnts.length)) := by
  unfold Configuration.store
  cases hf : formAt this.form p.path with
  | none => rfl
  | some f =>
    simp only
    by_cases hgen : f.gen = p.gen
    · simp only [hgen, if_true]
      by_cases hpath : q = p.path
      · rw [hpath, formAt_modifyFormAt _ _ _ _ hf, hf]
        simp only [Option.map_some', Form.write, modifyElmnt]
        cases f.Elmnts[p.idx]? <;> simp
      · have h := formAt_modify_ne g p.idx p.path this.form q hpath
        cases h1 : formAt (modifyFormAt (Form.write g p.idx) this.form p.path) q with
        | none =>
          rw [h1] at h
          cases h2 : formAt this.form q with
          | none => rfl
          | some b => rw [h2] at h; cases h
        | some a =>
          rw [h1] at h
          cases h2 : formAt this.form q with
          | none => rw [h2] at h; cases h
          | some b =>
            rw [h2] at h
            simp only [Option.map_some', Option.some.injEq, Prod.mk.injEq] at h ⊢
            exact ⟨h.1, by rw [h.2]⟩
    · simp only [hgen, if_false]

/-! ### What a tree walk leaves of the containers that were there -/

/-- The generation of the backing array after the leaf step of `traverse`: the array is the
old one, or a new one, in which case the old one is abandoned. -/
theorem leaf_gen (f : Form) (name : String) :
    ((f.leaf name).2.1.gen = f.gen ∧ (f.leaf name).2.2 = none) ∨
    ((f.leaf name).2.1.gen = f.gen + 1 ∧ (f.leaf name).2.2 = some f.Elmnts) := by
  unfold Form.leaf
  cases findElmnt name f.Elmnts with
  | some j => exact Or.inl ⟨rfl, rfl⟩
  | none =>
    simp only
    split
    · exact Or.inl ⟨rfl, rfl⟩
    · exact Or.inr ⟨rfl, rfl⟩

theorem formAt_append (l : List Form) : ∀ (forms : List Form) (ip : List Nat) (f : Form),
    formAt forms ip = some f → formAt (forms ++ l) ip = some f := by
  intro forms ip f h
  cases ip with
  | nil => simp [formAt] at h
  | cons k rest =>
    rw [formAt_cons] at h ⊢
    cases hk : forms[k]? with
    | none => rw [hk] at h; cases h
    | some a =>
      rw [List.getElem?_append_left (getElem?_lt hk), hk]
      rw [hk] at h
      exact h

theorem formAt_set_ne (forms : List Form) (i k : Nat) (x : Form) (rest : List Nat)
    (hne : k ≠ i) : formAt (forms.set i x) (k :: rest) = formAt forms (k :: rest) := by
  rw [formAt_cons, formAt_cons, List.getElem?_set_ne (fun h => hne h.symm)]

theorem formAt_set_self (forms : List Form) (i : Nat) (x cur : Form) (rest : List Nat)
    (hcur : forms[i]? = some cur) :
    formAt (forms.set i x) (i :: rest) = if rest = [] then some x else formAt x.Form rest := by
  rw [formAt_cons, List.getElem?_set_self (getElem?_lt hcur)]

/-- A container that was there before a tree walk is there after it, in the same place, with
the leaves it had as its first leaves; its backing array is the same, or a new one, in which
case the walk has abandoned the old one. -/
theorem traverse_frame (path : List String) :
    ∀ (forms : List Form) (ip : List Nat) (f : Form), formAt forms ip = some f →
      ∃ g, formAt (traverse forms path).forms ip = some g ∧ f.Elmnts <+: g.Elmnts ∧
        (g.gen = f.gen ∨
          (g.gen = f.gen + 1 ∧ (traverse forms path).retired = some ⟨ip, f.gen, f.Elmnts⟩)) := by
  induction path with
  | nil =>
    intro forms ip f h
    exact ⟨f, h, List.prefix_refl _, Or.inl rfl⟩
  | cons p0 rest ih =>
    intro forms ip f h
    obtain ⟨forms1, i, cur, hcur, hforms1, heq⟩ := traverse_cons forms p0 rest
    have h1 : formAt forms1 ip = some f := by
      rcases hforms1 with rfl | ⟨rfl, -⟩
      · exact h
      · exact formAt_append _ _ _ _ h
    rw [heq]
    cases ip with
    | nil => simp [formAt] at h
    | cons k qrest =>
      by_cases hlen : rest.length = 1
      · obtain ⟨name, rfl⟩ := List.length_eq_one.1 hlen
        rw [traverseAt_leaf _ hcur]
        simp only
        by_cases hk : k = i
        · subst hk
          rw [formAt_set_self _ _ _ _ _ hcur.1]
          rw [formAt_cons, hcur.1] at h1
          simp only at h1
          by_cases hq : qrest = []
          · subst hq
            simp only [if_true, Option.some.injEq] at h1 ⊢
            subst h1
            refine ⟨_, rfl, (leaf_spec cur name).2.2.1, ?_⟩
            rcases leaf_gen cur name with ⟨hg, hr⟩ | ⟨hg, hr⟩
            · exact Or.inl hg
            · exact Or.inr ⟨hg, by rw [hr]; rfl⟩
          · simp only [hq, if_false] at h1 ⊢
            rw [(leaf_spec cur name).2.1]
            exact ⟨f, h1, List.prefix_refl _, Or.inl rfl⟩
        · rw [formAt_set_ne _ _ _ _ _ hk]
          exact ⟨f, h1, List.prefix_refl _, Or.inl rfl⟩
      · rw [traverseAt_inner _ hcur rest hlen]
        simp only
        by_cases hk : k = i
        · subst hk
          rw [formAt_set_self _ _ _ _ _ hcur.1]
          rw [formAt_cons, hcur.1] at h1
          simp only at h1
          by_cases hq : qrest = []
          · subst hq
            simp only [if_true, Option.some.injEq] at h1 ⊢
            subst h1
            exact ⟨_, rfl, List.prefix_refl _, Or.inl rfl⟩
          · simp only [hq, if_false] at h1 ⊢
            obtain ⟨g, hg1, hg2, hg3⟩ := ih cur.Form qrest f h1
            refine ⟨g, hg1, hg2, ?_⟩
            rcases hg3 with hg | ⟨hg, hr⟩
            · exact Or.inl hg
            · exact Or.inr ⟨hg, by rw [hr]; rfl⟩
        · rw [formAt_set_ne _ _ _ _ _ hk]
          exact ⟨f, h1, List.prefix_refl _, Or.inl rfl⟩

/-- The backing array that a tree walk abandons belonged to a container that now has a newer
one. -/
theorem traverse_retired (path : List String) :
    ∀ (forms : List Form) (r : Retired), (traverse forms path).retired = some r →
      ∃ g, formAt (traverse forms path).forms r.path = some g ∧ r.gen < g.gen := by
  induction path with
  | nil => intro forms r h; simp [traverse] at h
  | cons p0 rest ih =>
    intro forms r h
    obtain ⟨forms1, i, cur, hcur, -, heq⟩ := traverse_cons forms p0 rest
    rw [heq] at h ⊢
    by_cases hlen : rest.length = 1
    · obtain ⟨name, rfl⟩ := List.length_eq_one.1 hlen
      rw [traverseAt_leaf _ hcur] at h ⊢
      simp only at h ⊢
      rcases leaf_gen cur name with ⟨hg, hr⟩ | ⟨hg, hr⟩
      · rw [hr] at h; cases h
      · rw [hr] at h
        simp only [Option.map_some', Option.some.injEq] at h
        subst h
        simp only
        rw [formAt_set_self _ _ _ _ _ hcur.1]
        exact ⟨_, rfl, by rw [hg]; exact Nat.lt_succ_self _⟩
    · rw [traverseAt_inner _ hcur rest hlen] at h ⊢
      simp only at h ⊢
      cases hsub : (traverse cur.Form rest).retired with
      | none => rw [hsub] at h; cases h
      | some o =>
        rw [hsub] at h
        simp only [Option.map_some', Option.some.injEq] at h
        subst h
        obtain ⟨g, hg1, hg2⟩ := ih cur.Form o hsub
        simp only
        rw [formAt_set_self _ _ _ _ _ hcur.1]
        have hne : o.path ≠ [] := by
          intro hnil
          rw [hnil] at hg1
          simp [formAt] at hg1
        simp only [hne, if_false]
        exact ⟨g, hg1, hg2⟩

/-- The pointer that a tree walk returns reads a leaf of the tree. -/
theorem traverse_elem (path : List String) (forms : List Form) (p : Ptr)
    (h : (traverse forms path).elem = some p) :
    ∃ f el, formAt (traverse forms path).forms p.path = some f ∧ f.gen = p.gen ∧
      f.Elmnts[p.idx]? = some el := by
  by_cases hlen : 2 ≤ path.length
  · obtain ⟨p1, f, el, hp, hd, hg, hel, -⟩ := traverse_resolves path forms hlen
    rw [hp] at h
    cases h
    exact ⟨f, el, (formAt_of_descends hd).1, hg, hel⟩
  · exfalso
    match path, hlen, h with
    | [], _, h => simp [traverse] at h
    | [p0], _, h =>
      obtain ⟨forms1, i, cur, hcur, -, heq⟩ := traverse_cons forms p0 []
      rw [heq, traverseAt_inner _ hcur [] (by simp)] at h
      simp [traverse] at h
    | _ :: _ :: _, hlen, _ => exact hlen (by simp)

/-! ### What `Get` leaves of the leaves that could be read before -/

/-- In a consistent configuration, a leaf that can be read through a pointer before `Get` reads
the same after it, whether the call walks the tree or not. -/
theorem Get_load (this : Configuration) (key : String) (hwf : Consistent this) (p : Ptr)
    (x : FormElement) (h : this.load p = some x) : (this.Get key).load p = some x := by
  unfold Configuration.Get
  cases hc : this.cache.Get key with
  | some tmp => exact h
  | none =>
    simp only
    unfold Configuration.load at h ⊢
    simp only
    cases hf : formAt this.form p.path with
    | none => rw [hf] at h; cases h
    | some f =>
      rw [hf] at h
      simp only at h
      obtain ⟨g, hg1, hg2, hg3⟩ := traverse_frame (splitDot key) this.form p.path f hf
      rw [hg1]
      simp only
      by_cases hgen : f.gen = p.gen
      · rw [if_pos hgen] at h
        rcases hg3 with hg | ⟨hg, hr⟩
        · rw [if_pos (hg.trans hgen)]
          obtain ⟨t, ht⟩ := hg2
          rw [← ht, List.getElem?_append_left (getElem?_lt h)]
          exact h
        · have hne : ¬ (g.gen = p.gen) := by omega
          rw [if_neg hne, hr]
          have hnone : this.retired.find? (fun r => decide (r.path = p.path ∧ r.gen = p.gen))
              = none := by
            apply List.find?_eq_none.2
            intro r hr hpred
            simp only [decide_eq_true_eq] at hpred
            obtain ⟨f2, hf2, hlt⟩ := hwf.2 r hr
            rw [hpred.1, hf] at hf2
            cases hf2
            omega
          rw [List.find?_append, hnone]
          simp only [Option.toList_some, Option.none_or, List.find?_cons, and_self,
            decide_True, hgen, Option.bind_some]
          exact h
      · rw [if_neg hgen] at h
        cases hr0 : this.retired.find? (fun r => decide (r.path = p.path ∧ r.gen = p.gen)) with
        | none => rw [hr0] at h; cases h
        | some r0 =>
          rw [hr0] at h
          have hmem := List.mem_of_find?_eq_some hr0
          have hpred := List.find?_some hr0
          simp only [decide_eq_true_eq] at hpred
          obtain ⟨f2, hf2, hlt⟩ := hwf.2 r0 hmem
          rw [hpred.1, hf] at hf2
          cases hf2
          have hne : ¬ (g.gen = p.gen) := by
            rcases hg3 with hg | ⟨hg, -⟩ <;> omega
          rw [if_neg hne, List.find?_append, hr0]
          exact h

/-- A key that the cache serves is served with the same pointer after any `Get`. -/
theorem Get_cache_of_cached (this : Configuration) (key key2 : String) (e : Option Ptr)
    (h : this.cache.Get key2 = some e) : (this.Get key).cache.Get key2 = some e := by
  by_cases hk : key2 = key
  · subst hk
    rw [Get_of_cached this key2 e h]
    exact h
  · rw [(Get_keeps_entries this key).1 key2 hk]
    exact h

/-- `Get` keeps a configuration consistent. -/
theorem Get_consistent (this : Configuration) (key : String) (hwf : Consistent this) :
    Consistent (this.Get key) := by
  refine ⟨?_, ?_⟩
  · intro key2 p hp
    by_cases hk : key2 = key
    · subst hk
      cases hc : this.cache.Get key2 with
      | some tmp =>
        rw [Get_cache_of_cached this key2 key2 tmp hc] at hp
        cases hp
        obtain ⟨x, hx⟩ := Option.isSome_iff_exists.1 (hwf.1 key2 p hc)
        rw [Get_load this key2 hwf p x hx]
        rfl
      | none =>
        rw [Get_caches] at hp
        simp only [Option.some.injEq] at hp
        have helem : (traverse this.form (splitDot key2)).elem = some p := by
          rw [← hp]
          simp only [Configuration.Get, hc]
        obtain ⟨f, el, hf, hg, hel⟩ := traverse_elem _ _ _ helem
        simp only [Configuration.Get, hc, Configuration.load, hf, hg, if_true, hel]
        rfl
    · rw [(Get_keeps_entries this key).1 key2 hk] at hp
      obtain ⟨x, hx⟩ := Option.isSome_iff_exists.1 (hwf.1 key2 p hp)
      rw [Get_load this key hwf p x hx]
      rfl
  · intro r hr
    unfold Configuration.Get at hr ⊢
    cases hc : this.cache.Get key with
    | some tmp =>
      rw [hc] at hr
      exact hwf.2 r hr
    | none =>
      rw [hc] at hr
      simp only at hr ⊢
      rcases List.mem_append.1 hr with hr | hr
      · obtain ⟨f, hf, hlt⟩ := hwf.2 r hr
        obtain ⟨g, hg1, -, hg3⟩ := traverse_frame (splitDot key) this.form r.path f hf
        refine ⟨g, hg1, ?_⟩
        rcases hg3 with hg | ⟨hg, -⟩ <;> omega
      · have hr2 : (traverse this.form (splitDot key)).retired = some r := by
          cases hret : (traverse this.form (splitDot key)).retired with
          | none => rw [hret] at hr; simp at hr
          | some r2 =>
            rw [hret] at hr
            simp only [Option.toList_some, List.mem_singleton] at hr
            rw [hr]
        exact traverse_retired _ _ _ hr2

/-! ### The assignment of a round, seen through the pointers -/

/-- A write to the leaves of one container changes the frame of no container, nor the number
of containers at the top level. -/
theorem modifyFormAt_frame (h : FormElement → FormElement) (idx : Nat) (p : List Nat) :
    ∀ (forms : List Form),
      (modifyFormAt (Form.write h idx) forms p).length = forms.length ∧
      ∀ q : List Nat, (formAt (modifyFormAt (Form.write h idx) forms p) q).map Form.frame =
        (formAt forms q).map Form.frame := by
  induction p with
  | nil => intro forms; exact ⟨rfl, fun _ => rfl⟩
  | cons i rest ih =>
    intro forms
    rw [modifyFormAt_cons]
    cases hi : forms[i]? with
    | none => exact ⟨rfl, fun _ => rfl⟩
    | some f =>
      have hlt := getElem?_lt hi
      simp only
      refine ⟨List.length_set _ _ _, ?_⟩
      intro q
      cases q with
      | nil => rfl
      | cons k qrest =>
        rw [formAt_cons, formAt_cons]
        by_cases hk : k = i
        · subst hk
          simp only [List.getElem?_set_self hlt, hi]
          by_cases hr : rest = []
          · subst hr
            simp only [if_true]
            by_cases hq : qrest = []
            · simp only [hq, if_true, Option.map_some', Form.write, Form.frame]
            · simp only [hq, if_false, Form.write]
          · simp only [hr, if_false]
            by_cases hq : qrest = []
            · simp only [hq, if_true, Option.map_some', Form.frame, (ih f.Form).1]
            · simp only [hq, if_false]
              exact (ih f.Form).2 qrest
        · have hik : i ≠ k := fun h => hk h.symm
          rw [List.getElem?_set_ne hik]

/-- A write through a pointer changes the frame of no container, nor the number of containers
at the top level. -/
theorem store_frame (this : Configuration) (p : Ptr) (g : FormElement → FormElement) :
    (this.store p g).form.length = this.form.length ∧
    ∀ q : List Nat, (formAt (this.store p g).form q).map Form.frame =
      (formAt this.form q).map Form.frame := by
  unfold Configuration.store
  cases hf : formAt this.form p.path with
  | none => exact ⟨rfl, fun _ => rfl⟩
  | some f =>
    simp only
    by_cases hgen : f.gen = p.gen
    · simp only [hgen, if_true]
      exact modifyFormAt_frame g p.idx p.path this.form
    · simp only [hgen, if_false, implies_true, and_self]

/-- A write through a pointer changes neither the position nor the generation of an abandoned
array. -/
theorem store_retired (this : Configuration) (p : Ptr) (g : FormElement → FormElement) :
    ∀ r ∈ (this.store p g).retired, ∃ r0 ∈ this.retired, r.path = r0.path ∧ r.gen = r0.gen := by
  unfold Configuration.store
  cases hf : formAt this.form p.path with
  | none => intro r hr; exact ⟨r, hr, rfl, rfl⟩
  | some f =>
    simp only
    by_cases hgen : f.gen = p.gen
    · simp only [hgen, if_true]
      intro r hr
      exact ⟨r, hr, rfl, rfl⟩
    · simp only [hgen, if_false]
      intro r hr
      obtain ⟨r0, hr0, heq⟩ := List.mem_map.1 hr
      refine ⟨r0, hr0, ?_⟩
      rw [← heq]
      split <;> exact ⟨rfl, rfl⟩

/-- What the pointers read after the assignment of a round. -/
theorem settled_load (this : Configuration) (p q : Ptr) (v : GoValue) :
    (settled this p v).load q =
      if q = p then (this.load p).map (settle v) else this.load q := by
  unfold settled
  cases hx : this.load p with
  | none =>
    simp only
    by_cases hq : q = p
    · rw [if_pos hq, hq, hx]; rfl
    · rw [if_neg hq]
  | some x =>
    simp only
    by_cases heff : x.effective = v
    · simp only [heff, ne_eq, not_true_eq_false, if_false]
      by_cases hq : q = p
      · rw [if_pos hq, hq, hx]
        simp only [Option.map_some', settle, heff, ne_eq, not_true_eq_false, if_false]
      · rw [if_neg hq]
    · simp only [ne_eq, heff, not_false_eq_true, if_true]
      by_cases hq : q = p
      · rw [if_pos hq, hq, load_store this p _ x hx]
        simp only [Option.map_some', settle, ne_eq, heff, not_false_eq_true, if_true]
      · rw [if_neg hq, load_store_ne this p q _ hq]

/-- The assignment of a round leaves the cache as it is. -/
theorem settled_cache (this : Configuration) (p : Ptr) (v : GoValue) :
    (settled this p v).cache = this.cache := by
  unfold settled
  cases this.load p with
  | none => rfl
  | some x =>
    simp only
    split
    · exact store_cache this p _
    · rfl

/-- The assignment of a round changes the frame of no container, nor the number of containers
at the top level. -/
theorem settled_frame (this : Configuration) (p : Ptr) (v : GoValue) :
    (settled this p v).form.length = this.form.length ∧
    ∀ q : List Nat, (formAt (settled this p v).form q).map Form.frame =
      (formAt this.form q).map Form.frame := by
  unfold settled
  cases this.load p with
  | none => exact ⟨rfl, fun _ => rfl⟩
  | some x =>
    simp only
    split
    · exact store_frame this p _
    · exact ⟨rfl, fun _ => rfl⟩

/-- The assignment of a round keeps a configuration consistent. -/
theorem settled_consistent (this : Configuration) (p : Ptr) (v : GoValue)
    (hwf : Consistent this) : Consistent (settled this p v) := by
  refine ⟨?_, ?_⟩
  · intro key q hq
    rw [settled_cache] at hq
    have h := hwf.1 key q hq
    rw [settled_load]
    by_cases hqp : q = p
    · rw [if_pos hqp, ← hqp]
      obtain ⟨x, hx⟩ := Option.isSome_iff_exists.1 h
      rw [hx]; rfl
    · rw [if_neg hqp]; exact h
  · intro r hr
    have hret : ∃ r0 ∈ this.retired, r.path = r0.path ∧ r.gen = r0.gen := by
      unfold settled at hr
      cases hx : this.load p with
      | none => rw [hx] at hr; exact ⟨r, hr, rfl, rfl⟩
      | some x =>
        rw [hx] at hr
        simp only at hr
        split at hr
        · exact store_retired this p _ r hr
        · exact ⟨r, hr, rfl, rfl⟩
    obtain ⟨r0, hr0, hpath, hgen⟩ := hret
    obtain ⟨f, hf, hlt⟩ := hwf.2 r0 hr0
    have hfr := (settled_frame this p v).2 r.path
    rw [hpath, hf] at hfr
    cases hg : formAt (settled this p v).form r0.path with
    | none => rw [hg] at hfr; cases hfr
    | some g =>
      rw [hg] at hfr
      simp only [Option.map_some', Option.some.injEq, Form.frame, Prod.mk.injEq] at hfr
      rw [hpath]
      refine ⟨g, hg, ?_⟩
      rw [hgen, hfr.2.2.1]
      exact hlt

/-- One round of the hydration loop, when `Get` has set the current element to a leaf that can
be read and the value is no byte slice: the round returns, with the assignment made. -/
theorem hydrateStep_some (this : Configuration) (d : JSONIterator) (p : Ptr) (x : FormElement)
    (hv : ∀ b, d.Value ≠ GoValue.bytes b)
    (hcur : (this.Get d.Path).currentElement = some p)
    (hx : (this.Get d.Path).load p = some x) :
    hydrateStep this d = .returned (settled (this.Get d.Path) p d.Value) := by
  unfold hydrateStep settled
  simp only [Interface_of_load _ p x hcur hx, GoValue.ne_of_not_bytes _ _ hv, hcur, hx]
  by_cases heff : x.effective = d.Value
  · simp [heff]
  · simp [heff]

/-- One round of the hydration loop, when `Get` has set the current element to nil and the value
is no byte slice: the round returns, and changes nothing, when the value is nil, and panics
otherwise. -/
theorem hydrateStep_none (this : Configuration) (d : JSONIterator)
    (hv : ∀ b, d.Value ≠ GoValue.bytes b)
    (hcur : (this.Get d.Path).currentElement = none) :
    hydrateStep this d = if d.Value = GoValue.nil then .returned (this.Get d.Path)
      else .panicked (this.Get d.Path) := by
  unfold hydrateStep
  have hint : (this.Get d.Path).Interface = GoValue.nil := by
    unfold Configuration.Interface
    rw [hcur]
  simp only [hint, GoValue.ne_of_not_bytes _ _ hv, hcur]
  by_cases hnil : d.Value = GoValue.nil
  · simp [hnil]
  · have hne : ¬ (GoValue.nil = d.Value) := fun h => hnil h.symm
    simp [hnil, hne]

/-! ### The first pass over the pairs -/

theorem roundsAt_append (this : Configuration) (hist : List JSONIterator) (d : JSONIterator)
    (p : Ptr) :
    roundsAt this (hist ++ [d]) p =
      roundsAt this hist p ++
        (if this.cache.Get d.Path = some (some p) then [d.Value] else []) := by
  unfold roundsAt
  rw [List.filter_append, List.map_append]
  congr 1
  by_cases h : this.cache.Get d.Path = some (some p)
  · simp [h]
  · simp [h]

theorem roundsAt_congr (s t : Configuration) (hist : List JSONIterator) (p : Ptr)
    (h : ∀ d ∈ hist, t.cache.Get d.Path = s.cache.Get d.Path) :
    roundsAt t hist p = roundsAt s hist p := by
  unfold roundsAt
  congr 1
  apply List.filter_congr
  intro d hd
  rw [h d hd]

/-- In a consistent configuration no round reaches a pointer that cannot be read. -/
theorem roundsAt_of_load_none (this : Configuration) (hist : List JSONIterator) (p : Ptr)
    (hwf : Consistent this) (h : this.load p = none) : roundsAt this hist p = [] := by
  unfold roundsAt
  rw [List.map_eq_nil_iff, List.filter_eq_nil_iff]
  intro d _ hd
  simp only [decide_eq_true_eq] at hd
  have := hwf.1 d.Path p hd
  rw [h] at this
  cases this

/-- The state of the loop after some rounds is such a state after `Get` as well. -/
theorem Hydrated_Get (this : Configuration) (hist : List JSONIterator) (key : String)
    (h : Hydrated this hist) : Hydrated (this.Get key) hist := by
  obtain ⟨hwf, hcached, hfix⟩ := h
  have hsame : ∀ d ∈ hist, (this.Get key).cache.Get d.Path = this.cache.Get d.Path := by
    intro d hd
    obtain ⟨e, he, -⟩ := hcached d hd
    rw [Get_cache_of_cached this key d.Path e he, he]
  refine ⟨Get_consistent this key hwf, ?_, ?_⟩
  · intro d hd
    obtain ⟨e, he, hnil⟩ := hcached d hd
    exact ⟨e, by rw [hsame d hd, he], hnil⟩
  · intro p x hx
    rw [roundsAt_congr this (this.Get key) hist p hsame]
    cases hy : this.load p with
    | none => rw [roundsAt_of_load_none this hist p hwf hy]; rfl
    | some y =>
      have := Get_load this key hwf p y hy
      rw [hx] at this
      cases this
      exact hfix p x hy

/-- One round keeps the state of the loop such a state, with the round added. -/
theorem Hydrated_round (this s : Configuration) (hist : List JSONIterator) (d : JSONIterator)
    (hv : ∀ b, d.Value ≠ GoValue.bytes b) (h : Hydrated this hist)
    (hstep : hydrateStep this d = .returned s) : Hydrated s (hist ++ [d]) := by
  have ht := Hydrated_Get this hist d.Path h
  obtain ⟨hwf, hcached, hfix⟩ := ht
  have hc := Get_caches this d.Path
  cases hcur : (this.Get d.Path).currentElement with
  | none =>
    rw [hcur] at hc
    rw [hydrateStep_none this d hv hcur] at hstep
    by_cases hnil : d.Value = GoValue.nil
    · rw [if_pos hnil] at hstep
      cases hstep
      refine ⟨hwf, ?_, ?_⟩
      · intro d2 hd2
        rcases List.mem_append.1 hd2 with hd2 | hd2
        · exact hcached d2 hd2
        · rw [List.mem_singleton] at hd2
          subst hd2
          exact ⟨none, hc, fun _ => hnil⟩
      · intro p x hx
        rw [roundsAt_append, hc]
        have hne : ¬ (some (none : Option Ptr) = some (some p)) := by
          intro h
          cases h
        rw [if_neg hne, List.append_nil]
        exact hfix p x hx
    · rw [if_neg hnil] at hstep
      cases hstep
  | some p =>
    rw [hcur] at hc
    obtain ⟨x, hx⟩ := Option.isSome_iff_exists.1 (hwf.1 d.Path p hc)
    rw [hydrateStep_some this d p x hv hcur hx] at hstep
    cases hstep
    refine ⟨settled_consistent _ p d.Value hwf, ?_, ?_⟩
    · intro d2 hd2
      rw [settled_cache]
      rcases List.mem_append.1 hd2 with hd2 | hd2
      · exact hcached d2 hd2
      · rw [List.mem_singleton] at hd2
        subst hd2
        exact ⟨some p, hc, fun h => by cases h⟩
    · intro q y hy
      have hrounds : roundsAt (settled (this.Get d.Path) p d.Value) (hist ++ [d]) q =
          roundsAt (this.Get d.Path) (hist ++ [d]) q :=
        roundsAt_congr _ _ _ q (fun d2 _ => by rw [settled_cache])
      rw [hrounds, roundsAt_append, hc]
      rw [settled_load] at hy
      by_cases hq : q = p
      · subst hq
        rw [if_pos rfl, hx] at hy
        simp only [Option.map_some', Option.some.injEq] at hy
        subst hy
        simp only [if_true]
        exact settleAll_fixed _ d.Value x (hfix q x hx)
      · rw [if_neg hq] at hy
        have hne : ¬ (some (some p) = some (some q)) := by
          intro h
          simp only [Option.some.injEq] at h
          exact hq h.symm
        rw [if_neg hne, List.append_nil]
        exact hfix q y hy

/-- The loop keeps its state such a state, with its rounds added. -/
theorem Hydrated_loop (ds : List JSONIterator) :
    ∀ (this s : Configuration) (hist : List JSONIterator),
      (∀ d ∈ ds, ∀ b, d.Value ≠ GoValue.bytes b) → Hydrated this hist →
      hydrateLoop this ds = .returned s → Hydrated s (hist ++ ds) := by
  induction ds with
  | nil =>
    intro this s hist _ h hloop
    simp only [hydrateLoop, Outcome.returned.injEq] at hloop
    subst hloop
    rw [List.append_nil]
    exact h
  | cons d ds ih =>
    intro this s hist hv h hloop
    rw [hydrateLoop] at hloop
    cases hstep : hydrateStep this d with
    | panicked t => rw [hstep] at hloop; cases hloop
    | returned t =>
      rw [hstep] at hloop
      simp only at hloop
      have := ih t s (hist ++ [d]) (fun d2 hd2 => hv d2 (List.mem_cons_of_mem _ hd2))
        (Hydrated_round this t hist d (hv d (List.mem_cons_self _ _)) h hstep) hloop
      rw [List.append_assoc] at this
      exact this

/-! ### The second pass over the pairs -/

/-- A round of the second pass: the cache serves the path, so the round returns, and the state
is the one of the first pass with one more round replayed. -/
theorem Replayed_round (s u : Configuration) (all done : List JSONIterator) (d : JSONIterator)
    (hs : Hydrated s all) (hd : d ∈ all) (hv : ∀ b, d.Value ≠ GoValue.bytes b)
    (hu : Replayed s u done) :
    ∃ t, hydrateStep u d = .returned t ∧ Replayed s t (done ++ [d]) := by
  obtain ⟨hwf, hcached, -⟩ := hs
  obtain ⟨hcache, hlen, hframe, hload⟩ := hu
  obtain ⟨e, he, hnil⟩ := hcached d hd
  have heu : u.cache.Get d.Path = some e := by rw [hcache]; exact he
  have hget := Get_of_cached u d.Path e heu
  cases e with
  | none =>
    have hcur : (u.Get d.Path).currentElement = none := by rw [hget]
    rw [hydrateStep_none u d hv hcur, if_pos (hnil rfl), hget]
    refine ⟨_, rfl, hcache, hlen, hframe, ?_⟩
    intro p
    rw [roundsAt_append, he]
    have hne : ¬ (some (none : Option Ptr) = some (some p)) := by
      intro h
      cases h
    rw [if_neg hne, List.append_nil]
    exact hload p
  | some p =>
    have hcur : (u.Get d.Path).currentElement = some p := by rw [hget]
    obtain ⟨x, hx⟩ := Option.isSome_iff_exists.1 (hwf.1 d.Path p he)
    have hux : (u.Get d.Path).load p = some (settleAll (roundsAt s done p) x) := by
      rw [hget]
      have := hload p
      rw [hx] at this
      exact this
    rw [hydrateStep_some u d p _ hv hcur hux]
    refine ⟨_, rfl, ?_, ?_, ?_, ?_⟩
    · rw [settled_cache, hget]
      exact hcache
    · rw [(settled_frame _ p d.Value).1, hget]
      exact hlen
    · intro q
      rw [(settled_frame _ p d.Value).2 q, hget]
      exact hframe q
    · intro q
      rw [settled_load, roundsAt_append, he]
      by_cases hq : q = p
      · subst hq
        rw [if_pos rfl, hux, hx, if_pos rfl]
        simp only [Option.map_some', settleAll_append]
        rfl
      · rw [if_neg hq]
        have hne : ¬ (some (some p) = some (some q)) := by
          intro h
          simp only [Option.some.injEq] at h
          exact hq h.symm
        rw [if_neg hne, List.append_nil, hget]
        exact hload q

/-- The second pass: it returns, in the state of the first pass with every round replayed. -/
theorem Replayed_loop (s : Configuration) (all : List JSONIterator) (hs : Hydrated s all)
    (todo : List JSONIterator) :
    ∀ (u : Configuration) (done : List JSONIterator),
      (∀ d ∈ todo, d ∈ all ∧ ∀ b, d.Value ≠ GoValue.bytes b) → Replayed s u done →
      ∃ t, hydrateLoop u todo = .returned t ∧ Replayed s t (done ++ todo) := by
  induction todo with
  | nil =>
    intro u done _ hu
    refine ⟨u, rfl, ?_⟩
    rw [List.append_nil]
    exact hu
  | cons d ds ih =>
    intro u done hall hu
    obtain ⟨hd, hv⟩ := hall d (List.mem_cons_self _ _)
    obtain ⟨t, hstep, ht⟩ := Replayed_round s u all done d hs hd hv hu
    obtain ⟨t2, hloop, ht2⟩ := ih t (done ++ [d])
      (fun d2 hd2 => hall d2 (List.mem_cons_of_mem _ hd2)) ht
    refine ⟨t2, ?_, ?_⟩
    · rw [hydrateLoop, hstep]
      exact hloop
    · rw [List.append_assoc] at ht2
      exact ht2

/-! ### The loop run twice with the cache kept -/

mutual

/-- Containers with the same frame and the same leaves, whose children at every position have
the same frame and the same leaves, are equal. -/
theorem Form.eq_of_views : ∀ (f g : Form), f.frame = g.frame → f.Elmnts = g.Elmnts →
    (∀ q : List Nat, (formAt f.Form q).map (fun c => (c.frame, c.Elmnts)) =
      (formAt g.Form q).map (fun c => (c.frame, c.Elmnts))) → f = g
  | ⟨t, form, el, cap, gen⟩, ⟨t2, form2, el2, cap2, gen2⟩, hfr, hel, hq => by
    simp only [Form.frame, Prod.mk.injEq] at hfr
    obtain ⟨h1, h2, h3, h4⟩ := hfr
    simp only at hel hq
    have h5 := forms_eq_of_views form form2 h4 hq
    subst h1 h2 h3 h5 hel
    rfl

/-- Sequences of containers of the same length that have, at every position below them,
containers with the same frame and the same leaves, are equal. -/
theorem forms_eq_of_views : ∀ (a b : List Form), a.length = b.length →
    (∀ q : List Nat, (formAt a q).map (fun c => (c.frame, c.Elmnts)) =
      (formAt b q).map (fun c => (c.frame, c.Elmnts))) → a = b
  | [], [], _, _ => rfl
  | [], _ :: _, h, _ => by simp at h
  | _ :: _, [], h, _ => by simp at h
  | f :: fs, g :: gs, hlen, hq => by
    have h0 := hq [0]
    simp only [formAt, List.getElem?_cons_zero, Option.map_some', Option.some.injEq,
      Prod.mk.injEq] at h0
    have hf : f = g := by
      apply Form.eq_of_views f g h0.1 h0.2
      intro q
      cases q with
      | nil => rfl
      | cons j rest =>
        have := hq (0 :: j :: rest)
        simp only [formAt, List.getElem?_cons_zero] at this
        exact this
    have hs : fs = gs := by
      apply forms_eq_of_views fs gs (by simpa using hlen)
      intro q
      cases q with
      | nil => rfl
      | cons j rest =>
        have := hq ((j + 1) :: rest)
        rw [formAt_cons, formAt_cons] at this ⊢
        simp only [List.getElem?_cons_succ] at this
        exact this
    rw [hf, hs]

end

/-- Two configurations whose trees have containers with the same frames at the same positions,
and whose pointers read the same leaves, have the same tree. -/
theorem form_eq_of_load (s u : Configuration) (hlen : u.form.length = s.form.length)
    (hframe : ∀ q : List Nat,
      (formAt u.form q).map Form.frame = (formAt s.form q).map Form.frame)
    (hload : ∀ p : Ptr, u.load p = s.load p) : u.form = s.form := by
  apply forms_eq_of_views _ _ hlen
  intro q
  have hfr := hframe q
  cases hf : formAt s.form q with
  | none =>
    rw [hf] at hfr
    cases hg : formAt u.form q with
    | none => rfl
    | some g => rw [hg] at hfr; cases hfr
  | some f =>
    rw [hf] at hfr
    cases hg : formAt u.form q with
    | none => rw [hg] at hfr; cases hfr
    | some g =>
      rw [hg] at hfr
      simp only [Option.map_some', Option.some.injEq] at hfr ⊢
      have hgen : g.gen = f.gen := by
        have := congrArg (fun v => v.2.2.1) hfr
        exact this
      rw [hfr]
      simp only [Prod.mk.injEq, true_and]
      apply List.ext_getElem?
      intro i
      have := hload ⟨q, f.gen, i⟩
      simp only [Configuration.load, hf, hg, hgen, if_true] at this
      exact this

/-- The values that `Result.Value()` gives are no byte slices. -/
theorem Json.Value_ne_bytes (j : Json) (b : String) : j.Value ≠ GoValue.bytes b := by
  cases j <;> simp [Json.Value]

mutual

/-- No pair that `recurJSON` gives holds a byte slice. -/
theorem recurJSON_ne_bytes : ∀ (doc : Json) (pkey : String),
    ∀ d ∈ recurJSON doc pkey, ∀ b, d.Value ≠ GoValue.bytes b
  | .obj members, pkey, d, hd, b => by
    simp only [recurJSON] at hd
    exact forEach_ne_bytes members _ d hd b
  | .arr elems, pkey, d, hd, b => by
    simp only [recurJSON] at hd
    exact forEachElem_ne_bytes elems _ d hd b
  | .null, _, d, hd, b | .bool _, _, d, hd, b | .num _, _, d, hd, b | .str _, _, d, hd, b => by
    simp only [recurJSON, List.mem_singleton] at hd
    rw [hd]
    simp only
    exact Json.Value_ne_bytes _ b

theorem forEach_ne_bytes : ∀ (members : List (String × Json)) (pkey : String),
    ∀ d ∈ recurJSON.forEach members pkey, ∀ b, d.Value ≠ GoValue.bytes b
  | [], _, d, hd, _ => by simp [recurJSON.forEach] at hd
  | (key, value) :: rest, pkey, d, hd, b => by
    simp only [recurJSON.forEach, List.mem_append] at hd
    rcases hd with hd | hd
    · cases value with
      | obj ms => exact recurJSON_ne_bytes (.obj ms) _ d hd b
      | arr _ => simp at hd
      | null => simp only [List.mem_singleton] at hd; rw [hd]; simp only; exact Json.Value_ne_bytes _ b
      | bool _ => simp only [List.mem_singleton] at hd; rw [hd]; simp only; exact Json.Value_ne_bytes _ b
      | num _ => simp only [List.mem_singleton] at hd; rw [hd]; simp only; exact Json.Value_ne_bytes _ b
      | str _ => simp only [List.mem_singleton] at hd; rw [hd]; simp only; exact Json.Value_ne_bytes _ b
    · exact forEach_ne_bytes rest pkey d hd b

theorem forEachElem_ne_bytes : ∀ (elems : List Json) (pkey : String),
    ∀ d ∈ recurJSON.forEachElem elems pkey, ∀ b, d.Value ≠ GoValue.bytes b
  | [], _, d, hd, _ => by simp [recurJSON.forEachElem] at hd
  | value :: rest, pkey, d, hd, b => by
    simp only [recurJSON.forEachElem, List.mem_append] at hd
    rcases hd with hd | hd
    · cases value with
      | obj ms => exact recurJSON_ne_bytes (.obj ms) _ d hd b
      | arr _ => simp at hd
      | null => simp only [List.mem_singleton] at hd; rw [hd]; simp only; exact Json.Value_ne_bytes _ b
      | bool _ => simp only [List.mem_singleton] at hd; rw [hd]; simp only; exact Json.Value_ne_bytes _ b
      | num _ => simp only [List.mem_singleton] at hd; rw [hd]; simp only; exact Json.Value_ne_bytes _ b
      | str _ => simp only [List.mem_singleton] at hd; rw [hd]; simp only; exact Json.Value_ne_bytes _ b
    · exact forEachElem_ne_bytes rest pkey d hd b

end

/-- No pair that `JsonIterator` gives holds a byte slice. -/
theorem JsonIterator_ne_bytes (json : String) :
    ∀ d ∈ JsonIterator json, ∀ b, d.Value ≠ GoValue.bytes b := by
  unfold JsonIterator
  cases gjsonParse json with
  | none => intro d hd; simp at hd
  | some doc => exact recurJSON_ne_bytes doc ""

/-- A configuration with an empty cache and no abandoned array is consistent. -/
theorem consistent_of_fresh (this : Configuration) (hc : this.cache = [])
    (hr : this.retired = []) : Consistent this := by
  refine ⟨?_, ?_⟩
  · intro key p h
    rw [hc] at h
    cases h
  · intro r h
    rw [hr] at h
    cases h

/-- The hydration loop of `Load` replayed: when the loop returns on a list of pairs without
byte slices, a second run over the same pairs, from the state the first left, returns as well
and leaves the tree as the first run left it. -/
theorem hydrateLoop_twice (this s : Configuration) (ds : List JSONIterator)
    (hv : ∀ d ∈ ds, ∀ b, d.Value ≠ GoValue.bytes b) (hwf : Consistent this)
    (hrun : hydrateLoop this ds = .returned s) :
    ∃ t, hydrateLoop s ds = .returned t ∧ t.form = s.form ∧ t.cache = s.cache := by
  have h0 : Hydrated this [] := by
    refine ⟨hwf, ?_, ?_⟩
    · intro d hd
      cases hd
    · intro p x _
      rfl
  have hs : Hydrated s ds := by
    have := Hydrated_loop ds this s [] hv h0 hrun
    rw [List.nil_append] at this
    exact this
  have hr0 : Replayed s s [] := by
    refine ⟨rfl, rfl, fun _ => rfl, ?_⟩
    intro p
    cases s.load p <;> rfl
  obtain ⟨t, hloop, hcache, hlen, hframe, hload⟩ :=
    Replayed_loop s ds hs ds s [] (fun d hd => ⟨hd, hv d hd⟩) hr0
  refine ⟨t, hloop, ?_, hcache⟩
  apply form_eq_of_load s t hlen hframe
  intro p
  rw [hload p, List.nil_append]
  cases hx : s.load p with
  | none => rfl
  | some x =>
    simp only [Option.map_some', Option.some.injEq]
    exact hs.2.2 p x hx

/-- The hydration loop run twice on the pairs of one document with the cache kept in between,
a sequence that `Load` does not go through, since it empties the cache after the loop: when the
first run returns from a consistent configuration, the second returns as well and leaves the
tree as the first left it. The second run is served from the cache throughout, stale pointers
included, and so repeats the writes of the first. -/
theorem hydration_twice (this : Configuration) (json : String) (hwf : Consistent this)
    (hrun : (hydrateLoop this (JsonIterator json)).returns = true) :
    (hydrateLoop (hydrateLoop this (JsonIterator json)).state (JsonIterator json)).returns
      = true ∧
    (hydrateLoop (hydrateLoop this (JsonIterator json)).state (JsonIterator json)).state.form
      = (hydrateLoop this (JsonIterator json)).state.form := by
  cases h : hydrateLoop this (JsonIterator json) with
  | panicked s => rw [h] at hrun; cases hrun
  | returned s =>
    obtain ⟨t, ht, hform, -⟩ :=
      hydrateLoop_twice this s (JsonIterator json) (JsonIterator_ne_bytes json) hwf h
    simp only [Outcome.state, ht, Outcome.returns, hform, and_self]

/-! ### Consistency is kept by every operation -/

/-- A write through a pointer keeps a configuration consistent. -/
theorem store_consistent (this : Configuration) (p : Ptr) (g : FormElement → FormElement)
    (hwf : Consistent this) : Consistent (this.store p g) := by
  refine ⟨?_, ?_⟩
  · intro key q hq
    rw [store_cache] at hq
    have h := hwf.1 key q hq
    obtain ⟨x, hx⟩ := Option.isSome_iff_exists.1 h
    by_cases hqp : q = p
    · subst hqp
      rw [load_store this q g x hx]
      rfl
    · rw [load_store_ne this p q g hqp]
      exact h
  · intro r hr
    obtain ⟨r0, hr0, hpath, hgen⟩ := store_retired this p g r hr
    obtain ⟨f, hf, hlt⟩ := hwf.2 r0 hr0
    have hfr := (store_frame this p g).2 r.path
    rw [hpath, hf] at hfr
    cases hg : formAt (this.store p g).form r0.path with
    | none => rw [hg] at hfr; cases hfr
    | some f2 =>
      rw [hg] at hfr
      simp only [Option.map_some', Option.some.injEq, Form.frame, Prod.mk.injEq] at hfr
      rw [hpath]
      refine ⟨f2, hg, ?_⟩
      rw [hgen, hfr.2.2.1]
      exact hlt

/-- Emptying the cache keeps a configuration consistent. -/
theorem clear_consistent (this : Configuration) (hwf : Consistent this) :
    Consistent { this with cache := this.cache.Clear } := by
  refine ⟨?_, hwf.2⟩
  intro key q hq
  cases hq

/-- Handing the document to the configuration file keeps a configuration consistent. -/
theorem Save_consistent (this : Configuration) (hwf : Consistent this) :
    Consistent this.Save := hwf

/-- The method `Set` keeps a configuration consistent, however it ends. -/
theorem Set_consistent (this : Configuration) (value : GoValue) (hwf : Consistent this) :
    Consistent (this.Set value).state := by
  unfold Configuration.Set
  cases this.currentElement with
  | none => exact hwf
  | some p =>
    simp only
    have hc := clear_consistent this hwf
    split
    · exact hc
    · split
      · exact hc
      · exact Save_consistent _ (store_consistent _ p _ hc)
      · exact hc

/-- The method `Default` keeps a configuration consistent, however it ends. -/
theorem Default_consistent (this : Configuration) (value : GoValue) (hwf : Consistent this) :
    Consistent (this.Default value).state := by
  unfold Configuration.Default
  cases this.currentElement with
  | none => exact hwf
  | some p =>
    simp only
    split
    · exact hwf
    · split
      · exact Save_consistent _ (store_consistent _ p _ hwf)
      · split <;> exact hwf

/-- The method `Schema` keeps a configuration consistent. -/
theorem Schema_consistent (this : Configuration) (fn : FormElement → FormElement)
    (hwf : Consistent this) : Consistent (this.Schema fn) := by
  unfold Configuration.Schema
  cases this.currentElement with
  | none => exact clear_consistent this hwf
  | some p => exact clear_consistent _ (store_consistent this p fn hwf)

/-- One round of the hydration loop keeps a configuration consistent, however it ends. -/
theorem hydrateStep_consistent (this : Configuration) (d : JSONIterator)
    (hwf : Consistent this) : Consistent (hydrateStep this d).state := by
  have hg := Get_consistent this d.Path hwf
  unfold hydrateStep
  simp only
  split
  · exact hg
  · exact hg
  · split
    · exact hg
    · split
      · exact hg
      · exact store_consistent _ _ _ hg

/-- The hydration loop keeps a configuration consistent, however it ends. -/
theorem hydrateLoop_consistent (ds : List JSONIterator) :
    ∀ this : Configuration, Consistent this → Consistent (hydrateLoop this ds).state := by
  induction ds with
  | nil => intro this hwf; exact hwf
  | cons d ds ih =>
    intro this hwf
    have hstep := hydrateStep_consistent this d hwf
    rw [hydrateLoop]
    cases h : hydrateStep this d with
    | returned t =>
      rw [h] at hstep
      exact ih t hstep
    | panicked t =>
      rw [h] at hstep
      exact hstep

/-- The method `Load` keeps a configuration consistent, however it ends. -/
theorem Load_consistent (this : Configuration) (file : Option String)
    (hwf : Consistent this) : Consistent (this.Load file).state := by
  unfold Configuration.Load
  cases file with
  | none => exact hwf
  | some cFile =>
    simp only
    have hloop := hydrateLoop_consistent (JsonIterator cFile) this hwf
    unfold Configuration.hydrate
    cases h : hydrateLoop this (JsonIterator cFile) with
    | returned t =>
      rw [h] at hloop
      exact Get_consistent _ _ (clear_consistent t hloop)
    | panicked t =>
      rw [h] at hloop
      exact hloop

end Filestash
